import Mathlib

/-!
# A verification development for the `sleek_csv` arena CSV engine

Shallow embedding of the repository's core: the raw record arena
(`src/raw.rs`), the byte record arena (`src/byte_arena.rs`), the
incremental reader (`src/reader.rs`) and the encoder (`src/writer.rs`).
Rust `Vec<u8>` / `Vec<usize>` are modelled as `List Nat`; `Vec` methods
(`resize`, `truncate`, `copy_within`, indexed writes) are translated
literally, so the buffer over-commit / double-on-full / shrink-back
machinery of the reader is present in the model.

The external `csv_core` tokenizer is not part of the repository; it is
modelled from the spec (sections 4.1 and 6) as a byte-level automaton
whose quoting state persists across calls and whose field-end offsets
are cumulative within the current record.
-/

namespace SleekCsv

/-! ## Vec model helpers -/

/-- Model of `Vec::resize(n, v)`: truncate to `n` or pad with `v` up to `n`. -/
def listResize (l : List Nat) (n : Nat) (v : Nat) : List Nat :=
  l.take n ++ List.replicate (n - l.length) v

theorem listResize_length (l : List Nat) (n v : Nat) : (listResize l n v).length = n := by
  simp only [listResize, List.length_append, List.length_take, List.length_replicate]
  omega

theorem listResize_grow (l : List Nat) (n v : Nat) (h : l.length ≤ n) :
    listResize l n v = l ++ List.replicate (n - l.length) v := by
  simp [listResize, List.take_of_length_le h]

theorem listResize_take (l : List Nat) (n v k : Nat) (hk : k ≤ l.length) (hn : l.length ≤ n) :
    (listResize l n v).take k = l.take k := by
  rw [listResize_grow l n v hn, List.take_append_of_le_length hk]

/-- Model of `slice::copy_within(k.., 0)`: the suffix starting at `k` is copied
onto the front; positions past the copied region keep their old values. -/
def listCopyWithinFrom (l : List Nat) (k : Nat) : List Nat :=
  l.drop k ++ l.drop (l.length - k)

theorem listCopyWithinFrom_take (l : List Nat) (k : Nat) :
    (listCopyWithinFrom l k).take (l.length - k) = l.drop k := by
  have h : (l.drop k).length = l.length - k := List.length_drop k l
  simp [listCopyWithinFrom, List.take_append_of_le_length (Nat.le_of_eq h.symm),
    List.take_of_length_le (Nat.le_of_eq h)]

/-! ## The tokenizer (decode direction)

Modelled from the spec: the `csv_core::Reader` collaborator (spec section 6).
State: a configurable delimiter byte, the quoting/escaping context which
persists across calls, the cumulative count of decoded bytes written for the
current record (`output_pos`, so field ends are record-relative as
`src/raw.rs` documents: "starting from 0 for each record"), and a line
counter (csv_core's `line()`, used only for `Position` stamping). -/

def quoteByte : Nat := 34

def lfByte : Nat := 10

inductive CoreState
  | startRecord
  | startField
  | inField
  | inQuoted
  | quoteInQuoted
deriving Repr, DecidableEq

structure CoreReader where
  delim : Nat
  state : CoreState
  output_pos : Nat
  line : Nat
deriving Repr, DecidableEq

def CoreReader.new (delim : Nat) : CoreReader :=
  ⟨delim, .startRecord, 0, 1⟩

/-- The effect of consuming one input byte: nothing observable, one decoded
output byte, a field end (carrying the cumulative in-record offset), or a
field end that also completes the record. -/
inductive StepEff
  | silent
  | wrote (b : Nat)
  | fieldEnd (e : Nat)
  | recordEnd (e : Nat)
deriving Repr, DecidableEq

/-- One byte of the decoding automaton.  Modelled from the spec: quote-doubling
escapes inside quoted fields, a configurable delimiter, LF record terminator,
blank lines skipped at record start. -/
def coreStep (c : CoreReader) (b : Nat) : CoreReader × StepEff :=
  match c.state with
  | .startRecord =>
      if b = lfByte then ({ c with line := c.line + 1 }, .silent)
      else if b = quoteByte then ({ c with state := .inQuoted }, .silent)
      else if b = c.delim then ({ c with state := .startField }, .fieldEnd c.output_pos)
      else ({ c with state := .inField, output_pos := c.output_pos + 1 }, .wrote b)
  | .startField =>
      if b = quoteByte then ({ c with state := .inQuoted }, .silent)
      else if b = c.delim then (c, .fieldEnd c.output_pos)
      else if b = lfByte then
        ({ c with state := .startRecord, output_pos := 0, line := c.line + 1 },
          .recordEnd c.output_pos)
      else ({ c with state := .inField, output_pos := c.output_pos + 1 }, .wrote b)
  | .inField =>
      if b = c.delim then ({ c with state := .startField }, .fieldEnd c.output_pos)
      else if b = lfByte then
        ({ c with state := .startRecord, output_pos := 0, line := c.line + 1 },
          .recordEnd c.output_pos)
      else ({ c with output_pos := c.output_pos + 1 }, .wrote b)
  | .inQuoted =>
      if b = quoteByte then ({ c with state := .quoteInQuoted }, .silent)
      else ({ c with output_pos := c.output_pos + 1 }, .wrote b)
  | .quoteInQuoted =>
      if b = quoteByte then ({ c with state := .inQuoted, output_pos := c.output_pos + 1 }, .wrote b)
      else if b = c.delim then ({ c with state := .startField }, .fieldEnd c.output_pos)
      else if b = lfByte then
        ({ c with state := .startRecord, output_pos := 0, line := c.line + 1 },
          .recordEnd c.output_pos)
      else ({ c with state := .inField, output_pos := c.output_pos + 1 }, .wrote b)

/-! ### The pure denotation of one `read_record` tokenizer call

`pureTokGo` runs `coreStep` over the input with unbounded output room,
returning the produced decoded bytes and field ends.  It is the yardstick the
buffered model is proved against. -/

inductive GoStop
  | inputEmpty
  | endOfData
  | record
deriving Repr, DecidableEq

/-- Result of a pure single-record tokenizer run: stop reason, final state,
unconsumed input, decoded bytes produced, field ends produced (for a `record`
stop the record's final field end is included). -/
def pureTokGo (c : CoreReader) (input : List Nat) :
    GoStop × CoreReader × List Nat × List Nat × List Nat :=
  match input with
  | [] => (.inputEmpty, c, [], [], [])
  | b :: rest =>
      match coreStep c b with
      | (c', .silent) => pureTokGo c' rest
      | (c', .wrote ob) =>
          let (r, c'', rem, d, e) := pureTokGo c' rest
          (r, c'', rem, ob :: d, e)
      | (c', .fieldEnd en) =>
          let (r, c'', rem, d, e) := pureTokGo c' rest
          (r, c'', rem, d, en :: e)
      | (c', .recordEnd en) => (.record, c', rest, [], [en])

/-- A whole tokenizer call, including the end-of-input handling: called on an
empty slice, csv_core interprets it as end of stream — at a record boundary it
reports `End`; mid-record it (erroneously, per the spec's documented quirk)
finishes the current record. -/
def pureTokRR (c : CoreReader) (input : List Nat) :
    GoStop × CoreReader × List Nat × List Nat × List Nat :=
  match input with
  | [] =>
      if c.state = .startRecord then (.endOfData, c, [], [], [])
      else (.record, { c with state := .startRecord, output_pos := 0 }, [], [], [c.output_pos])
  | b :: rest => pureTokGo c (b :: rest)

/-! ### The buffered tokenizer call

The modelled `csv_core::Reader::read_record(input, output, ends)`.  In
`src/reader.rs` the output slices handed to csv_core start at the Reader's
bookkeeping offsets `field_data_len` / `field_ends_len` into the arena's
over-committed buffers, and on return those offsets advance by the reported
`bytes_out` / `ends_out`; the model fuses the two, writing at the absolute
offsets directly.  A byte whose output (a decoded byte, or a field end) does
not fit is not consumed, and the call stops with the corresponding
full-destination result. -/

inductive CoreResult
  | inputEmpty
  | endOfData
  | record
  | outputFull
  | outputEndsFull
deriving Repr, DecidableEq

structure CoreOut where
  res : CoreResult
  c : CoreReader
  input : List Nat
  fd : List Nat
  fdl : Nat
  fe : List Nat
  fel : Nat
deriving Repr, DecidableEq

/-- The byte loop of a tokenizer call over nonempty-at-entry input. -/
def coreReadGo (c : CoreReader) (input : List Nat) (fd : List Nat) (fdl : Nat)
    (fe : List Nat) (fel : Nat) : CoreOut :=
  match input with
  | [] => ⟨.inputEmpty, c, [], fd, fdl, fe, fel⟩
  | b :: rest =>
      match coreStep c b with
      | (c', .silent) => coreReadGo c' rest fd fdl fe fel
      | (c', .wrote ob) =>
          if fdl < fd.length then coreReadGo c' rest (fd.set fdl ob) (fdl + 1) fe fel
          else ⟨.outputFull, c, b :: rest, fd, fdl, fe, fel⟩
      | (c', .fieldEnd en) =>
          if fel < fe.length then coreReadGo c' rest fd fdl (fe.set fel en) (fel + 1)
          else ⟨.outputEndsFull, c, b :: rest, fd, fdl, fe, fel⟩
      | (c', .recordEnd en) =>
          if fel < fe.length then
            ⟨.record, c', rest, fd, fdl, fe.set fel en, fel + 1⟩
          else ⟨.outputEndsFull, c, b :: rest, fd, fdl, fe, fel⟩

/-- A full tokenizer call: an empty input slice signals end of stream (the
quirk `Reader::fill_arena` guards against: mid-record it emits a final
record). -/
def coreRead (c : CoreReader) (input : List Nat) (fd : List Nat) (fdl : Nat)
    (fe : List Nat) (fel : Nat) : CoreOut :=
  match input with
  | [] =>
      if c.state = .startRecord then ⟨.endOfData, c, [], fd, fdl, fe, fel⟩
      else if fel < fe.length then
        ⟨.record, { c with state := .startRecord, output_pos := 0 }, [], fd, fdl,
          fe.set fel c.output_pos, fel + 1⟩
      else ⟨.outputEndsFull, c, [], fd, fdl, fe, fel⟩
  | b :: rest => coreReadGo c (b :: rest) fd fdl fe fel

theorem take_set_succ (l : List Nat) (p x : Nat) (h : p < l.length) :
    (l.set p x).take (p + 1) = l.take p ++ [x] := by
  induction l generalizing p with
  | nil => simp at h
  | cons a t ih =>
      cases p with
      | zero => simp
      | succ q =>
          simp only [List.set, List.take, List.cons_append]
          rw [ih q (by simpa using h)]

/-- The per-result postcondition of a buffered tokenizer call, against the
pure denotation: a real stop is the pure run's stop, a full-destination stop
composes (by resumption) with the pure run of the remaining input. -/
def GoPost (res : CoreResult) (c : CoreReader) (input : List Nat) (c' : CoreReader)
    (input' D E : List Nat) (dcap ecap fdl' fel' : Nat) : Prop :=
  match res with
  | .inputEmpty => pureTokGo c input = (.inputEmpty, c', input', D, E) ∧ input' = []
  | .record => pureTokGo c input = (.record, c', input', D, E) ∧ input'.length < input.length
  | .outputFull =>
      (∀ r c₂ rem d₂ e₂, pureTokGo c' input' = (r, c₂, rem, d₂, e₂) →
        pureTokGo c input = (r, c₂, rem, D ++ d₂, E ++ e₂)) ∧
      dcap ≤ fdl' ∧ input' ≠ [] ∧ (input'.length < input.length ∨ (input' = input ∧ c' = c))
  | .outputEndsFull =>
      (∀ r c₂ rem d₂ e₂, pureTokGo c' input' = (r, c₂, rem, d₂, e₂) →
        pureTokGo c input = (r, c₂, rem, D ++ d₂, E ++ e₂)) ∧
      ecap ≤ fel' ∧ input' ≠ [] ∧ (input'.length < input.length ∨ (input' = input ∧ c' = c))
  | .endOfData => False

theorem progress_cons {P : Prop} {input' : List Nat} {b : Nat} {rest : List Nat}
    (h : input'.length < rest.length ∨ (input' = rest ∧ P)) :
    input'.length < (b :: rest).length := by
  rcases h with h | ⟨h, -⟩
  · exact h.trans_le (by simp)
  · rw [h]; simp

/-- What one buffered tokenizer call does, stated against the pure denotation:
the buffers keep their lengths, the write offsets advance to the produced
bytes/ends (appended to the previous contents), and the result satisfies
`GoPost`. -/
theorem coreReadGo_spec (input : List Nat) (c : CoreReader) (fd : List Nat) (fdl : Nat)
    (fe : List Nat) (fel : Nat) (res : CoreResult) (c' : CoreReader) (input' fd' : List Nat)
    (fdl' : Nat) (fe' : List Nat) (fel' : Nat)
    (hd : fdl ≤ fd.length) (he : fel ≤ fe.length)
    (heq : coreReadGo c input fd fdl fe fel = ⟨res, c', input', fd', fdl', fe', fel'⟩) :
    fd'.length = fd.length ∧ fe'.length = fe.length ∧
    fdl ≤ fdl' ∧ fdl' ≤ fd.length ∧ fel ≤ fel' ∧ fel' ≤ fe.length ∧
    input'.length ≤ input.length ∧
    fdl' + input'.length ≤ fdl + input.length ∧ fel' + input'.length ≤ fel + input.length ∧
    ∃ D E,
      fd'.take fdl' = fd.take fdl ++ D ∧ fe'.take fel' = fe.take fel ++ E ∧
      fdl' = fdl + D.length ∧ fel' = fel + E.length ∧
      GoPost res c input c' input' D E fd.length fe.length fdl' fel' := by
  induction input generalizing c fd fdl fe fel res c' input' fd' fdl' fe' fel' with
  | nil =>
      simp only [coreReadGo] at heq
      cases heq
      refine ⟨rfl, rfl, le_refl _, hd, le_refl _, he, le_refl _, le_refl _, le_refl _, [], [],
        by simp, by simp, by simp, by simp, ?_⟩
      exact ⟨by simp [pureTokGo], rfl⟩
  | cons b rest ih =>
      simp only [coreReadGo] at heq
      rcases hstep : coreStep c b with ⟨c₁, eff⟩
      cases eff with
      | silent =>
          simp only [hstep] at heq
          obtain ⟨h1, h2, h3, h4, h5, h6, h7, h8, h9, D, E, p1, p2, p3, p4, p5⟩ :=
            ih c₁ fd fdl fe fel res c' input' fd' fdl' fe' fel' hd he heq
          refine ⟨h1, h2, h3, h4, h5, h6, h7.trans (by simp),
            by simp only [List.length_cons]; omega, by simp only [List.length_cons]; omega,
            D, E, p1, p2, p3, p4, ?_⟩
          have hpt : pureTokGo c (b :: rest) = pureTokGo c₁ rest := by
            simp [pureTokGo, hstep]
          cases res with
          | inputEmpty => exact ⟨hpt.trans p5.1, p5.2⟩
          | record => exact ⟨hpt.trans p5.1, p5.2.trans_le (by simp)⟩
          | outputFull =>
              exact ⟨fun r c₂ rem d₂ e₂ hh => hpt.trans (p5.1 r c₂ rem d₂ e₂ hh), p5.2.1,
                p5.2.2.1, Or.inl (progress_cons p5.2.2.2)⟩
          | outputEndsFull =>
              exact ⟨fun r c₂ rem d₂ e₂ hh => hpt.trans (p5.1 r c₂ rem d₂ e₂ hh), p5.2.1,
                p5.2.2.1, Or.inl (progress_cons p5.2.2.2)⟩
          | endOfData => exact p5
      | wrote ob =>
          simp only [hstep] at heq
          by_cases hcap : fdl < fd.length
          · rw [if_pos hcap] at heq
            obtain ⟨h1, h2, h3, h4, h5, h6, h7, h8, h9, D, E, p1, p2, p3, p4, p5⟩ :=
              ih c₁ (fd.set fdl ob) (fdl + 1) fe fel res c' input' fd' fdl' fe' fel'
                (by simpa using hcap) he heq
            rw [List.length_set] at h1 h4
            have htake : (fd.set fdl ob).take (fdl + 1) = fd.take fdl ++ [ob] :=
              take_set_succ fd fdl ob hcap
            rw [htake, List.append_assoc] at p1
            refine ⟨h1, h2, by omega, h4, h5, h6, h7.trans (by simp),
              by simp only [List.length_cons]; omega, by simp only [List.length_cons]; omega,
              ob :: D, E, by simpa using p1, p2, by simp; omega, p4, ?_⟩
            have hpt : ∀ r c₂ rem d e, pureTokGo c₁ rest = (r, c₂, rem, d, e) →
                pureTokGo c (b :: rest) = (r, c₂, rem, ob :: d, e) := by
              intro r c₂ rem d e hh
              simp [pureTokGo, hstep, hh]
            cases res with
            | inputEmpty => exact ⟨hpt _ _ _ _ _ p5.1, p5.2⟩
            | record => exact ⟨hpt _ _ _ _ _ p5.1, p5.2.trans_le (by simp)⟩
            | outputFull =>
                refine ⟨fun r c₂ rem d₂ e₂ hh => ?_, by simpa using p5.2.1, p5.2.2.1,
                  Or.inl (progress_cons p5.2.2.2)⟩
                have := p5.1 r c₂ rem d₂ e₂ hh
                simpa [List.append_assoc] using hpt _ _ _ _ _ this
            | outputEndsFull =>
                refine ⟨fun r c₂ rem d₂ e₂ hh => ?_, p5.2.1, p5.2.2.1, Or.inl (progress_cons p5.2.2.2)⟩
                have := p5.1 r c₂ rem d₂ e₂ hh
                simpa [List.append_assoc] using hpt _ _ _ _ _ this
            | endOfData => exact p5
          · rw [if_neg hcap] at heq
            cases heq
            refine ⟨rfl, rfl, le_refl _, hd, le_refl _, he, le_refl _, le_refl _, le_refl _,
              [], [], by simp, by simp, by simp, by simp, ?_⟩
            exact ⟨fun r c₂ rem d₂ e₂ hh => by simpa using hh, by omega, by simp, Or.inr ⟨rfl, rfl⟩⟩
      | fieldEnd en =>
          simp only [hstep] at heq
          by_cases hcap : fel < fe.length
          · rw [if_pos hcap] at heq
            obtain ⟨h1, h2, h3, h4, h5, h6, h7, h8, h9, D, E, p1, p2, p3, p4, p5⟩ :=
              ih c₁ fd fdl (fe.set fel en) (fel + 1) res c' input' fd' fdl' fe' fel'
                hd (by simpa using hcap) heq
            rw [List.length_set] at h2 h6
            have htake : (fe.set fel en).take (fel + 1) = fe.take fel ++ [en] :=
              take_set_succ fe fel en hcap
            rw [htake, List.append_assoc] at p2
            refine ⟨h1, h2, h3, h4, by omega, h6, h7.trans (by simp),
              by simp only [List.length_cons]; omega, by simp only [List.length_cons]; omega,
              D, en :: E, p1, by simpa using p2, p3, by simp; omega, ?_⟩
            have hpt : ∀ r c₂ rem d e, pureTokGo c₁ rest = (r, c₂, rem, d, e) →
                pureTokGo c (b :: rest) = (r, c₂, rem, d, en :: e) := by
              intro r c₂ rem d e hh
              simp [pureTokGo, hstep, hh]
            cases res with
            | inputEmpty => exact ⟨hpt _ _ _ _ _ p5.1, p5.2⟩
            | record => exact ⟨hpt _ _ _ _ _ p5.1, p5.2.trans_le (by simp)⟩
            | outputFull =>
                refine ⟨fun r c₂ rem d₂ e₂ hh => ?_, p5.2.1, p5.2.2.1, Or.inl (progress_cons p5.2.2.2)⟩
                have := p5.1 r c₂ rem d₂ e₂ hh
                simpa [List.append_assoc] using hpt _ _ _ _ _ this
            | outputEndsFull =>
                refine ⟨fun r c₂ rem d₂ e₂ hh => ?_, by simpa using p5.2.1, p5.2.2.1,
                  Or.inl (progress_cons p5.2.2.2)⟩
                have := p5.1 r c₂ rem d₂ e₂ hh
                simpa [List.append_assoc] using hpt _ _ _ _ _ this
            | endOfData => exact p5
          · rw [if_neg hcap] at heq
            cases heq
            refine ⟨rfl, rfl, le_refl _, hd, le_refl _, he, le_refl _, le_refl _, le_refl _,
              [], [], by simp, by simp, by simp, by simp, ?_⟩
            exact ⟨fun r c₂ rem d₂ e₂ hh => by simpa using hh, by omega, by simp, Or.inr ⟨rfl, rfl⟩⟩
      | recordEnd en =>
          simp only [hstep] at heq
          by_cases hcap : fel < fe.length
          · rw [if_pos hcap] at heq
            cases heq
            refine ⟨rfl, by simp, le_refl _, hd, by omega, by simpa using hcap,
              by simp, by simp only [List.length_cons]; omega,
              by simp only [List.length_cons]; omega, [], [en], by simp, ?_, by simp, by simp, ?_⟩
            · simpa using take_set_succ fe fel en hcap
            · exact ⟨by simp [pureTokGo, hstep], by simp⟩
          · rw [if_neg hcap] at heq
            cases heq
            refine ⟨rfl, rfl, le_refl _, hd, le_refl _, he, le_refl _, le_refl _, le_refl _,
              [], [], by simp, by simp, by simp, by simp, ?_⟩
            exact ⟨fun r c₂ rem d₂ e₂ hh => by simpa using hh, by omega, by simp, Or.inr ⟨rfl, rfl⟩⟩

/-- The per-result postcondition of a whole buffered tokenizer call, against
the pure denotation `pureTokRR`. -/
def RRPost (res : CoreResult) (c : CoreReader) (input : List Nat) (c' : CoreReader)
    (input' D E : List Nat) (dcap ecap fdl fel fdl' fel' : Nat) : Prop :=
  match res with
  | .inputEmpty => pureTokRR c input = (.inputEmpty, c', input', D, E) ∧ input' = []
  | .endOfData => pureTokRR c input = (.endOfData, c', input', D, E) ∧ input' = []
  | .record =>
      pureTokRR c input = (.record, c', input', D, E) ∧
      (input'.length < input.length ∨
        (input = [] ∧ input' = [] ∧ c'.state = .startRecord ∧ c.state ≠ .startRecord))
  | .outputFull =>
      (∀ r c₂ rem d₂ e₂, pureTokRR c' input' = (r, c₂, rem, d₂, e₂) →
        pureTokRR c input = (r, c₂, rem, D ++ d₂, E ++ e₂)) ∧
      dcap ≤ fdl' ∧
      (input'.length < input.length ∨ (input' = input ∧ fdl' = fdl ∧ fel' = fel ∧ c' = c))
  | .outputEndsFull =>
      (∀ r c₂ rem d₂ e₂, pureTokRR c' input' = (r, c₂, rem, d₂, e₂) →
        pureTokRR c input = (r, c₂, rem, D ++ d₂, E ++ e₂)) ∧
      ecap ≤ fel' ∧
      (input'.length < input.length ∨ (input' = input ∧ fdl' = fdl ∧ fel' = fel ∧ c' = c))

theorem coreRead_spec (input : List Nat) (c : CoreReader) (fd : List Nat) (fdl : Nat)
    (fe : List Nat) (fel : Nat) (res : CoreResult) (c' : CoreReader) (input' fd' : List Nat)
    (fdl' : Nat) (fe' : List Nat) (fel' : Nat)
    (hd : fdl ≤ fd.length) (he : fel ≤ fe.length)
    (heq : coreRead c input fd fdl fe fel = ⟨res, c', input', fd', fdl', fe', fel'⟩) :
    fd'.length = fd.length ∧ fe'.length = fe.length ∧
    fdl ≤ fdl' ∧ fdl' ≤ fd.length ∧ fel ≤ fel' ∧ fel' ≤ fe.length ∧
    input'.length ≤ input.length ∧
    ∃ D E,
      fd'.take fdl' = fd.take fdl ++ D ∧ fe'.take fel' = fe.take fel ++ E ∧
      fdl' = fdl + D.length ∧ fel' = fel + E.length ∧
      RRPost res c input c' input' D E fd.length fe.length fdl fel fdl' fel' := by
  match input with
  | [] =>
      simp only [coreRead] at heq
      by_cases hs : c.state = .startRecord
      · rw [if_pos hs] at heq
        cases heq
        refine ⟨rfl, rfl, le_refl _, hd, le_refl _, he, le_refl _,
          [], [], by simp, by simp, by simp, by simp, ?_⟩
        exact ⟨by simp [pureTokRR, hs], rfl⟩
      · rw [if_neg hs] at heq
        by_cases hcap : fel < fe.length
        · rw [if_pos hcap] at heq
          cases heq
          refine ⟨rfl, by simp, le_refl _, hd, by omega, by simpa using hcap, le_refl _,
            [], [c.output_pos], by simp, ?_, by simp, by simp, ?_⟩
          · simpa using take_set_succ fe fel c.output_pos hcap
          · exact ⟨by simp [pureTokRR, hs], Or.inr ⟨rfl, rfl, rfl, hs⟩⟩
        · rw [if_neg hcap] at heq
          cases heq
          refine ⟨rfl, rfl, le_refl _, hd, le_refl _, he, le_refl _,
            [], [], by simp, by simp, by simp, by simp, ?_⟩
          exact ⟨fun r c₂ rem d₂ e₂ hh => by simpa using hh, by omega,
            Or.inr ⟨rfl, rfl, rfl, rfl⟩⟩
  | b :: rest =>
      simp only [coreRead] at heq
      obtain ⟨h1, h2, h3, h4, h5, h6, h7, h8, h9, D, E, p1, p2, p3, p4, p5⟩ :=
        coreReadGo_spec (b :: rest) c fd fdl fe fel res c' input' fd' fdl' fe' fel' hd he heq
      refine ⟨h1, h2, h3, h4, h5, h6, h7, D, E, p1, p2, p3, p4, ?_⟩
      have hne : pureTokRR c (b :: rest) = pureTokGo c (b :: rest) := rfl
      cases res with
      | inputEmpty => exact ⟨hne.trans p5.1, p5.2⟩
      | record => exact ⟨hne.trans p5.1, Or.inl p5.2⟩
      | outputFull =>
          refine ⟨fun r c₂ rem d₂ e₂ hh => ?_, p5.2.1, ?_⟩
          · have hne' : pureTokRR c' input' = pureTokGo c' input' := by
              rcases hni : input' with _ | ⟨x, xs⟩
              · exact absurd hni p5.2.2.1
              · rfl
            rw [hne]
            exact p5.1 r c₂ rem d₂ e₂ (hne' ▸ hh)
          · rcases p5.2.2.2 with hlt | ⟨heqi, hc⟩
            · exact Or.inl hlt
            · subst heqi
              exact Or.inr ⟨rfl, by omega, by omega, hc⟩
      | outputEndsFull =>
          refine ⟨fun r c₂ rem d₂ e₂ hh => ?_, p5.2.1, ?_⟩
          · have hne' : pureTokRR c' input' = pureTokGo c' input' := by
              rcases hni : input' with _ | ⟨x, xs⟩
              · exact absurd hni p5.2.2.1
              · rfl
            rw [hne]
            exact p5.1 r c₂ rem d₂ e₂ (hne' ▸ hh)
          · rcases p5.2.2.2 with hlt | ⟨heqi, hc⟩
            · exact Or.inl hlt
            · subst heqi
              exact Or.inr ⟨rfl, by omega, by omega, hc⟩
      | endOfData => exact absurd p5 (by simp [GoPost])

/-! ## The raw record arena (`src/raw.rs`) -/

structure RawRecordArena where
  field_data : List Nat
  field_ends : List Nat
  record_ends : List (Nat × Nat)
deriving Repr, DecidableEq

namespace RawRecordArena

def new : RawRecordArena := ⟨[], [], []⟩

/-- `self.record_ends.last().unwrap_or(&(0, 0))`. -/
def lastRecordEnd (a : RawRecordArena) : Nat × Nat :=
  a.record_ends.getLast?.getD (0, 0)

/-- `RawRecordArena::is_partial`. -/
def is_partial (a : RawRecordArena) : Bool :=
  decide (a.lastRecordEnd.1 < a.field_data.length) ||
    decide (a.lastRecordEnd.2 < a.field_ends.length)

/-- `RawRecordArena::clear`. -/
def clear (_a : RawRecordArena) : RawRecordArena := ⟨[], [], []⟩

/-- `RawRecordArena::migrate_partial(&mut self, other)`: returns the new
`self`, the new `other`, and the returned `(partial data length, partial field
count)` pair. -/
def migrate_partial (a other : RawRecordArena) : RawRecordArena × RawRecordArena × (Nat × Nat) :=
  let _cleared := other.clear
  let lastD := a.lastRecordEnd.1
  let lastE := a.lastRecordEnd.2
  let partial_field_data := a.field_data.drop lastD
  let partial_field_ends := a.field_ends.drop lastE
  let other' : RawRecordArena := ⟨partial_field_data, partial_field_ends, []⟩
  let lengths := (partial_field_data.length, partial_field_ends.length)
  let a' : RawRecordArena := ⟨a.field_data.take lastD, a.field_ends.take lastE, a.record_ends⟩
  (a', other', lengths)

/-- `RawRecordArena::flush`: returns the new `self` and the returned pair. -/
def flush (a : RawRecordArena) : RawRecordArena × (Nat × Nat) :=
  match a.record_ends.getLast? with
  | none => (a, (a.field_data.length, a.field_ends.length))
  | some (lastD, lastE) =>
      let fd1 := listCopyWithinFrom a.field_data lastD
      let fe1 := listCopyWithinFrom a.field_ends lastE
      let partial_field_data_len := a.field_data.length - lastD
      let partial_field_ends_len := a.field_ends.length - lastE
      (⟨fd1.take partial_field_data_len, fe1.take partial_field_ends_len, []⟩,
        (partial_field_data_len, partial_field_ends_len))

/-- The field views of one record, as produced by `RawRecordIter`: the `i`-th
field is `field_data[prev_end..ends[i]]`. -/
def recordFields (field_data : List Nat) : Nat → List Nat → List (List Nat)
  | _, [] => []
  | p, e :: rest => ((field_data.take e).drop p) :: recordFields field_data e rest

/-- The record views produced by `RawRecordsIter`: for each `record_ends`
entry, the slices of `field_data` and `field_ends` between the previous entry
and it. -/
def recordViews (field_data field_ends : List Nat) :
    Nat → Nat → List (Nat × Nat) → List (List Nat × List Nat)
  | _, _, [] => []
  | pd, pe, (d, e) :: rest =>
      ((field_data.take d).drop pd, (field_ends.take e).drop pe) ::
        recordViews field_data field_ends d e rest

/-- `RawRecordArena::iter`, collected: each completed record as its list of
field byte strings. -/
def records (a : RawRecordArena) : List (List (List Nat)) :=
  (recordViews a.field_data a.field_ends 0 0 a.record_ends).map
    (fun v => recordFields v.1 0 v.2)

/-- `RawRecordArena::iter_partial`, collected. -/
def iter_partial (a : RawRecordArena) : List (List Nat) :=
  recordFields (a.field_data.drop a.lastRecordEnd.1) 0 (a.field_ends.drop a.lastRecordEnd.2)

/-- `RawRecordArena::get_last_partial_field`. -/
def get_last_partial_field (a : RawRecordArena) : Option (List Nat) :=
  let field_data := a.field_data.drop a.lastRecordEnd.1
  let field_ends := a.field_ends.drop a.lastRecordEnd.2
  let last_field_end := field_ends.getLast?.getD 0
  if last_field_end = field_data.length then none
  else some (field_data.drop last_field_end)

/-- `RawRecordArena::complete_partial`. -/
def complete_partial (a : RawRecordArena) : RawRecordArena :=
  let a1 :=
    match a.get_last_partial_field with
    | some last_partial_field =>
        let last_field_end := a.field_ends.getLast?.getD 0
        { a with field_ends := a.field_ends ++ [last_field_end + last_partial_field.length] }
    | none => a
  { a1 with record_ends := a1.record_ends ++ [(a1.field_data.length, a1.field_ends.length)] }

end RawRecordArena

/-! ## Positions, headers and the byte record arena (`src/lib.rs`, `src/byte_arena.rs`) -/

structure Position where
  byte : Nat
  line : Nat
  record : Nat
deriving Repr, DecidableEq

structure Headers where
  name_data : List Nat
  name_ends : List Nat
deriving Repr, DecidableEq

/-- `Headers::len`. -/
def Headers.len (h : Headers) : Nat := h.name_ends.length

/-- `Headers::iter`, collected. -/
def Headers.fields (h : Headers) : List (List Nat) :=
  RawRecordArena.recordFields h.name_data 0 h.name_ends

structure ByteRecordArena where
  inner : RawRecordArena
  start_pos : Option Position
  headers_inner : Option Headers
  bytes_init : Nat
deriving Repr, DecidableEq

namespace ByteRecordArena

def new : ByteRecordArena := ⟨RawRecordArena.new, none, none, 0⟩

def with_headers (headers : Headers) : ByteRecordArena :=
  ⟨RawRecordArena.new, none, some headers, 0⟩

/-- `ByteRecordArena::record_count`. -/
def record_count (a : ByteRecordArena) : Nat := a.inner.record_ends.length

def is_partial (a : ByteRecordArena) : Bool := a.inner.is_partial

def is_empty (a : ByteRecordArena) : Bool :=
  decide (a.record_count = 0) && !a.is_partial

/-- `ByteRecordArena::migrate_partial`: also resets `other`'s start position. -/
def migrate_partial (a other : ByteRecordArena) :
    ByteRecordArena × ByteRecordArena × (Nat × Nat) :=
  let other1 := { other with start_pos := none }
  let (inner', otherInner', lengths) := a.inner.migrate_partial other1.inner
  ({ a with inner := inner' }, { other1 with inner := otherInner' }, lengths)

/-- `ByteRecordArena::flush`. -/
def flush (a : ByteRecordArena) : ByteRecordArena × (Nat × Nat) :=
  let (inner', lengths) := a.inner.flush
  ({ a with start_pos := none, inner := inner' }, lengths)

/-- `ByteRecordArena::clear`. -/
def clear (a : ByteRecordArena) : ByteRecordArena :=
  { a with start_pos := none, inner := a.inner.clear }

def headers (a : ByteRecordArena) : Option Headers := a.headers_inner

/-- `ByteRecordArena::terminate_field(field_size)`.  The source asserts
`new_data_len <= self.bytes_init`; callers must have exposed enough
initialized capacity (`reserve_space` + `expose_data`), which in this model
means `field_data` extends at least to `new_data_len`. -/
def terminate_field (a : ByteRecordArena) (field_size : Nat) : ByteRecordArena :=
  let lastD := a.inner.lastRecordEnd.1
  let lastE := a.inner.lastRecordEnd.2
  let field_ends := a.inner.field_ends.drop lastE
  let last_field_end := field_ends.getLast?.getD 0
  let original_data_len := lastD + last_field_end
  let new_data_len := original_data_len + field_size
  { a with inner := { a.inner with
      field_data := a.inner.field_data.take new_data_len,
      field_ends := a.inner.field_ends ++ [last_field_end + field_size] } }

/-- `ByteRecordArena::terminate_record`. -/
def terminate_record (a : ByteRecordArena) : ByteRecordArena :=
  { a with inner := { a.inner with
      record_ends :=
        a.inner.record_ends ++ [(a.inner.field_data.length, a.inner.field_ends.length)] } }

/-- `ByteRecordArena::reserve_space(data)`. -/
def reserve_space (a : ByteRecordArena) (data : Nat) : ByteRecordArena :=
  let old_len := a.inner.field_data.length
  let resized := listResize a.inner.field_data data 0
  { a with
      inner := { a.inner with field_data := resized.take old_len },
      bytes_init := resized.length }

def complete_partial (a : ByteRecordArena) : ByteRecordArena :=
  { a with inner := a.inner.complete_partial }

end ByteRecordArena

/-! ## The incremental reader (`src/reader.rs`) -/

inductive ReadRecordResult
  | NeedsMoreInput
  | NeedsMoreInputOrEof
  | Record (col_count : Nat)
deriving Repr, DecidableEq

/-- `WrongColCount`: 0-based rows, not including header. -/
structure WrongColCount where
  row_num : Nat
  col_count : Nat
  expected_col_count : Nat
deriving Repr, DecidableEq

structure Reader where
  inner : CoreReader
  field_data_len : Nat
  field_ends_len : Nat
  skip_header : Bool
  ensure_col_count : Bool
  bytes_read : Nat
  records_read : Nat
deriving Repr, DecidableEq

def Reader.new (first_row_is_header : Bool) (delim : Nat) : Reader :=
  ⟨CoreReader.new delim, 0, 0, first_row_is_header, true, 0, 0⟩

/-- `Reader::arena_extend_field_data` (a Reader method in the source, using
`self` only for `debug_assert`s). -/
def Reader.arena_extend_field_data (arena : RawRecordArena) : RawRecordArena :=
  { arena with field_data := listResize arena.field_data (arena.field_data.length * 2) 0 }

/-- `Reader::arena_extend_field_ends`. -/
def Reader.arena_extend_field_ends (arena : RawRecordArena) : RawRecordArena :=
  { arena with field_ends := listResize arena.field_ends (arena.field_ends.length * 2) 0 }

/-- `Reader::read_record`: drive the tokenizer, doubling the arena's
over-committed buffers on full-destination results and retrying; push a
`record_ends` entry and report the record's field count when a record
completes.  The guard packages the invariants the source `debug_assert`s
(`field_data_len <= arena.field_data.len()` and, implicitly, positive
over-committed capacity — `fill_arena` always provides both); without
them the source's retry loop itself would not terminate. -/
def Reader.read_record (r : Reader) (input : List Nat) (arena : RawRecordArena) :
    ReadRecordResult × List Nat × Reader × RawRecordArena :=
  if hg : 0 < arena.field_data.length ∧ 0 < arena.field_ends.length ∧
      r.field_data_len ≤ arena.field_data.length ∧
      r.field_ends_len ≤ arena.field_ends.length then
    match hout : coreRead r.inner input arena.field_data r.field_data_len
        arena.field_ends r.field_ends_len with
    | ⟨.outputFull, c', input', fd', fdl', fe', fel'⟩ =>
        Reader.read_record { r with inner := c', field_data_len := fdl', field_ends_len := fel' }
          input'
          (Reader.arena_extend_field_data { arena with field_data := fd', field_ends := fe' })
    | ⟨.outputEndsFull, c', input', fd', fdl', fe', fel'⟩ =>
        Reader.read_record { r with inner := c', field_data_len := fdl', field_ends_len := fel' }
          input'
          (Reader.arena_extend_field_ends { arena with field_data := fd', field_ends := fe' })
    | ⟨.inputEmpty, c', input', fd', fdl', fe', fel'⟩ =>
        (.NeedsMoreInput, input',
          { r with inner := c', field_data_len := fdl', field_ends_len := fel' },
          { arena with field_data := fd', field_ends := fe' })
    | ⟨.endOfData, c', input', fd', fdl', fe', fel'⟩ =>
        (.NeedsMoreInputOrEof, input',
          { r with inner := c', field_data_len := fdl', field_ends_len := fel' },
          { arena with field_data := fd', field_ends := fe' })
    | ⟨.record, c', input', fd', fdl', fe', fel'⟩ =>
        let col_count := fel' - arena.lastRecordEnd.2
        (.Record col_count, input',
          { r with inner := c', field_data_len := fdl', field_ends_len := fel' },
          { arena with
            field_data := fd', field_ends := fe',
            record_ends := arena.record_ends ++ [(fdl', fel')] })
  else (.NeedsMoreInput, input, r, arena)
termination_by (input.length,
  (r.field_data_len + input.length + 1 - arena.field_data.length) +
  (r.field_ends_len + input.length + 1 - arena.field_ends.length))
decreasing_by
  · obtain ⟨h1, h2, h3, h4, h5, h6, h7, D, E, p1, p2, p3, p4, p5⟩ :=
      coreRead_spec input r.inner arena.field_data r.field_data_len arena.field_ends
        r.field_ends_len _ _ _ _ _ _ _ hg.2.2.1 hg.2.2.2 hout
    obtain ⟨hres, hcap, hprog⟩ := p5
    simp only [Reader.arena_extend_field_data, listResize_length]
    rcases hprog with hlt | ⟨hieq, hfdl, hfel, hc⟩
    · exact Prod.Lex.left _ _ hlt
    · subst hieq
      apply Prod.Lex.right
      have hgd := hg.1
      omega
  · obtain ⟨h1, h2, h3, h4, h5, h6, h7, D, E, p1, p2, p3, p4, p5⟩ :=
      coreRead_spec input r.inner arena.field_data r.field_data_len arena.field_ends
        r.field_ends_len _ _ _ _ _ _ _ hg.2.2.1 hg.2.2.2 hout
    obtain ⟨hres, hcap, hprog⟩ := p5
    simp only [Reader.arena_extend_field_ends, listResize_length]
    rcases hprog with hlt | ⟨hieq, hfdl, hfel, hc⟩
    · exact Prod.Lex.left _ _ hlt
    · subst hieq
      apply Prod.Lex.right
      have hge := hg.2.1
      omega

/-- The result/record-boundary part of `read_record`'s specification. -/
def ReadRecPost (stop : GoStop) (res : ReadRecordResult) (re re' : List (Nat × Nat))
    (lastE fdl' fel' : Nat) : Prop :=
  match stop with
  | .inputEmpty => res = .NeedsMoreInput ∧ re' = re
  | .endOfData => res = .NeedsMoreInputOrEof ∧ re' = re
  | .record => res = .Record (fel' - lastE) ∧ re' = re ++ [(fdl', fel')]

/-- `read_record` refines the pure single-record tokenizer denotation: the
observable effect on the arena is to append the pure run's decoded bytes and
field ends to the contents under the Reader's bookkeeping offsets (and, on a
completed record, one `record_ends` entry); the buffer doubling machinery is
invisible. -/
theorem read_record_spec (r : Reader) (input : List Nat) (arena : RawRecordArena) :
    0 < arena.field_data.length → 0 < arena.field_ends.length →
    r.field_data_len ≤ arena.field_data.length → r.field_ends_len ≤ arena.field_ends.length →
    ∀ stop c₂ rem₂ D E, pureTokRR r.inner input = (stop, c₂, rem₂, D, E) →
    ∀ res rem r' arena', r.read_record input arena = (res, rem, r', arena') →
    r'.inner = c₂ ∧ rem = rem₂ ∧
    r'.skip_header = r.skip_header ∧ r'.ensure_col_count = r.ensure_col_count ∧
    r'.bytes_read = r.bytes_read ∧ r'.records_read = r.records_read ∧
    0 < arena'.field_data.length ∧ 0 < arena'.field_ends.length ∧
    r.field_data_len ≤ r'.field_data_len ∧ r'.field_data_len ≤ arena'.field_data.length ∧
    r.field_ends_len ≤ r'.field_ends_len ∧ r'.field_ends_len ≤ arena'.field_ends.length ∧
    arena'.field_data.take r'.field_data_len = arena.field_data.take r.field_data_len ++ D ∧
    arena'.field_ends.take r'.field_ends_len = arena.field_ends.take r.field_ends_len ++ E ∧
    r'.field_data_len = r.field_data_len + D.length ∧
    r'.field_ends_len = r.field_ends_len + E.length ∧
    ReadRecPost stop res arena.record_ends arena'.record_ends arena.lastRecordEnd.2
      r'.field_data_len r'.field_ends_len := by
  induction r, input, arena using Reader.read_record.induct with
  | case1 r input arena hg c' input' fd' fdl' fe' fel' hout ih =>
      intro hd0 he0 hd he stop c₂ rem₂ D E hp res rem r' arena' heq
      rw [Reader.read_record] at heq
      rw [dif_pos hg, hout] at heq
      obtain ⟨h1, h2, h3, h4, h5, h6, h7, D₀, E₀, p1, p2, p3, p4, p5⟩ :=
        coreRead_spec input r.inner arena.field_data r.field_data_len arena.field_ends
          r.field_ends_len _ _ _ _ _ _ _ hg.2.2.1 hg.2.2.2 hout
      obtain ⟨hres, hcap, hprog⟩ := p5
      rcases hpp : pureTokRR c' input' with ⟨stop₃, c₃, rem₃, d₃, e₃⟩
      have hcomp := hres stop₃ c₃ rem₃ d₃ e₃ hpp
      rw [hp] at hcomp
      simp only [Prod.mk.injEq] at hcomp
      obtain ⟨hs3, hc3, hr3, hD, hE⟩ := hcomp
      rw [← hs3, ← hc3, ← hr3] at hpp
      obtain ⟨q1, q2, q3, q4, q5, q6, q7, q8, q9, q10, q11, q12, q13, q14, q15, q16, q17⟩ :=
        ih (by simp only [Reader.arena_extend_field_data, listResize_length]; omega)
          (by simp only [Reader.arena_extend_field_data]; omega)
          (by simp only [Reader.arena_extend_field_data, listResize_length]; omega)
          (by simp only [Reader.arena_extend_field_data]; omega)
          stop c₂ rem₂ d₃ e₃ hpp res rem r' arena' heq
      refine ⟨q1, q2, q3, q4, q5, q6, q7, q8, h3.trans q9, q10, h5.trans q11, q12, ?_, ?_,
        ?_, ?_, ?_⟩
      · rw [q13, hD]
        have hx : (Reader.arena_extend_field_data
            ⟨fd', fe', arena.record_ends⟩).field_data.take fdl' = fd'.take fdl' := by
          simp only [Reader.arena_extend_field_data]
          exact listResize_take _ _ _ _ (by omega) (by omega)
        rw [hx, p1, List.append_assoc]
      · rw [q14, hE]
        have hx : (Reader.arena_extend_field_data
            ⟨fd', fe', arena.record_ends⟩).field_ends.take fel' = fe'.take fel' := rfl
        rw [hx, p2, List.append_assoc]
      · rw [q15, hD]
        simp only [List.length_append]
        omega
      · rw [q16, hE]
        simp only [List.length_append]
        omega
      · have hre : (Reader.arena_extend_field_data
            ⟨fd', fe', arena.record_ends⟩).record_ends = arena.record_ends := rfl
        have hle : (Reader.arena_extend_field_data
            ⟨fd', fe', arena.record_ends⟩ : RawRecordArena).lastRecordEnd =
              arena.lastRecordEnd := rfl
        rw [hre, hle] at q17
        exact q17
  | case2 r input arena hg c' input' fd' fdl' fe' fel' hout ih =>
      intro hd0 he0 hd he stop c₂ rem₂ D E hp res rem r' arena' heq
      rw [Reader.read_record] at heq
      rw [dif_pos hg, hout] at heq
      obtain ⟨h1, h2, h3, h4, h5, h6, h7, D₀, E₀, p1, p2, p3, p4, p5⟩ :=
        coreRead_spec input r.inner arena.field_data r.field_data_len arena.field_ends
          r.field_ends_len _ _ _ _ _ _ _ hg.2.2.1 hg.2.2.2 hout
      obtain ⟨hres, hcap, hprog⟩ := p5
      rcases hpp : pureTokRR c' input' with ⟨stop₃, c₃, rem₃, d₃, e₃⟩
      have hcomp := hres stop₃ c₃ rem₃ d₃ e₃ hpp
      rw [hp] at hcomp
      simp only [Prod.mk.injEq] at hcomp
      obtain ⟨hs3, hc3, hr3, hD, hE⟩ := hcomp
      rw [← hs3, ← hc3, ← hr3] at hpp
      obtain ⟨q1, q2, q3, q4, q5, q6, q7, q8, q9, q10, q11, q12, q13, q14, q15, q16, q17⟩ :=
        ih (by simp only [Reader.arena_extend_field_ends]; omega)
          (by simp only [Reader.arena_extend_field_ends, listResize_length]; omega)
          (by simp only [Reader.arena_extend_field_ends]; omega)
          (by simp only [Reader.arena_extend_field_ends, listResize_length]; omega)
          stop c₂ rem₂ d₃ e₃ hpp res rem r' arena' heq
      refine ⟨q1, q2, q3, q4, q5, q6, q7, q8, h3.trans q9, q10, h5.trans q11, q12, ?_, ?_,
        ?_, ?_, ?_⟩
      · rw [q13, hD]
        have hx : (Reader.arena_extend_field_ends
            ⟨fd', fe', arena.record_ends⟩).field_data.take fdl' = fd'.take fdl' := rfl
        rw [hx, p1, List.append_assoc]
      · rw [q14, hE]
        have hx : (Reader.arena_extend_field_ends
            ⟨fd', fe', arena.record_ends⟩).field_ends.take fel' = fe'.take fel' := by
          simp only [Reader.arena_extend_field_ends]
          exact listResize_take _ _ _ _ (by omega) (by omega)
        rw [hx, p2, List.append_assoc]
      · rw [q15, hD]
        simp only [List.length_append]
        omega
      · rw [q16, hE]
        simp only [List.length_append]
        omega
      · exact q17
  | case3 r input arena hg c' input' fd' fdl' fe' fel' hout =>
      intro hd0 he0 hd he stop c₂ rem₂ D E hp res rem r' arena' heq
      rw [Reader.read_record] at heq
      rw [dif_pos hg, hout] at heq
      obtain ⟨h1, h2, h3, h4, h5, h6, h7, D₀, E₀, p1, p2, p3, p4, p5⟩ :=
        coreRead_spec input r.inner arena.field_data r.field_data_len arena.field_ends
          r.field_ends_len _ _ _ _ _ _ _ hg.2.2.1 hg.2.2.2 hout
      obtain ⟨hres, -⟩ := p5
      rw [hp] at hres
      simp only [Prod.mk.injEq] at hres
      obtain ⟨hs3, hc3, hr3, hD, hE⟩ := hres
      cases heq
      subst hD; subst hE; subst hs3
      exact ⟨hc3.symm, hr3.symm, rfl, rfl, rfl, rfl, by show 0 < fd'.length; omega,
        by show 0 < fe'.length; omega, h3, by show fdl' ≤ fd'.length; omega, h5,
        by show fel' ≤ fe'.length; omega, p1, p2, p3, p4, rfl, rfl⟩
  | case4 r input arena hg c' input' fd' fdl' fe' fel' hout =>
      intro hd0 he0 hd he stop c₂ rem₂ D E hp res rem r' arena' heq
      rw [Reader.read_record] at heq
      rw [dif_pos hg, hout] at heq
      obtain ⟨h1, h2, h3, h4, h5, h6, h7, D₀, E₀, p1, p2, p3, p4, p5⟩ :=
        coreRead_spec input r.inner arena.field_data r.field_data_len arena.field_ends
          r.field_ends_len _ _ _ _ _ _ _ hg.2.2.1 hg.2.2.2 hout
      obtain ⟨hres, -⟩ := p5
      rw [hp] at hres
      simp only [Prod.mk.injEq] at hres
      obtain ⟨hs3, hc3, hr3, hD, hE⟩ := hres
      cases heq
      subst hD; subst hE; subst hs3
      exact ⟨hc3.symm, hr3.symm, rfl, rfl, rfl, rfl, by show 0 < fd'.length; omega,
        by show 0 < fe'.length; omega, h3, by show fdl' ≤ fd'.length; omega, h5,
        by show fel' ≤ fe'.length; omega, p1, p2, p3, p4, rfl, rfl⟩
  | case5 r input arena hg c' input' fd' fdl' fe' fel' hout =>
      intro hd0 he0 hd he stop c₂ rem₂ D E hp res rem r' arena' heq
      rw [Reader.read_record] at heq
      rw [dif_pos hg, hout] at heq
      obtain ⟨h1, h2, h3, h4, h5, h6, h7, D₀, E₀, p1, p2, p3, p4, p5⟩ :=
        coreRead_spec input r.inner arena.field_data r.field_data_len arena.field_ends
          r.field_ends_len _ _ _ _ _ _ _ hg.2.2.1 hg.2.2.2 hout
      obtain ⟨hres, -⟩ := p5
      rw [hp] at hres
      simp only [Prod.mk.injEq] at hres
      obtain ⟨hs3, hc3, hr3, hD, hE⟩ := hres
      cases heq
      subst hD; subst hE; subst hs3
      exact ⟨hc3.symm, hr3.symm, rfl, rfl, rfl, rfl, by show 0 < fd'.length; omega,
        by show 0 < fe'.length; omega, h3, by show fdl' ≤ fd'.length; omega, h5,
        by show fel' ≤ fe'.length; omega, p1, p2, p3, p4, rfl, rfl⟩
  | case6 r input arena hg =>
      intro hd0 he0 hd he
      exact absurd ⟨hd0, he0, hd, he⟩ hg

theorem pureTokGo_record_consumes (input : List Nat) (c c₂ : CoreReader)
    (rem D E : List Nat) (h : pureTokGo c input = (.record, c₂, rem, D, E)) :
    rem.length < input.length := by
  induction input generalizing c D E with
  | nil => simp [pureTokGo] at h
  | cons b rest ih =>
      simp only [pureTokGo] at h
      rcases hstep : coreStep c b with ⟨c₁, eff⟩
      cases eff with
      | silent =>
          simp only [hstep] at h
          exact (ih c₁ D E h).trans_le (by simp)
      | wrote ob =>
          simp only [hstep] at h
          rcases hgo : pureTokGo c₁ rest with ⟨r₃, c₃, rem₃, d₃, e₃⟩
          rw [hgo] at h
          simp only [Prod.mk.injEq] at h
          obtain ⟨hr, hc, hrem, -, -⟩ := h
          subst hrem
          exact (ih c₁ d₃ e₃ (by rw [hgo, hr, hc])).trans_le (by simp)
      | fieldEnd en =>
          simp only [hstep] at h
          rcases hgo : pureTokGo c₁ rest with ⟨r₃, c₃, rem₃, d₃, e₃⟩
          rw [hgo] at h
          simp only [Prod.mk.injEq] at h
          obtain ⟨hr, hc, hrem, -, -⟩ := h
          subst hrem
          exact (ih c₁ d₃ e₃ (by rw [hgo, hr, hc])).trans_le (by simp)
      | recordEnd en =>
          simp only [hstep] at h
          simp only [Prod.mk.injEq] at h
          obtain ⟨-, -, hrem, -, -⟩ := h
          subst hrem
          simp

theorem pureTokRR_record_progress (input : List Nat) (c c₂ : CoreReader)
    (rem D E : List Nat) (h : pureTokRR c input = (.record, c₂, rem, D, E)) :
    rem.length < input.length ∨
      (input = [] ∧ rem = [] ∧ c₂.state = .startRecord ∧ c.state ≠ .startRecord) := by
  match input with
  | [] =>
      simp only [pureTokRR] at h
      by_cases hs : c.state = .startRecord
      · rw [if_pos hs] at h
        simp at h
      · rw [if_neg hs] at h
        simp only [Prod.mk.injEq] at h
        obtain ⟨-, hc, hrem, -, -⟩ := h
        exact Or.inr ⟨rfl, hrem.symm, by rw [← hc], hs⟩
  | b :: rest => exact Or.inl (pureTokGo_record_consumes _ _ _ _ _ _ h)

/-- A completed record means progress: either input was consumed, or the
end-of-input quirk fired, leaving the tokenizer at a fresh record boundary. -/
theorem read_record_record_progress (r : Reader) (input : List Nat) (arena : RawRecordArena)
    (col : Nat) (unparsed : List Nat) (r' : Reader) (arena' : RawRecordArena)
    (heq : r.read_record input arena = (.Record col, unparsed, r', arena')) :
    unparsed.length < input.length ∨
      (input = [] ∧ unparsed = [] ∧ r'.inner.state = .startRecord ∧
        r.inner.state ≠ .startRecord) := by
  by_cases hg : 0 < arena.field_data.length ∧ 0 < arena.field_ends.length ∧
      r.field_data_len ≤ arena.field_data.length ∧ r.field_ends_len ≤ arena.field_ends.length
  · rcases hp : pureTokRR r.inner input with ⟨stop, c₂, rem₂, D, E⟩
    obtain ⟨q1, q2, -, -, -, -, -, -, -, -, -, -, -, -, -, -, q17⟩ :=
      read_record_spec r input arena hg.1 hg.2.1 hg.2.2.1 hg.2.2.2 stop c₂ rem₂ D E hp
        _ _ _ _ heq
    cases stop with
    | inputEmpty => simp [ReadRecPost] at q17
    | endOfData => simp [ReadRecPost] at q17
    | record =>
        rcases pureTokRR_record_progress input r.inner c₂ rem₂ D E hp with hlt | ⟨hi, hr, hc, hs⟩
        · exact Or.inl (by rw [q2]; exact hlt)
        · exact Or.inr ⟨hi, by rw [q2, hr], by rw [q1]; exact hc, hs⟩
  · rw [Reader.read_record, dif_neg hg] at heq
    simp at heq

/-- `Reader::scrape_headers`: pop the just-completed record off `record_ends`
(the source `expect`s it to be there — `fill_arena` only calls this right
after a record was pushed), copy its prefix of the buffers out as `Headers`,
and roll the write offsets back to the previous record boundary. -/
def Reader.scrape_headers (r : Reader) (arena : RawRecordArena) :
    Headers × Reader × RawRecordArena :=
  let popped := arena.record_ends.getLast?.getD (0, 0)
  let arena1 : RawRecordArena := { arena with record_ends := arena.record_ends.dropLast }
  let headers : Headers :=
    ⟨arena.field_data.take popped.1, arena.field_ends.take popped.2⟩
  let prev := arena1.record_ends.getLast?.getD (0, 0)
  (headers, { r with field_data_len := prev.1, field_ends_len := prev.2 }, arena1)

/-- The column-count enforcement step of `fill_arena`'s loop (inline in the
source; factored out here because it is shared verbatim by the faithful loop
and its pure counterpart). -/
def checkColCount (ensure : Bool) (expected : Option Nat) (col_count row_num : Nat) :
    Except WrongColCount (Option Nat) :=
  if ensure then
    match expected with
    | some expected_col_count =>
        if col_count ≠ expected_col_count then
          .error ⟨row_num, col_count, expected_col_count⟩
        else .ok expected
    | none => .ok (some col_count)
  else .ok expected

/-- The `loop { ... }` of `Reader::fill_arena`: read records until the input
is exhausted, checking the column count of each completed record against the
established expectation and scraping a pending header row. -/
def Reader.fillLoop (r : Reader) (expected : Option Nat) (input : List Nat)
    (ao : ByteRecordArena) : Reader × List Nat × ByteRecordArena × Except WrongColCount Unit :=
  match hrr : r.read_record input ao.inner with
  | (.NeedsMoreInput, unparsed, r', inner') =>
      (r', unparsed, { ao with inner := inner' }, .ok ())
  | (.NeedsMoreInputOrEof, unparsed, r', inner') =>
      (r', unparsed, { ao with inner := inner' }, .ok ())
  | (.Record col_count, unparsed, r', inner') =>
      let ao' := { ao with inner := inner' }
      match checkColCount r'.ensure_col_count expected col_count
          (inner'.record_ends.length - 1) with
      | .error e => (r', unparsed, ao', .error e)
      | .ok expected' =>
          if r'.skip_header then
            let r2 := { r' with skip_header := false }
            let scraped := r2.scrape_headers ao'.inner
            Reader.fillLoop scraped.2.1 expected' unparsed
              { ao' with inner := scraped.2.2, headers_inner := some scraped.1 }
          else Reader.fillLoop r' expected' unparsed ao'
termination_by (input.length, if r.inner.state = .startRecord then 0 else 1)
decreasing_by
  · rcases read_record_record_progress r input ao.inner col_count unparsed r' inner' hrr with
      hlt | ⟨hi, hu, hs', hs⟩
    · exact Prod.Lex.left _ _ hlt
    · subst hi; subst hu
      apply Prod.Lex.right
      simp [Reader.scrape_headers, hs', hs]
  · rcases read_record_record_progress r input ao.inner col_count unparsed r' inner' hrr with
      hlt | ⟨hi, hu, hs', hs⟩
    · exact Prod.Lex.left _ _ hlt
    · subst hi; subst hu
      apply Prod.Lex.right
      simp [Reader.scrape_headers, hs', hs]

/-- `Reader::fill_arena`. -/
def Reader.fill_arena (r : Reader) (input : List Nat) (arena_outer : ByteRecordArena) :
    Reader × ByteRecordArena × Except WrongColCount Unit :=
  let expected_col_count := arena_outer.headers.map Headers.len
  -- The empty case must be checked because the CSV core reader considers
  -- (erroneously) a record having ended if an empty slice is passed in.
  if input = [] then (r, arena_outer, .ok ())
  else
    let arena_outer :=
      if arena_outer.start_pos = none then
        { arena_outer with start_pos := some ⟨r.bytes_read, r.inner.line, r.records_read⟩ }
      else arena_outer
    let input_total_bytes := input.length
    let arena_orig_record_count := arena_outer.record_count
    -- arena_overcommit: remember the real lengths, then resize `field_data`
    -- by the input size and `field_ends` by the input size / 8 + 1 heuristic
    let r1 := { r with
      field_data_len := arena_outer.inner.field_data.length,
      field_ends_len := arena_outer.inner.field_ends.length }
    let arena1 := { arena_outer with inner := { arena_outer.inner with
      field_data := listResize arena_outer.inner.field_data
        (arena_outer.inner.field_data.length + input.length) 0,
      field_ends := listResize arena_outer.inner.field_ends
        (arena_outer.inner.field_ends.length + input.length / 8 + 1) 0 } }
    match Reader.fillLoop r1 expected_col_count input arena1 with
    | (r2, unparsed, arena2, res) =>
      -- arena_shrink_back
      let arena3 := { arena2 with inner := { arena2.inner with
        field_data := arena2.inner.field_data.take r2.field_data_len,
        field_ends := arena2.inner.field_ends.take r2.field_ends_len } }
      let r3 := { r2 with
        field_data_len := 0, field_ends_len := 0,
        bytes_read := r2.bytes_read + (input_total_bytes - unparsed.length),
        records_read := r2.records_read +
          (arena3.record_count - arena_orig_record_count) }
      (r3, arena3, res)

/-! ## The pure fill layer

`pureFill` is `fillLoop` with the buffer machinery stripped: the arena is the
exact contents (no padding), and each completed record appends the pure
tokenizer run's decoded bytes and ends.  `fillLoop` is proved to refine it. -/

/-- One record appended to exact contents. -/
def pureFill (c : CoreReader) (sk ens : Bool) (expected : Option Nat) (input : List Nat)
    (A : RawRecordArena) (H : Option Headers) :
    CoreReader × Bool × List Nat × RawRecordArena × Option Headers ×
      Except WrongColCount Unit :=
  match hrr : pureTokRR c input with
  | (.inputEmpty, c', rem, D, E) =>
      (c', sk, rem, ⟨A.field_data ++ D, A.field_ends ++ E, A.record_ends⟩, H, .ok ())
  | (.endOfData, c', rem, D, E) =>
      (c', sk, rem, ⟨A.field_data ++ D, A.field_ends ++ E, A.record_ends⟩, H, .ok ())
  | (.record, c', rem, D, E) =>
      let fd' := A.field_data ++ D
      let fe' := A.field_ends ++ E
      let A' : RawRecordArena := ⟨fd', fe', A.record_ends ++ [(fd'.length, fe'.length)]⟩
      match checkColCount ens expected (fe'.length - A.lastRecordEnd.2)
          (A'.record_ends.length - 1) with
      | .error e => (c', sk, rem, A', H, .error e)
      | .ok expected' =>
          if sk then
            let popped := A'.record_ends.getLast?.getD (0, 0)
            let hdrs : Headers := ⟨A'.field_data.take popped.1, A'.field_ends.take popped.2⟩
            let re' := A'.record_ends.dropLast
            let prev := re'.getLast?.getD (0, 0)
            pureFill c' false ens expected' rem
              ⟨A'.field_data.take prev.1, A'.field_ends.take prev.2, re'⟩ (some hdrs)
          else pureFill c' sk ens expected' rem A' H
termination_by (input.length, if c.state = .startRecord then 0 else 1)
decreasing_by
  · rcases pureTokRR_record_progress input c c' rem D E hrr with hlt | ⟨hi, hu, hs', hs⟩
    · exact Prod.Lex.left _ _ hlt
    · subst hi; subst hu
      apply Prod.Lex.right
      simp [hs', hs]
  · rcases pureTokRR_record_progress input c c' rem D E hrr with hlt | ⟨hi, hu, hs', hs⟩
    · exact Prod.Lex.left _ _ hlt
    · subst hi; subst hu
      apply Prod.Lex.right
      simp [hs', hs]

/-- `fill_arena` with the buffer machinery stripped (see
`fill_arena_eq_pure`). -/
def pureFillArena (r : Reader) (input : List Nat) (ao : ByteRecordArena) :
    Reader × ByteRecordArena × Except WrongColCount Unit :=
  let expected_col_count := ao.headers.map Headers.len
  if input = [] then (r, ao, .ok ())
  else
    let ao :=
      if ao.start_pos = none then
        { ao with start_pos := some ⟨r.bytes_read, r.inner.line, r.records_read⟩ }
      else ao
    match pureFill r.inner r.skip_header r.ensure_col_count expected_col_count
        input ao.inner ao.headers_inner with
    | (c₂, sk₂, rem₂, A₂, H₂, res) =>
        (⟨c₂, 0, 0, sk₂, r.ensure_col_count,
            r.bytes_read + (input.length - rem₂.length),
            r.records_read + (A₂.record_ends.length - ao.inner.record_ends.length)⟩,
          { ao with inner := A₂, headers_inner := H₂ }, res)

/-- The contents view of an over-committed arena under the Reader's write
offsets. -/
def contentsOf (a : RawRecordArena) (fdl fel : Nat) : RawRecordArena :=
  ⟨a.field_data.take fdl, a.field_ends.take fel, a.record_ends⟩

theorem contentsOf_field_data (a : RawRecordArena) (fdl fel : Nat) :
    (contentsOf a fdl fel).field_data = a.field_data.take fdl := rfl

theorem contentsOf_field_ends (a : RawRecordArena) (fdl fel : Nat) :
    (contentsOf a fdl fel).field_ends = a.field_ends.take fel := rfl

theorem contentsOf_record_ends (a : RawRecordArena) (fdl fel : Nat) :
    (contentsOf a fdl fel).record_ends = a.record_ends := rfl

theorem contentsOf_lastRecordEnd (a : RawRecordArena) (fdl fel : Nat) :
    (contentsOf a fdl fel).lastRecordEnd = a.lastRecordEnd := rfl

/-- `fillLoop` refines `pureFill`: on the contents view, the loop is exactly
the pure fill. -/
theorem fillLoop_spec (r : Reader) (expected : Option Nat) (input : List Nat)
    (ao : ByteRecordArena) :
    0 < ao.inner.field_data.length → 0 < ao.inner.field_ends.length →
    r.field_data_len ≤ ao.inner.field_data.length →
    r.field_ends_len ≤ ao.inner.field_ends.length →
    ao.inner.lastRecordEnd.1 ≤ r.field_data_len →
    ao.inner.lastRecordEnd.2 ≤ r.field_ends_len →
    ∀ c₂ sk₂ rem₂ A₂ H₂ res₂,
      pureFill r.inner r.skip_header r.ensure_col_count expected input
        (contentsOf ao.inner r.field_data_len r.field_ends_len) ao.headers_inner =
        (c₂, sk₂, rem₂, A₂, H₂, res₂) →
    ∀ rOut uOut aoOut resOut, Reader.fillLoop r expected input ao = (rOut, uOut, aoOut, resOut) →
    rOut.inner = c₂ ∧ rOut.skip_header = sk₂ ∧ rOut.ensure_col_count = r.ensure_col_count ∧
    rOut.bytes_read = r.bytes_read ∧ rOut.records_read = r.records_read ∧
    uOut = rem₂ ∧ resOut = res₂ ∧
    aoOut.start_pos = ao.start_pos ∧ aoOut.bytes_init = ao.bytes_init ∧
    aoOut.headers_inner = H₂ ∧
    aoOut.inner.record_ends = A₂.record_ends ∧
    aoOut.inner.field_data.take rOut.field_data_len = A₂.field_data ∧
    aoOut.inner.field_ends.take rOut.field_ends_len = A₂.field_ends ∧
    rOut.field_data_len = A₂.field_data.length ∧
    rOut.field_ends_len = A₂.field_ends.length ∧
    rOut.field_data_len ≤ aoOut.inner.field_data.length ∧
    rOut.field_ends_len ≤ aoOut.inner.field_ends.length := by
  induction r, expected, input, ao using Reader.fillLoop.induct with
  | case1 r expected input ao unparsed r' inner' hrr =>
      intro g1 g2 g3 g4 g5 g6 c₂ sk₂ rem₂ A₂ H₂ res₂ hp rOut uOut aoOut resOut heq
      rcases hptok : pureTokRR r.inner input with ⟨stop, cX, remX, D, E⟩
      obtain ⟨q1, q2, q3, q4, q5, q6, q7, q8, q9, q10, q11, q12, q13, q14, q15, q16, q17⟩ :=
        read_record_spec r input ao.inner g1 g2 g3 g4 stop cX remX D E hptok _ _ _ _ hrr
      cases stop with
      | record => simp [ReadRecPost] at q17
      | endOfData => simp [ReadRecPost] at q17
      | inputEmpty =>
          obtain ⟨-, hre⟩ := q17
          rw [pureFill, hptok] at hp
          rw [Reader.fillLoop, hrr] at heq
          cases heq
          simp only [Prod.mk.injEq] at hp
          obtain ⟨e1, e2, e3, e4, e5, e6⟩ := hp
          refine ⟨q1.trans e1, q3.trans e2, q4, q5, q6, q2.trans e3, e6, rfl, rfl,
            e5, ?_, ?_, ?_, ?_, ?_, q10, q12⟩
          · rw [← e4]; exact hre
          · rw [← e4]; exact q13
          · rw [← e4]; exact q14
          · rw [← e4]
            simp only [contentsOf, List.length_append, List.length_take]
            omega
          · rw [← e4]
            simp only [contentsOf, List.length_append, List.length_take]
            omega
  | case2 r expected input ao unparsed r' inner' hrr =>
      intro g1 g2 g3 g4 g5 g6 c₂ sk₂ rem₂ A₂ H₂ res₂ hp rOut uOut aoOut resOut heq
      rcases hptok : pureTokRR r.inner input with ⟨stop, cX, remX, D, E⟩
      obtain ⟨q1, q2, q3, q4, q5, q6, q7, q8, q9, q10, q11, q12, q13, q14, q15, q16, q17⟩ :=
        read_record_spec r input ao.inner g1 g2 g3 g4 stop cX remX D E hptok _ _ _ _ hrr
      cases stop with
      | record => simp [ReadRecPost] at q17
      | inputEmpty => simp [ReadRecPost] at q17
      | endOfData =>
          obtain ⟨-, hre⟩ := q17
          rw [pureFill, hptok] at hp
          rw [Reader.fillLoop, hrr] at heq
          cases heq
          simp only [Prod.mk.injEq] at hp
          obtain ⟨e1, e2, e3, e4, e5, e6⟩ := hp
          refine ⟨q1.trans e1, q3.trans e2, q4, q5, q6, q2.trans e3, e6, rfl, rfl,
            e5, ?_, ?_, ?_, ?_, ?_, q10, q12⟩
          · rw [← e4]; exact hre
          · rw [← e4]; exact q13
          · rw [← e4]; exact q14
          · rw [← e4]
            simp only [contentsOf, List.length_append, List.length_take]
            omega
          · rw [← e4]
            simp only [contentsOf, List.length_append, List.length_take]
            omega
  | case3 r expected input ao col_count unparsed r' inner' hrr e hcheck =>
      intro g1 g2 g3 g4 g5 g6 c₂ sk₂ rem₂ A₂ H₂ res₂ hp rOut uOut aoOut resOut heq
      rcases hptok : pureTokRR r.inner input with ⟨stop, cX, remX, D, E⟩
      obtain ⟨q1, q2, q3, q4, q5, q6, q7, q8, q9, q10, q11, q12, q13, q14, q15, q16, q17⟩ :=
        read_record_spec r input ao.inner g1 g2 g3 g4 stop cX remX D E hptok _ _ _ _ hrr
      cases stop with
      | inputEmpty => simp [ReadRecPost] at q17
      | endOfData => simp [ReadRecPost] at q17
      | record =>
          obtain ⟨hcol, hre⟩ := q17
          have hcolv : col_count = r'.field_ends_len - ao.inner.lastRecordEnd.2 := by
            cases hcol; rfl
          rw [pureFill, hptok] at hp
          simp only [contentsOf_field_data, contentsOf_field_ends, contentsOf_record_ends,
            contentsOf_lastRecordEnd] at hp
          have hfdlen : (ao.inner.field_data.take r.field_data_len ++ D).length =
              r'.field_data_len := by
            simp only [List.length_append, List.length_take]
            omega
          have hfelen : (ao.inner.field_ends.take r.field_ends_len ++ E).length =
              r'.field_ends_len := by
            simp only [List.length_append, List.length_take]
            omega
          have hcolP : (ao.inner.field_ends.take r.field_ends_len ++ E).length -
              ao.inner.lastRecordEnd.2 = col_count := by
            rw [hfelen, hcolv]
          have hrowP : (ao.inner.record_ends ++
                [((ao.inner.field_data.take r.field_data_len ++ D).length,
                  (ao.inner.field_ends.take r.field_ends_len ++ E).length)]).length - 1 =
              inner'.record_ends.length - 1 := by
            rw [hre]
            simp
          rw [hcolP, hrowP, ← q4, hcheck] at hp
          simp only [Prod.mk.injEq] at hp
          obtain ⟨e1, e2, e3, e4, e5, e6⟩ := hp
          rw [Reader.fillLoop, hrr] at heq
          simp only [] at heq
          rw [hcheck] at heq
          simp only [] at heq
          cases heq
          refine ⟨q1.trans e1, q3.trans e2, q4, q5, q6, q2.trans e3, e6, rfl, rfl, e5,
            ?_, ?_, ?_, ?_, ?_, q10, q12⟩
          · rw [← e4, hre, hfdlen, hfelen]
          · rw [← e4]
            exact q13
          · rw [← e4]
            exact q14
          · rw [← e4]
            show r'.field_data_len = (ao.inner.field_data.take r.field_data_len ++ D).length
            rw [hfdlen]
          · rw [← e4]
            show r'.field_ends_len = (ao.inner.field_ends.take r.field_ends_len ++ E).length
            rw [hfelen]
  | case4 r expected input ao col_count unparsed r' inner' hrr ao' expected' hcheck hskip r2 scraped ih =>
      intro g1 g2 g3 g4 g5 g6 c₂ sk₂ rem₂ A₂ H₂ res₂ hp rOut uOut aoOut resOut heq
      rcases hptok : pureTokRR r.inner input with ⟨stop, cX, remX, D, E⟩
      obtain ⟨q1, q2, q3, q4, q5, q6, q7, q8, q9, q10, q11, q12, q13, q14, q15, q16, q17⟩ :=
        read_record_spec r input ao.inner g1 g2 g3 g4 stop cX remX D E hptok _ _ _ _ hrr
      cases stop with
      | inputEmpty => simp [ReadRecPost] at q17
      | endOfData => simp [ReadRecPost] at q17
      | record =>
          obtain ⟨hcol, hre⟩ := q17
          have hcolv : col_count = r'.field_ends_len - ao.inner.lastRecordEnd.2 := by
            cases hcol; rfl
          rw [pureFill, hptok] at hp
          simp only [contentsOf_field_data, contentsOf_field_ends, contentsOf_record_ends,
            contentsOf_lastRecordEnd] at hp
          have hfdlen : (ao.inner.field_data.take r.field_data_len ++ D).length =
              r'.field_data_len := by
            simp only [List.length_append, List.length_take]
            omega
          have hfelen : (ao.inner.field_ends.take r.field_ends_len ++ E).length =
              r'.field_ends_len := by
            simp only [List.length_append, List.length_take]
            omega
          have hcolP : (ao.inner.field_ends.take r.field_ends_len ++ E).length -
              ao.inner.lastRecordEnd.2 = col_count := by
            rw [hfelen, hcolv]
          have hrowP : (ao.inner.record_ends ++
                [((ao.inner.field_data.take r.field_data_len ++ D).length,
                  (ao.inner.field_ends.take r.field_ends_len ++ E).length)]).length - 1 =
              inner'.record_ends.length - 1 := by
            rw [hre]
            simp
          rw [hcolP, hrowP, ← q4, hcheck] at hp
          simp only [] at hp
          have hskR : r.skip_header = true := by
            rw [← q3]
            exact hskip
          rw [if_pos hskR] at hp
          simp only [List.dropLast_concat, List.getLast?_concat, Option.getD_some,
            List.take_length] at hp
          rw [← q13, ← q14] at hp
          simp only [List.take_take] at hp
          have g5x : (ao.inner.record_ends.getLast?.getD (0, 0)).1 ≤ r.field_data_len := g5
          have g6x : (ao.inner.record_ends.getLast?.getD (0, 0)).2 ≤ r.field_ends_len := g6
          have hmin1 : min (ao.inner.record_ends.getLast?.getD (0, 0)).1 r'.field_data_len =
              (ao.inner.record_ends.getLast?.getD (0, 0)).1 := Nat.min_eq_left (by omega)
          have hmin2 : min (ao.inner.record_ends.getLast?.getD (0, 0)).2 r'.field_ends_len =
              (ao.inner.record_ends.getLast?.getD (0, 0)).2 := Nat.min_eq_left (by omega)
          rw [hmin1, hmin2, ← q1, ← q2] at hp
          rw [Reader.fillLoop, hrr] at heq
          simp only [] at heq
          rw [hcheck] at heq
          simp only [] at heq
          rw [if_pos hskip] at heq
          simp only [Reader.scrape_headers, hre, List.getLast?_concat, Option.getD_some,
            List.dropLast_concat] at heq
          unfold_let scraped r2 at ih
          simp only [Reader.scrape_headers, hre, List.getLast?_concat, Option.getD_some,
            List.dropLast_concat] at ih
          obtain ⟨c1, c2, c3, c4, c5, c6, c7, c8, c9, c10, c11, c12, c13, c14, c15, c16, c17⟩ :=
            ih (by exact q7) (by exact q8) (by omega) (by omega)
              (by simp [RawRecordArena.lastRecordEnd])
              (by simp [RawRecordArena.lastRecordEnd]) c₂ sk₂ rem₂ A₂ H₂ res₂
              (by simpa [contentsOf] using hp) rOut uOut aoOut resOut heq
          exact ⟨c1, c2, c3.trans q4, c4.trans q5, c5.trans q6, c6, c7, c8, c9, c10, c11,
            c12, c13, c14, c15, c16, c17⟩
  | case5 r expected input ao col_count unparsed r' inner' hrr ao' expected' hcheck hskip ih =>
      intro g1 g2 g3 g4 g5 g6 c₂ sk₂ rem₂ A₂ H₂ res₂ hp rOut uOut aoOut resOut heq
      rcases hptok : pureTokRR r.inner input with ⟨stop, cX, remX, D, E⟩
      obtain ⟨q1, q2, q3, q4, q5, q6, q7, q8, q9, q10, q11, q12, q13, q14, q15, q16, q17⟩ :=
        read_record_spec r input ao.inner g1 g2 g3 g4 stop cX remX D E hptok _ _ _ _ hrr
      cases stop with
      | inputEmpty => simp [ReadRecPost] at q17
      | endOfData => simp [ReadRecPost] at q17
      | record =>
          obtain ⟨hcol, hre⟩ := q17
          have hcolv : col_count = r'.field_ends_len - ao.inner.lastRecordEnd.2 := by
            cases hcol; rfl
          rw [pureFill, hptok] at hp
          simp only [contentsOf_field_data, contentsOf_field_ends, contentsOf_record_ends,
            contentsOf_lastRecordEnd] at hp
          have hfdlen : (ao.inner.field_data.take r.field_data_len ++ D).length =
              r'.field_data_len := by
            simp only [List.length_append, List.length_take]
            omega
          have hfelen : (ao.inner.field_ends.take r.field_ends_len ++ E).length =
              r'.field_ends_len := by
            simp only [List.length_append, List.length_take]
            omega
          have hcolP : (ao.inner.field_ends.take r.field_ends_len ++ E).length -
              ao.inner.lastRecordEnd.2 = col_count := by
            rw [hfelen, hcolv]
          have hrowP : (ao.inner.record_ends ++
                [((ao.inner.field_data.take r.field_data_len ++ D).length,
                  (ao.inner.field_ends.take r.field_ends_len ++ E).length)]).length - 1 =
              inner'.record_ends.length - 1 := by
            rw [hre]
            simp
          rw [hcolP, hrowP, ← q4, hcheck] at hp
          simp only [] at hp
          have hskRn : ¬(r.skip_header = true) := by
            rw [← q3]
            exact hskip
          rw [if_neg hskRn] at hp
          rw [hfdlen, hfelen, ← hre, ← q13, ← q14, ← q3, ← q2, ← q1] at hp
          rw [Reader.fillLoop, hrr] at heq
          simp only [] at heq
          rw [hcheck] at heq
          simp only [] at heq
          rw [if_neg hskip] at heq
          have hlast : inner'.lastRecordEnd = (r'.field_data_len, r'.field_ends_len) := by
            simp [RawRecordArena.lastRecordEnd, hre]
          obtain ⟨c1, c2, c3, c4, c5, c6, c7, c8, c9, c10, c11, c12, c13, c14, c15, c16, c17⟩ :=
            ih q7 q8 q10 q12 (le_of_eq (congrArg Prod.fst hlast))
              (le_of_eq (congrArg Prod.snd hlast)) c₂ sk₂ rem₂ A₂ H₂ res₂
              (by simpa [contentsOf] using hp) rOut uOut aoOut resOut heq
          exact ⟨c1, c2, c3.trans q4, c4.trans q5, c5.trans q6, c6, c7, c8, c9, c10, c11,
            c12, c13, c14, c15, c16, c17⟩

/-- The central refinement: `fill_arena` equals its pure counterpart — the
over-commit / double-on-full / shrink-back buffer machinery is observably a
no-op.  The two hypotheses say the arena's last record boundary lies inside
its buffers (true of every arena the library can build). -/
theorem fill_arena_eq_pure (r : Reader) (input : List Nat) (ao : ByteRecordArena)
    (h5 : ao.inner.lastRecordEnd.1 ≤ ao.inner.field_data.length)
    (h6 : ao.inner.lastRecordEnd.2 ≤ ao.inner.field_ends.length) :
    r.fill_arena input ao = pureFillArena r input ao := by
  by_cases hin : input = []
  · subst hin
    rw [Reader.fill_arena, pureFillArena]
    simp
  · rw [Reader.fill_arena, pureFillArena]
    simp only [if_neg hin]
    generalize hS : (if ao.start_pos = none then
        { ao with start_pos := some ⟨r.bytes_read, r.inner.line, r.records_read⟩ }
      else ao) = aoS
    have hSi : aoS.inner = ao.inner := by
      rw [← hS]
      split <;> rfl
    have hSh : aoS.headers_inner = ao.headers_inner := by
      rw [← hS]
      split <;> rfl
    rcases hpf : pureFill r.inner r.skip_header r.ensure_col_count
        (ao.headers.map Headers.len) input aoS.inner aoS.headers_inner with
      ⟨c₂, sk₂, rem₂, A₂, H₂, res₂⟩
    rcases hfl : Reader.fillLoop
        { r with field_data_len := aoS.inner.field_data.length,
                 field_ends_len := aoS.inner.field_ends.length }
        (ao.headers.map Headers.len) input
        { aoS with inner := { aoS.inner with
            field_data := listResize aoS.inner.field_data
              (aoS.inner.field_data.length + input.length) 0,
            field_ends := listResize aoS.inner.field_ends
              (aoS.inner.field_ends.length + input.length / 8 + 1) 0 } } with
      ⟨r2, unparsed, arena2, res⟩
    have hnpos : 0 < input.length := by
      cases input with
      | nil => exact absurd rfl hin
      | cons a l => simp
    have hC : contentsOf
        { aoS.inner with
          field_data := listResize aoS.inner.field_data
            (aoS.inner.field_data.length + input.length) 0,
          field_ends := listResize aoS.inner.field_ends
            (aoS.inner.field_ends.length + input.length / 8 + 1) 0 }
        aoS.inner.field_data.length aoS.inner.field_ends.length = aoS.inner := by
      simp only [contentsOf]
      rw [listResize_take _ _ _ _ (le_refl _) (by omega),
        listResize_take _ _ _ _ (le_refl _) (by omega)]
      simp [List.take_length]
    obtain ⟨c1, c2, c3, c4, c5, c6, c7, c8, c9, c10, c11, c12, c13, c14, c15, c16, c17⟩ :=
      fillLoop_spec _ _ _ _
        (by simp only [listResize_length]; omega)
        (by simp only [listResize_length]; omega)
        (by simp only [listResize_length]; omega)
        (by simp only [listResize_length]; omega)
        (by show _ ≤ aoS.inner.field_data.length; rw [hSi]; exact h5)
        (by show _ ≤ aoS.inner.field_ends.length; rw [hSi]; exact h6)
        c₂ sk₂ rem₂ A₂ H₂ res₂ (by rw [hC]; exact hpf) r2 unparsed arena2 res hfl
    simp only [Prod.mk.injEq]
    refine ⟨?_, ?_, c7⟩
    · -- the readers agree
      simp only [Reader.mk.injEq]
      refine ⟨c1, trivial, trivial, c2, by exact c3, ?_, ?_⟩
      · rw [show r2.bytes_read = r.bytes_read from c4, c6]
      · rw [show r2.records_read = r.records_read from c5]
        congr 1
        show arena2.inner.record_ends.length - aoS.inner.record_ends.length = _
        rw [c11]
    · -- the arenas agree
      have hA : { arena2.inner with
          field_data := arena2.inner.field_data.take r2.field_data_len,
          field_ends := arena2.inner.field_ends.take r2.field_ends_len } = A₂ := by
        rcases A₂ with ⟨f1, f2, f3⟩
        simp only [RawRecordArena.mk.injEq]
        exact ⟨c12, c13, c11⟩
      rcases haoOut : arena2 with ⟨i2, s2, hh2, b2⟩
      rw [haoOut] at c8 c9 c10 hA
      simp only at c8 c9 c10 hA
      rw [show ({ inner := i2, start_pos := s2, headers_inner := hh2, bytes_init := b2 } :
          ByteRecordArena).inner = i2 from rfl]
      rw [c8, c9, c10, hA]


/-! ## The encoder (`src/writer.rs`)

The byte-level field encoder is the `csv_core::Writer` collaborator, modelled
from the spec (section 6): quoting decided per field (a field is quoted when
it contains the quote, the delimiter or the terminator byte), quotes doubled
inside quoted fields, the closing quote deferred to the following
delimiter/terminator write ("2 bytes if there's a end quote and delimiter,
1 byte in case of delimiter only", as `write_record`'s asserts put it).
As with the reader, slices are fused: writes land at absolute offsets of the
whole output buffer, and a byte that does not fit is not written. -/

inductive WriteResult
  | inputEmpty
  | outputFull
deriving Repr, DecidableEq

structure CoreWriter where
  delim : Nat
  quoting : Bool
deriving Repr, DecidableEq

def CoreWriter.new (delim : Nat) : CoreWriter := ⟨delim, false⟩

/-- Whether a field needs quoting. -/
def CoreWriter.should_quote (w : CoreWriter) (input : List Nat) : Bool :=
  input.any (fun b => decide (b = quoteByte) || decide (b = w.delim) || decide (b = lfByte))

/-- The byte loop of the field encoder: writes each input byte (doubling
quotes inside a quoted field), stopping without consuming when the output is
full. -/
def fieldGo (q : Bool) (input : List Nat) (out : List Nat) (pos : Nat) (consumed : Nat) :
    WriteResult × Nat × List Nat × Nat :=
  match input with
  | [] => (.inputEmpty, consumed, out, pos)
  | b :: rest =>
      if q = true ∧ b = quoteByte then
        if pos + 1 < out.length then
          fieldGo q rest ((out.set pos quoteByte).set (pos + 1) quoteByte) (pos + 2)
            (consumed + 1)
        else (.outputFull, consumed, out, pos)
      else
        if pos < out.length then fieldGo q rest (out.set pos b) (pos + 1) (consumed + 1)
        else (.outputFull, consumed, out, pos)

/-- `csv_core::Writer::field`: returns result, bytes consumed, the buffer, the
new write offset, and the writer state. -/
def CoreWriter.field (w : CoreWriter) (input : List Nat) (out : List Nat) (pos : Nat) :
    WriteResult × Nat × List Nat × Nat × CoreWriter :=
  if w.should_quote input = true then
    if pos < out.length then
      match fieldGo true input (out.set pos quoteByte) (pos + 1) 0 with
      | (res, bin, out', pos') => (res, bin, out', pos', { w with quoting := true })
    else (.outputFull, 0, out, pos, w)
  else
    match fieldGo false input out pos 0 with
    | (res, bin, out', pos') => (res, bin, out', pos', w)

/-- `csv_core::Writer::delimiter`: closing quote (if a quoted field is open)
then the delimiter byte; reports the bytes written. -/
def CoreWriter.delimiter (w : CoreWriter) (out : List Nat) (pos : Nat) :
    WriteResult × Nat × List Nat × Nat × CoreWriter :=
  if w.quoting = true then
    if pos + 1 < out.length then
      (.inputEmpty, 2, (out.set pos quoteByte).set (pos + 1) w.delim, pos + 2,
        { w with quoting := false })
    else if pos < out.length then
      (.outputFull, 1, out.set pos quoteByte, pos + 1, { w with quoting := false })
    else (.outputFull, 0, out, pos, w)
  else
    if pos < out.length then (.inputEmpty, 1, out.set pos w.delim, pos + 1, w)
    else (.outputFull, 0, out, pos, w)

/-- `csv_core::Writer::terminator`. -/
def CoreWriter.terminator (w : CoreWriter) (out : List Nat) (pos : Nat) :
    WriteResult × Nat × List Nat × Nat × CoreWriter :=
  if w.quoting = true then
    if pos + 1 < out.length then
      (.inputEmpty, 2, (out.set pos quoteByte).set (pos + 1) lfByte, pos + 2,
        { w with quoting := false })
    else if pos < out.length then
      (.outputFull, 1, out.set pos quoteByte, pos + 1, { w with quoting := false })
    else (.outputFull, 0, out, pos, w)
  else
    if pos < out.length then (.inputEmpty, 1, out.set pos lfByte, pos + 1, w)
    else (.outputFull, 0, out, pos, w)

structure Writer where
  inner : CoreWriter
  skip_header : Bool
  bytes_written : Nat
  records_written : Nat
deriving Repr, DecidableEq

def Writer.new (skip_header : Bool) (delim : Nat) : Writer :=
  ⟨CoreWriter.new delim, skip_header, 0, 0⟩

def Writer.records_written_acc (w : Writer) : Nat := w.records_written

/-- The field loop of `Writer::write_record`: each field through the
encoder, then a delimiter for all but the last field, a terminator for the
last.  The `Bool` tracks the source's `debug_assert`s (the result is
`InputEmpty`, the whole field was consumed, the delimiter/terminator wrote 1
or 2 bytes). -/
def writeFieldsGo (field_count : Nat) (i : Nat) (fields : List (List Nat)) (w : CoreWriter)
    (out : List Nat) (pos : Nat) (ok : Bool) : List Nat × Nat × CoreWriter × Bool :=
  match fields with
  | [] => (out, pos, w, ok)
  | f :: rest =>
      match w.field f out pos with
      | (res1, bin, out1, pos1, w1) =>
        let ok := ok && decide (res1 = .inputEmpty) && decide (bin = f.length)
        match (if i < field_count then w1.delimiter out1 pos1 else w1.terminator out1 pos1) with
        | (res2, bout2, out2, pos2, w2) =>
          let ok := ok && decide (res2 = .inputEmpty) && decide (bout2 = 1 ∨ bout2 = 2)
          writeFieldsGo field_count (i + 1) rest w2 out2 pos2 ok

/-- `Writer::write_record` over one record view.  `field_count` is the
source's `record.field_count() - 1` (`Nat` subtraction; for a zero-field
record the loop body never runs, matching the release behaviour). -/
def Writer.write_record (fd fe : List Nat) (w : CoreWriter) (out : List Nat) (pos : Nat) :
    List Nat × Nat × CoreWriter × Bool :=
  let fields := RawRecordArena.recordFields fd 0 fe
  writeFieldsGo (fields.length - 1) 0 fields w out pos true

/-- The `for record in arena.iter()` loop of `dump_arena`. -/
def writeRecordsGo (views : List (List Nat × List Nat)) (w : CoreWriter) (out : List Nat)
    (pos : Nat) (ok : Bool) : List Nat × Nat × CoreWriter × Bool :=
  match views with
  | [] => (out, pos, w, ok)
  | v :: rest =>
      match Writer.write_record v.1 v.2 w out pos with
      | (out1, pos1, w1, ok1) => writeRecordsGo rest w1 out1 pos1 (ok && ok1)

/-- `Writer::dump_arena`.  The output buffer is cleared, pre-sized to
`2 + 2 * field_data + field_ends + record_ends` and logically extended to that
length (the source's `unsafe set_len`; the never-read filler is modelled as
zeros), the header (when present and not yet emitted) and every completed
record are encoded, the session counters are bumped — `bytes_written` by the
buffer's *current* (padded) length — and the buffer is truncated to the bytes
actually produced.  The returned `Bool` is the conjunction of the source's
`debug_assert`s (every write fit). -/
def Writer.dump_arena (w : Writer) (out_buffer : List Nat) (arena_outer : ByteRecordArena) :
    Writer × List Nat × Bool :=
  let arena := arena_outer.inner
  let fields_len := 2 + 2 * arena.field_data.length
  let separators_len := arena.field_ends.length
  let terminators_len := arena.record_ends.length
  let max_output_len := fields_len + separators_len + terminators_len
  let out0 : List Nat := List.replicate max_output_len 0
  let hdr :=
    match arena_outer.headers_inner with
    | some headers =>
        if w.skip_header = false then
          match Writer.write_record headers.name_data headers.name_ends w.inner out0 0 with
          | (out1, pos1, w1, ok1) => (out1, pos1, w1, true, ok1)
        else (out0, 0, w.inner, w.skip_header, true)
    | none => (out0, 0, w.inner, w.skip_header, true)
  match hdr with
  | (out1, pos1, cw1, sk1, ok1) =>
    match writeRecordsGo
        (RawRecordArena.recordViews arena.field_data arena.field_ends 0 0 arena.record_ends)
        cw1 out1 pos1 ok1 with
    | (out2, pos2, cw2, ok2) =>
      ({ inner := cw2, skip_header := sk1,
         bytes_written := w.bytes_written + out2.length,
         records_written := w.records_written + arena_outer.record_count },
       out2.take pos2, ok2)

/-! ## Record-view algebra -/

theorem getLast?_getD_cons (x : Nat × Nat) (re : List (Nat × Nat)) (p : Nat × Nat) :
    ((x :: re).getLast?.getD p) = re.getLast?.getD x := by
  cases re with
  | nil => simp
  | cons y t =>
      rw [List.getLast?_cons_cons]
      rcases h : (y :: t).getLast? with _ | z
      · exact absurd (List.getLast?_eq_none_iff.mp h) (List.cons_ne_nil y t)
      · rfl

/-- Appending one `record_ends` entry appends one record view, sliced from the
previous last boundary. -/
theorem recordViews_concat (fd fe : List Nat) (d e : Nat) (re : List (Nat × Nat)) :
    ∀ pd pe, RawRecordArena.recordViews fd fe pd pe (re ++ [(d, e)]) =
      RawRecordArena.recordViews fd fe pd pe re ++
        [((fd.take d).drop (re.getLast?.getD (pd, pe)).1,
          (fe.take e).drop (re.getLast?.getD (pd, pe)).2)] := by
  induction re with
  | nil =>
      intro pd pe
      simp [RawRecordArena.recordViews]
  | cons x t ih =>
      intro pd pe
      rcases x with ⟨d0, e0⟩
      simp only [List.cons_append, RawRecordArena.recordViews, List.append_eq,
        ih d0 e0, getLast?_getD_cons]

/-- Record views only read `field_data` below each entry's data offset and
`field_ends` below its ends offset, so truncating the buffers at a dominating
bound changes nothing. -/
theorem recordViews_take_of_bounded (fd fe : List Nat) (K L : Nat) (re : List (Nat × Nat)) :
    ∀ pd pe, (∀ p ∈ re, p.1 ≤ K ∧ p.2 ≤ L) →
      RawRecordArena.recordViews (fd.take K) (fe.take L) pd pe re =
        RawRecordArena.recordViews fd fe pd pe re := by
  induction re with
  | nil =>
      intro pd pe _
      rfl
  | cons x t ih =>
      intro pd pe h
      rcases x with ⟨d0, e0⟩
      have hx := h (d0, e0) (List.mem_cons_self _ _)
      simp only [RawRecordArena.recordViews, List.cons.injEq, Prod.mk.injEq]
      refine ⟨⟨?_, ?_⟩, ih d0 e0 (fun p hp => h p (List.mem_cons_of_mem _ hp))⟩
      · rw [List.take_take, Nat.min_eq_left hx.1]
      · rw [List.take_take, Nat.min_eq_left hx.2]

/-! ## The arena's structural invariant

What the record/field iteration relies on: `record_ends` is componentwise
non-decreasing with its last entry inside the buffers, and each record's
slice of `field_ends` carries non-decreasing record-relative offsets whose
last equals the record's data length. -/

def nondecr : List Nat → Bool
  | [] => true
  | [_] => true
  | a :: b :: t => decide (a ≤ b) && nondecr (b :: t)

/-- One record's field-end offsets against its data length. -/
def endsOk (ends : List Nat) (dlen : Nat) : Bool :=
  nondecr ends && decide (ends.getLast?.getD 0 = dlen)

/-- The per-record part of the invariant, walking `record_ends` from the
previous boundary. -/
def wfRE (fe : List Nat) : Nat × Nat → List (Nat × Nat) → Bool
  | _, [] => true
  | (pd, pe), (d, e) :: rest =>
      decide (pd ≤ d) && decide (pe ≤ e) && endsOk ((fe.take e).drop pe) (d - pd) &&
        wfRE fe (d, e) rest

def RawRecordArena.wf (a : RawRecordArena) : Bool :=
  wfRE a.field_ends (0, 0) a.record_ends &&
    decide (a.lastRecordEnd.1 ≤ a.field_data.length) &&
    decide (a.lastRecordEnd.2 ≤ a.field_ends.length)

/-! ## The claims -/

/-- **C6** — Empty-chunk no-op: `fill_arena` on an empty chunk returns `Ok(())`
with the Reader and the arena (records, partial data, headers, `start_pos`,
counters) completely unchanged; the tokenizer is never consulted. -/
theorem fill_arena_empty_noop (r : Reader) (ao : ByteRecordArena) :
    r.fill_arena [] ao = (r, ao, Except.ok ()) := by
  rw [Reader.fill_arena]
  simp

/-- **C5** — Flush semantics: `flush` discards all completed records
(`record_ends` becomes empty), retains the partial record compacted to the
front of the same buffers (the buffers become exactly the old suffixes past
the last completed boundary), clears `start_pos`, keeps the headers, and
returns the partial byte length and field count; when there is no partial
record it returns `(0, 0)` and leaves both buffers empty. -/
theorem flush_semantics (a : ByteRecordArena) :
    a.flush.1.start_pos = none ∧
    a.flush.1.inner.field_data = a.inner.field_data.drop a.inner.lastRecordEnd.1 ∧
    a.flush.1.inner.field_ends = a.inner.field_ends.drop a.inner.lastRecordEnd.2 ∧
    a.flush.1.inner.record_ends = [] ∧
    a.flush.1.headers_inner = a.headers_inner ∧
    a.flush.2 = (a.inner.field_data.length - a.inner.lastRecordEnd.1,
      a.inner.field_ends.length - a.inner.lastRecordEnd.2) ∧
    (a.is_partial = false →
      a.flush.2 = (0, 0) ∧ a.flush.1.inner.field_data = [] ∧
        a.flush.1.inner.field_ends = []) := by
  rcases a with ⟨⟨fd, fe, re⟩, sp, hi, bi⟩
  rcases hre : re.getLast? with _ | ⟨lastD, lastE⟩
  · have hnil : re = [] := List.getLast?_eq_none_iff.mp hre
    subst hnil
    refine ⟨rfl, rfl, rfl, rfl, rfl, rfl, fun hp => ?_⟩
    simp only [ByteRecordArena.is_partial, RawRecordArena.is_partial,
      RawRecordArena.lastRecordEnd, List.getLast?_nil, Option.getD_none,
      Bool.or_eq_false_iff, decide_eq_false_iff_not, Nat.not_lt, Nat.le_zero,
      List.length_eq_zero] at hp
    obtain ⟨h1, h2⟩ := hp
    subst h1; subst h2
    exact ⟨rfl, rfl, rfl⟩
  · have hlast : RawRecordArena.lastRecordEnd ⟨fd, fe, re⟩ = (lastD, lastE) := by
      simp [RawRecordArena.lastRecordEnd, hre]
    have hfl : (ByteRecordArena.mk ⟨fd, fe, re⟩ sp hi bi).flush =
        (⟨⟨(listCopyWithinFrom fd lastD).take (fd.length - lastD),
            (listCopyWithinFrom fe lastE).take (fe.length - lastE), []⟩, none, hi, bi⟩,
          (fd.length - lastD, fe.length - lastE)) := by
      simp only [ByteRecordArena.flush, RawRecordArena.flush, hre]
    rw [hfl]
    refine ⟨rfl, ?_, ?_, rfl, rfl, ?_, fun hp => ?_⟩
    · rw [hlast]
      exact listCopyWithinFrom_take fd lastD
    · rw [hlast]
      exact listCopyWithinFrom_take fe lastE
    · rw [hlast]
    · simp only [ByteRecordArena.is_partial, RawRecordArena.is_partial, hlast,
        Bool.or_eq_false_iff, decide_eq_false_iff_not, Nat.not_lt] at hp
      refine ⟨?_, ?_, ?_⟩
      · rw [Prod.mk.injEq]
        omega
      · rw [listCopyWithinFrom_take fd lastD]
        exact List.drop_eq_nil_of_le hp.1
      · rw [listCopyWithinFrom_take fe lastE]
        exact List.drop_eq_nil_of_le hp.2

/-- **C4** (amended) — Migration: `migrate_partial` clears `other` and hands it
exactly the source's partial tail (bytes past the last completed boundary),
truncates the source to that boundary, returns the partial lengths, and leaves
the source's completed records unchanged.  Conservation holds as
*length before = length remaining + length migrated* for both arrays (the
claim's stated equation — partial length before = removed + held — double
counts: the removed bytes *are* the held bytes). -/
theorem migrate_partial_correct (a other : ByteRecordArena)
    (hdom : ∀ p ∈ a.inner.record_ends,
      p.1 ≤ a.inner.lastRecordEnd.1 ∧ p.2 ≤ a.inner.lastRecordEnd.2)
    (hd : a.inner.lastRecordEnd.1 ≤ a.inner.field_data.length)
    (he : a.inner.lastRecordEnd.2 ≤ a.inner.field_ends.length) :
    (a.migrate_partial other).2.1.inner.field_data =
        a.inner.field_data.drop a.inner.lastRecordEnd.1 ∧
    (a.migrate_partial other).2.1.inner.field_ends =
        a.inner.field_ends.drop a.inner.lastRecordEnd.2 ∧
    (a.migrate_partial other).2.1.inner.record_ends = [] ∧
    (a.migrate_partial other).2.1.start_pos = none ∧
    (a.migrate_partial other).1.inner.field_data =
        a.inner.field_data.take a.inner.lastRecordEnd.1 ∧
    (a.migrate_partial other).1.inner.field_ends =
        a.inner.field_ends.take a.inner.lastRecordEnd.2 ∧
    (a.migrate_partial other).1.inner.record_ends = a.inner.record_ends ∧
    a.inner.field_data.length = (a.migrate_partial other).1.inner.field_data.length +
        (a.migrate_partial other).2.1.inner.field_data.length ∧
    a.inner.field_ends.length = (a.migrate_partial other).1.inner.field_ends.length +
        (a.migrate_partial other).2.1.inner.field_ends.length ∧
    (a.migrate_partial other).2.2 =
      (a.inner.field_data.length - a.inner.lastRecordEnd.1,
        a.inner.field_ends.length - a.inner.lastRecordEnd.2) ∧
    (a.migrate_partial other).1.inner.records = a.inner.records := by
  refine ⟨rfl, rfl, rfl, rfl, rfl, rfl, rfl, ?_, ?_, ?_, ?_⟩
  · simp only [ByteRecordArena.migrate_partial, RawRecordArena.migrate_partial,
      List.length_take, List.length_drop]
    omega
  · simp only [ByteRecordArena.migrate_partial, RawRecordArena.migrate_partial,
      List.length_take, List.length_drop]
    omega
  · simp only [ByteRecordArena.migrate_partial, RawRecordArena.migrate_partial,
      List.length_drop]
  · show RawRecordArena.records ⟨a.inner.field_data.take a.inner.lastRecordEnd.1,
        a.inner.field_ends.take a.inner.lastRecordEnd.2, a.inner.record_ends⟩ =
      RawRecordArena.records a.inner
    simp only [RawRecordArena.records]
    rw [recordViews_take_of_bounded a.inner.field_data a.inner.field_ends
      a.inner.lastRecordEnd.1 a.inner.lastRecordEnd.2 a.inner.record_ends 0 0 hdom]

/-- Witness for `migrate_partial_correct` at a source arena `[5,6] | [7]`
(one completed two-byte record, one partial byte) and a non-empty
destination. -/
theorem migrate_partial_correct_witness :
    (ByteRecordArena.migrate_partial ⟨⟨[5, 6, 7], [1, 2], [(2, 2)]⟩, none, none, 0⟩
        ⟨⟨[9], [1], [(1, 1)]⟩, some ⟨1, 1, 1⟩, none, 0⟩).2.1.inner.field_data = [7] ∧
    (ByteRecordArena.migrate_partial ⟨⟨[5, 6, 7], [1, 2], [(2, 2)]⟩, none, none, 0⟩
        ⟨⟨[9], [1], [(1, 1)]⟩, some ⟨1, 1, 1⟩, none, 0⟩).2.1.inner.field_ends = [] ∧
    (ByteRecordArena.migrate_partial ⟨⟨[5, 6, 7], [1, 2], [(2, 2)]⟩, none, none, 0⟩
        ⟨⟨[9], [1], [(1, 1)]⟩, some ⟨1, 1, 1⟩, none, 0⟩).2.1.inner.record_ends = [] ∧
    (ByteRecordArena.migrate_partial ⟨⟨[5, 6, 7], [1, 2], [(2, 2)]⟩, none, none, 0⟩
        ⟨⟨[9], [1], [(1, 1)]⟩, some ⟨1, 1, 1⟩, none, 0⟩).2.1.start_pos = none ∧
    (ByteRecordArena.migrate_partial ⟨⟨[5, 6, 7], [1, 2], [(2, 2)]⟩, none, none, 0⟩
        ⟨⟨[9], [1], [(1, 1)]⟩, some ⟨1, 1, 1⟩, none, 0⟩).1.inner.field_data = [5, 6] ∧
    (ByteRecordArena.migrate_partial ⟨⟨[5, 6, 7], [1, 2], [(2, 2)]⟩, none, none, 0⟩
        ⟨⟨[9], [1], [(1, 1)]⟩, some ⟨1, 1, 1⟩, none, 0⟩).2.2 = (1, 0) ∧
    (ByteRecordArena.migrate_partial ⟨⟨[5, 6, 7], [1, 2], [(2, 2)]⟩, none, none, 0⟩
        ⟨⟨[9], [1], [(1, 1)]⟩, some ⟨1, 1, 1⟩, none, 0⟩).1.inner.records =
      (⟨⟨[5, 6, 7], [1, 2], [(2, 2)]⟩, none, none, 0⟩ : ByteRecordArena).inner.records := by
  have h := migrate_partial_correct ⟨⟨[5, 6, 7], [1, 2], [(2, 2)]⟩, none, none, 0⟩
    ⟨⟨[9], [1], [(1, 1)]⟩, some ⟨1, 1, 1⟩, none, 0⟩ (by decide) (by decide) (by decide)
  obtain ⟨h1, h2, h3, h4, h5, -, -, -, -, h10, h11⟩ := h
  exact ⟨h1, h2, h3, h4, h5, h10, h11⟩

/-- The conservation equation as the claim words it — partial length before
the call equals the length removed from the source plus the length held by
the destination — fails on a source that is entirely one partial record:
2 bytes of partial, 2 removed, 2 held, and `2 ≠ 2 + 2`. -/
theorem migrate_partial_claim_counterexample :
    ¬((⟨⟨[1, 2], [], []⟩, none, none, 0⟩ : ByteRecordArena).inner.field_data.length -
        (⟨⟨[1, 2], [], []⟩, none, none, 0⟩ : ByteRecordArena).inner.lastRecordEnd.1 =
      ((⟨⟨[1, 2], [], []⟩, none, none, 0⟩ : ByteRecordArena).inner.field_data.length -
          (ByteRecordArena.migrate_partial ⟨⟨[1, 2], [], []⟩, none, none, 0⟩
            ByteRecordArena.new).1.inner.field_data.length) +
        (ByteRecordArena.migrate_partial ⟨⟨[1, 2], [], []⟩, none, none, 0⟩
            ByteRecordArena.new).2.1.inner.field_data.length) := by
  decide

/-- **C9** — `complete_partial` on a non-partial arena still pushes a record
boundary: the record count grows by one, the arena stops being empty, the
appended completed record has zero fields, and the arena is *not* left
unchanged. -/
theorem complete_partial_nonpartial (a : ByteRecordArena) (h : a.is_partial = false) :
    a.complete_partial.record_count = a.record_count + 1 ∧
    a.complete_partial.is_empty = false ∧
    a.complete_partial.inner.records = a.inner.records ++ [[]] ∧
    a.complete_partial ≠ a := by
  have hp : a.inner.field_data.length ≤ a.inner.lastRecordEnd.1 ∧
      a.inner.field_ends.length ≤ a.inner.lastRecordEnd.2 := by
    simp only [ByteRecordArena.is_partial, RawRecordArena.is_partial,
      Bool.or_eq_false_iff, decide_eq_false_iff_not, Nat.not_lt] at h
    exact h
  have hgl : RawRecordArena.get_last_partial_field a.inner = none := by
    rw [RawRecordArena.get_last_partial_field]
    simp [List.drop_eq_nil_of_le hp.1, List.drop_eq_nil_of_le hp.2]
  have hcp : a.complete_partial = { a with inner := ⟨a.inner.field_data,
      a.inner.field_ends, a.inner.record_ends ++
        [(a.inner.field_data.length, a.inner.field_ends.length)]⟩ } := by
    rw [ByteRecordArena.complete_partial, RawRecordArena.complete_partial, hgl]
  refine ⟨?_, ?_, ?_, ?_⟩
  · rw [hcp]
    simp [ByteRecordArena.record_count]
  · rw [hcp]
    simp [ByteRecordArena.is_empty, ByteRecordArena.record_count]
  · rw [hcp]
    show RawRecordArena.records ⟨a.inner.field_data, a.inner.field_ends,
        a.inner.record_ends ++ [(a.inner.field_data.length, a.inner.field_ends.length)]⟩ =
      RawRecordArena.records a.inner ++ [[]]
    simp only [RawRecordArena.records, recordViews_concat, List.map_append,
      List.map_cons, List.map_nil]
    congr 1
    simp only [List.take_length]
    rw [show a.inner.record_ends.getLast?.getD (0, 0) = a.inner.lastRecordEnd from rfl,
      List.drop_eq_nil_of_le hp.2]
    simp [RawRecordArena.recordFields]
  · intro heq
    have := congrArg (fun x => x.inner.record_ends.length) heq
    rw [hcp] at this
    simp at this

/-- Witness for `complete_partial_nonpartial` at the fresh (empty, hence
non-partial) arena. -/
theorem complete_partial_nonpartial_witness :
    ByteRecordArena.new.complete_partial.record_count =
        ByteRecordArena.new.record_count + 1 ∧
    ByteRecordArena.new.complete_partial.is_empty = false ∧
    ByteRecordArena.new.complete_partial.inner.records =
        ByteRecordArena.new.inner.records ++ [[]] ∧
    ByteRecordArena.new.complete_partial ≠ ByteRecordArena.new :=
  complete_partial_nonpartial ByteRecordArena.new (by decide)

/-- **C7** — the sizing formula `2 + 2 × field bytes + field count + record
count` is *not* always large enough.  For one completed record of two fields,
each a single quote byte, the formula yields `2 + 2·2 + 2 + 1 = 9`, but the
encoding `"",""\n` — open quote, doubled quote, closing quote, delimiter,
open quote, doubled quote, closing quote, terminator — needs 10 bytes: the
terminator write runs out of room (the `debug_assert` conjunction in
`write_record` is violated) and the emitted output is missing its final
newline. -/
theorem dump_arena_sizing_insufficient :
    (Writer.dump_arena (Writer.new true 44) []
        ⟨⟨[34, 34], [1, 2], [(2, 2)]⟩, none, none, 0⟩).2.2 = false ∧
    (Writer.dump_arena (Writer.new true 44) []
        ⟨⟨[34, 34], [1, 2], [(2, 2)]⟩, none, none, 0⟩).2.1 =
      [34, 34, 34, 34, 44, 34, 34, 34, 34] := by
  decide

/-- **C8** — `bytes_written` advances by the output buffer's *padded* length
(the pre-sized `2 + 2 × field bytes + field count + record count`), not by the
truncated number of bytes actually produced: dumping the single record `"a"`
produces the 2 bytes `a\n` yet advances `bytes_written` by 6
(`records_written`, by contrast, correctly advances by 1). -/
theorem dump_arena_bytes_written_overcount :
    (Writer.dump_arena (Writer.new true 44) []
        ⟨⟨[97], [1], [(1, 1)]⟩, none, none, 0⟩).1.bytes_written = 6 ∧
    (Writer.dump_arena (Writer.new true 44) []
        ⟨⟨[97], [1], [(1, 1)]⟩, none, none, 0⟩).2.1 = [97, 10] ∧
    (Writer.dump_arena (Writer.new true 44) []
        ⟨⟨[97], [1], [(1, 1)]⟩, none, none, 0⟩).1.records_written = 1 := by
  decide

/-- **C10** — the structural invariant (`RawRecordArena.wf`: `record_ends`
componentwise non-decreasing with its last entry inside the buffers, each
record's field-end offsets non-decreasing and ending at the record's data
length) is *not* preserved by `complete_partial`.  Parsing `a\nc` leaves the
arena `field_data = [97, 99]`, `field_ends = [1]`, `record_ends = [(1, 1)]`
(completed record `["a"]`, dangling partial byte `c` with no field end yet),
which satisfies the invariant; `complete_partial` then pushes
`field_ends.last() + 1 = 2` — the last field end of the *whole buffer* (the
previous record's, an offset relative to that record) instead of the
partial-relative `0 + 1` — so the appended record's ends-slice is `[2]`
while the record holds 1 byte, and the invariant is false (the record's
field slice `field_data[0..2]` is out of bounds for the Rust iterator). -/
theorem complete_partial_breaks_invariant :
    ((Reader.new false 44).fill_arena [97, 10, 99] ByteRecordArena.new).2.1.inner =
      ⟨[97, 99], [1], [(1, 1)]⟩ ∧
    RawRecordArena.wf ⟨[97, 99], [1], [(1, 1)]⟩ = true ∧
    RawRecordArena.complete_partial ⟨[97, 99], [1], [(1, 1)]⟩ =
      ⟨[97, 99], [1, 2], [(1, 1), (2, 2)]⟩ ∧
    RawRecordArena.wf ⟨[97, 99], [1, 2], [(1, 1), (2, 2)]⟩ = false := by
  refine ⟨?_, by decide, by decide, by decide⟩
  have hb := fill_arena_eq_pure (Reader.new false 44) [97, 10, 99] ByteRecordArena.new
    (by decide) (by decide)
  rw [hb]
  simp [pureFillArena, pureFill, pureTokRR, pureTokGo, coreStep, checkColCount,
    CoreReader.new, Reader.new, ByteRecordArena.new, RawRecordArena.new, quoteByte, lfByte,
    ByteRecordArena.headers, RawRecordArena.lastRecordEnd, Headers.len]

/-! ## Tokenizer concatenation

The pure tokenizer composes over input concatenation: a run that consumed all
its input resumes seamlessly on more bytes, and a run that stopped at a
record end is unaffected by bytes appended past it.  These are the algebraic
facts behind cross-chunk continuation. -/

theorem pureTokGo_inputEmpty_rem (x : List Nat) : ∀ (c c₂ : CoreReader) (rem D E : List Nat),
    pureTokGo c x = (.inputEmpty, c₂, rem, D, E) → rem = [] := by
  induction x with
  | nil =>
      intro c c₂ rem D E h
      rw [pureTokGo] at h
      simp only [Prod.mk.injEq] at h
      exact h.2.2.1.symm
  | cons b rest ih =>
      intro c c₂ rem D E h
      rw [pureTokGo] at h
      rcases hs : coreStep c b with ⟨c', eff⟩
      rw [hs] at h
      cases eff with
      | silent => exact ih _ _ _ _ _ h
      | wrote ob =>
          simp only [Prod.mk.injEq] at h
          rw [← h.2.2.1]
          exact ih _ _ _ _ _ (by rw [← h.1])
      | fieldEnd en =>
          simp only [Prod.mk.injEq] at h
          rw [← h.2.2.1]
          exact ih _ _ _ _ _ (by rw [← h.1])
      | recordEnd en => simp at h

/-- A `recordEnd` effect leaves the automaton at a record boundary. -/
theorem coreStep_recordEnd_state (c : CoreReader) (b : Nat) (c' : CoreReader) (en : Nat)
    (h : coreStep c b = (c', .recordEnd en)) : c'.state = .startRecord := by
  rcases c with ⟨d, st, op, ln⟩
  cases st <;> simp only [coreStep] at h <;> split_ifs at h <;>
    simp only [Prod.mk.injEq] at h <;> simp_all <;> rw [← h.1]

/-- A pure run that consumed all its input resumes seamlessly on appended
bytes: the continuation's stop and output compose with the consumed prefix's
output. -/
theorem pureTokGo_append (x : List Nat) : ∀ (y : List Nat) (c c₂ : CoreReader) (D E : List Nat)
    (s : GoStop) (c₃ : CoreReader) (rem Dc Ec : List Nat),
    pureTokGo c x = (.inputEmpty, c₂, [], D, E) →
    pureTokGo c₂ y = (s, c₃, rem, Dc, Ec) →
    pureTokGo c (x ++ y) = (s, c₃, rem, D ++ Dc, E ++ Ec) := by
  induction x with
  | nil =>
      intro y c c₂ D E s c₃ rem Dc Ec h h₂
      rw [pureTokGo] at h
      simp only [Prod.mk.injEq] at h
      obtain ⟨-, hc, -, hD, hE⟩ := h
      subst hc; subst hD; subst hE
      simpa using h₂
  | cons b rest ih =>
      intro y c c₂ D E s c₃ rem Dc Ec h h₂
      rw [pureTokGo] at h
      rcases hs : coreStep c b with ⟨c', eff⟩
      simp only [hs] at h
      rw [List.cons_append, pureTokGo]
      simp only [hs]
      cases eff with
      | silent => exact ih y c' c₂ D E s c₃ rem Dc Ec h h₂
      | wrote ob =>
          rcases hg : pureTokGo c' rest with ⟨r0, c0, rem0, d0, e0⟩
          simp only [hg] at h
          simp only [Prod.mk.injEq] at h
          obtain ⟨hr, hc, hrem, hD, hE⟩ := h
          have hgy := ih y c' c₂ d0 e0 s c₃ rem Dc Ec (by rw [hg, hr, hc, ← hrem]) h₂
          simp only [hgy]
          simp [← hD, ← hE]
      | fieldEnd en =>
          rcases hg : pureTokGo c' rest with ⟨r0, c0, rem0, d0, e0⟩
          simp only [hg] at h
          simp only [Prod.mk.injEq] at h
          obtain ⟨hr, hc, hrem, hD, hE⟩ := h
          have hgy := ih y c' c₂ d0 e0 s c₃ rem Dc Ec (by rw [hg, hr, hc, ← hrem]) h₂
          simp only [hgy]
          simp [← hD, ← hE]
      | recordEnd en => simp at h

/-- A pure run that stopped at a record end is unaffected by appended bytes:
they simply stay unconsumed. -/
theorem pureTokGo_record_append (x : List Nat) :
    ∀ (y : List Nat) (c c' : CoreReader) (u D E : List Nat),
    pureTokGo c x = (.record, c', u, D, E) →
    pureTokGo c (x ++ y) = (.record, c', u ++ y, D, E) := by
  induction x with
  | nil =>
      intro y c c' u D E h
      rw [pureTokGo] at h
      simp at h
  | cons b rest ih =>
      intro y c c' u D E h
      rw [pureTokGo] at h
      rcases hs : coreStep c b with ⟨c₀, eff⟩
      simp only [hs] at h
      rw [List.cons_append, pureTokGo]
      simp only [hs]
      cases eff with
      | silent => exact ih y c₀ c' u D E h
      | wrote ob =>
          rcases hg : pureTokGo c₀ rest with ⟨r0, c0, rem0, d0, e0⟩
          simp only [hg] at h
          simp only [Prod.mk.injEq] at h
          obtain ⟨hr, hc, hrem, hD, hE⟩ := h
          have hgy := ih y c₀ c' rem0 d0 e0 (by rw [hg, hr, hc])
          simp only [hgy]
          simp [← hD, ← hE, hrem]
      | fieldEnd en =>
          rcases hg : pureTokGo c₀ rest with ⟨r0, c0, rem0, d0, e0⟩
          simp only [hg] at h
          simp only [Prod.mk.injEq] at h
          obtain ⟨hr, hc, hrem, hD, hE⟩ := h
          have hgy := ih y c₀ c' rem0 d0 e0 (by rw [hg, hr, hc])
          simp only [hgy]
          simp [← hD, ← hE, hrem]
      | recordEnd en =>
          simp only [Prod.mk.injEq] at h
          obtain ⟨-, hc, hrem, hD, hE⟩ := h
          rw [← hc, ← hD, ← hE, hrem]

/-- A record stop leaves the tokenizer at a record boundary. -/
theorem pureTokGo_record_state (x : List Nat) :
    ∀ (c c' : CoreReader) (u D E : List Nat),
    pureTokGo c x = (.record, c', u, D, E) → c'.state = .startRecord := by
  induction x with
  | nil =>
      intro c c' u D E h
      rw [pureTokGo] at h
      simp at h
  | cons b rest ih =>
      intro c c' u D E h
      rw [pureTokGo] at h
      rcases hs : coreStep c b with ⟨c₀, eff⟩
      simp only [hs] at h
      cases eff with
      | silent => exact ih c₀ c' u D E h
      | wrote ob =>
          rcases hg : pureTokGo c₀ rest with ⟨r0, c0, rem0, d0, e0⟩
          simp only [hg] at h
          simp only [Prod.mk.injEq] at h
          obtain ⟨hr, hc, -, -, -⟩ := h
          exact hc ▸ ih c₀ c0 rem0 d0 e0 (by rw [hg, hr])
      | fieldEnd en =>
          rcases hg : pureTokGo c₀ rest with ⟨r0, c0, rem0, d0, e0⟩
          simp only [hg] at h
          simp only [Prod.mk.injEq] at h
          obtain ⟨hr, hc, -, -, -⟩ := h
          exact hc ▸ ih c₀ c0 rem0 d0 e0 (by rw [hg, hr])
      | recordEnd en =>
          simp only [Prod.mk.injEq] at h
          obtain ⟨-, hc, -, -, -⟩ := h
          exact hc ▸ coreStep_recordEnd_state c b c₀ en hs

/-- The byte loop never reports end-of-data; only the empty-slice wrapper
does. -/
theorem pureTokGo_no_endOfData (x : List Nat) : ∀ (c c₂ : CoreReader) (rem D E : List Nat),
    pureTokGo c x ≠ (.endOfData, c₂, rem, D, E) := by
  induction x with
  | nil =>
      intro c c₂ rem D E h
      rw [pureTokGo] at h
      simp at h
  | cons b rest ih =>
      intro c c₂ rem D E h
      rw [pureTokGo] at h
      rcases hs : coreStep c b with ⟨c₀, eff⟩
      simp only [hs] at h
      cases eff with
      | silent => exact ih c₀ c₂ rem D E h
      | wrote ob =>
          rcases hg : pureTokGo c₀ rest with ⟨r0, c0, rem0, d0, e0⟩
          simp only [hg] at h
          simp only [Prod.mk.injEq] at h
          exact ih c₀ c0 rem0 d0 e0 (by rw [hg, h.1])
      | fieldEnd en =>
          rcases hg : pureTokGo c₀ rest with ⟨r0, c0, rem0, d0, e0⟩
          simp only [hg] at h
          simp only [Prod.mk.injEq] at h
          exact ih c₀ c0 rem0 d0 e0 (by rw [hg, h.1])
      | recordEnd en => simp at h

/-- An end-of-data stop happens only on an empty slice at a record boundary,
and changes nothing. -/
theorem pureTokRR_endOfData_elim (x : List Nat) (c c₂ : CoreReader) (rem D E : List Nat)
    (h : pureTokRR c x = (.endOfData, c₂, rem, D, E)) :
    x = [] ∧ c₂ = c ∧ rem = [] ∧ D = [] ∧ E = [] ∧ c.state = .startRecord := by
  cases x with
  | nil =>
      rw [pureTokRR] at h
      by_cases hst : c.state = .startRecord
      · rw [if_pos hst] at h
        simp only [Prod.mk.injEq] at h
        exact ⟨rfl, h.2.1.symm, h.2.2.1.symm, h.2.2.2.1.symm, h.2.2.2.2.symm, hst⟩
      · rw [if_neg hst] at h
        simp at h
  | cons b rest => exact absurd h (pureTokGo_no_endOfData _ c c₂ rem D E)

/-- `pureTokRR` composition for a consumed-everything stop. -/
theorem pureTokRR_inputEmpty_append (x y : List Nat) (c c₂ : CoreReader) (D E : List Nat)
    (s : GoStop) (c₃ : CoreReader) (rem Dc Ec : List Nat) (hy : y ≠ [])
    (h : pureTokRR c x = (.inputEmpty, c₂, [], D, E))
    (h₂ : pureTokRR c₂ y = (s, c₃, rem, Dc, Ec)) :
    pureTokRR c (x ++ y) = (s, c₃, rem, D ++ Dc, E ++ Ec) := by
  cases x with
  | nil =>
      rw [pureTokRR] at h
      split_ifs at h <;> simp at h
  | cons b rest =>
      rcases y with _ | ⟨b', rest'⟩
      · exact absurd rfl hy
      · rw [pureTokRR] at h h₂
        rw [List.cons_append, pureTokRR]
        exact pureTokGo_append (b :: rest) (b' :: rest') c c₂ D E s c₃ rem Dc Ec h h₂

/-- `pureTokRR` absorb for a record stop on nonempty input. -/
theorem pureTokRR_record_append (x y : List Nat) (c c' : CoreReader) (u D E : List Nat)
    (hx : x ≠ [])
    (h : pureTokRR c x = (.record, c', u, D, E)) :
    pureTokRR c (x ++ y) = (.record, c', u ++ y, D, E) := by
  cases x with
  | nil => exact absurd rfl hx
  | cons b rest =>
      rw [pureTokRR] at h
      rw [List.cons_append, pureTokRR]
      exact pureTokGo_record_append (b :: rest) y c c' u D E h

/-- A record stop leaves the tokenizer at a record boundary (wrapper level,
including the empty-slice quirk). -/
theorem pureTokRR_record_state (x : List Nat) (c c' : CoreReader) (u D E : List Nat)
    (h : pureTokRR c x = (.record, c', u, D, E)) : c'.state = .startRecord := by
  cases x with
  | nil =>
      rw [pureTokRR] at h
      split_ifs at h
      · simp at h
      · simp only [Prod.mk.injEq] at h
        rw [← h.2.1]
  | cons b rest =>
      rw [pureTokRR] at h
      exact pureTokGo_record_state (b :: rest) c c' u D E h

/-- An inputEmpty stop never comes from an empty slice, and leaves nothing
unconsumed. -/
theorem pureTokRR_inputEmpty_elim (x : List Nat) (c c₂ : CoreReader) (rem D E : List Nat)
    (h : pureTokRR c x = (.inputEmpty, c₂, rem, D, E)) : x ≠ [] ∧ rem = [] := by
  cases x with
  | nil =>
      rw [pureTokRR] at h
      split_ifs at h <;> simp at h
  | cons b rest =>
      rw [pureTokRR] at h
      exact ⟨List.cons_ne_nil b rest, pureTokGo_inputEmpty_rem (b :: rest) c c₂ rem D E h⟩

/-! ## Pure fill composition (unchecked runs)

With column-count enforcement off, the fill loop composes over input
concatenation: a loop that drained chunk `x` resumes on `x ++ y` exactly
where it left off, with the same arena.  Enforcement is reconciled
separately (a checked run that succeeds equals the unchecked run). -/

theorem pureFill_append (c : CoreReader) (sk ens : Bool) (K : Option Nat) (x : List Nat)
    (A : RawRecordArena) (H : Option Headers) :
    ens = false →
    ∀ (y : List Nat) (c₂ : CoreReader) (sk₂ : Bool) (A₂ : RawRecordArena) (H₂ : Option Headers),
    pureFill c sk ens K x A H = (c₂, sk₂, [], A₂, H₂, .ok ()) →
    (x = [] → c.state = .startRecord) →
    y ≠ [] →
    pureFill c sk ens K (x ++ y) A H = pureFill c₂ sk₂ ens K y A₂ H₂ := by
  induction c, sk, ens, K, x, A, H using pureFill.induct with
  | case1 c sk ens K x A H c' rem D E hrr =>
      intro hens y c₂ sk₂ A₂ H₂ heq hstate hy
      obtain ⟨hx, hrem⟩ := pureTokRR_inputEmpty_elim x c c' rem D E hrr
      subst hrem
      rw [pureFill, hrr] at heq
      simp only [] at heq
      simp only [Prod.mk.injEq] at heq
      obtain ⟨hc, hsk, -, hA, hH, -⟩ := heq
      rcases h₂ : pureTokRR c₂ y with ⟨s, c₃, rem', Dc, Ec⟩
      have happ := pureTokRR_inputEmpty_append x y c c₂ D E s c₃ rem' Dc Ec hy
        (by rw [hrr, hc]) h₂
      rw [pureFill, happ]
      simp only []
      rw [pureFill, h₂]
      simp only []
      cases s with
      | inputEmpty =>
          simp [← hA, ← hH, hsk, List.append_assoc]
      | endOfData =>
          simp [← hA, ← hH, hsk, List.append_assoc]
      | record =>
          subst hens
          simp [← hA, ← hH, hsk, List.append_assoc, checkColCount]
  | case2 c sk ens K x A H c' rem D E hrr =>
      intro hens y c₂ sk₂ A₂ H₂ heq hstate hy
      obtain ⟨hx, hc, hrem, hD, hE, hst⟩ := pureTokRR_endOfData_elim x c c' rem D E hrr
      subst hx
      rw [pureFill, hrr] at heq
      simp only [] at heq
      simp only [Prod.mk.injEq] at heq
      obtain ⟨hc2, hsk, -, hA, hH, -⟩ := heq
      rw [List.nil_append]
      rw [← hc2, hc, ← hsk, ← hA, ← hH, hD, hE]
      simp
  | case3 c sk ens K x A H c' rem D E hrr fd' fe' A' e hcheck =>
      intro hens y c₂ sk₂ A₂ H₂ heq hstate hy
      subst hens
      simp [checkColCount] at hcheck
  | case4 c ens K x A H c' rem D E hrr fd' fe' A' expected' hcheck popped hdrs re' prev ih =>
      intro hens y c₂ sk₂ A₂ H₂ heq hstate hy
      subst hens
      have hK2 := hcheck
      simp only [checkColCount] at hK2
      have hKe : K = expected' := by
        simpa using hK2
      have hx : x ≠ [] := by
        intro hnil
        subst hnil
        rw [pureTokRR, if_pos (hstate rfl)] at hrr
        simp at hrr
      rw [pureFill, hrr] at heq
      simp only [] at heq
      rw [hcheck] at heq
      simp only [] at heq
      simp only [if_true] at heq
      have hst' : rem = [] → c'.state = .startRecord :=
        fun _ => pureTokRR_record_state x c c' rem D E hrr
      have happ := pureTokRR_record_append x y c c' rem D E hx hrr
      rw [pureFill, happ]
      simp only []
      rw [hcheck]
      simp only []
      simp only [if_true]
      rw [hKe]
      exact ih rfl y c₂ sk₂ A₂ H₂ heq hst' hy
  | case5 c sk ens K x A H c' rem D E hrr fd' fe' A' expected' hcheck hsk ih =>
      intro hens y c₂ sk₂ A₂ H₂ heq hstate hy
      subst hens
      have hK2 := hcheck
      simp only [checkColCount] at hK2
      have hKe : K = expected' := by
        simpa using hK2
      have hx : x ≠ [] := by
        intro hnil
        subst hnil
        rw [pureTokRR, if_pos (hstate rfl)] at hrr
        simp at hrr
      rw [pureFill, hrr] at heq
      simp only [] at heq
      rw [hcheck] at heq
      simp only [] at heq
      rw [if_neg hsk] at heq
      have hst' : rem = [] → c'.state = .startRecord :=
        fun _ => pureTokRR_record_state x c c' rem D E hrr
      have happ := pureTokRR_record_append x y c c' rem D E hx hrr
      rw [pureFill, happ]
      simp only []
      rw [hcheck]
      simp only []
      rw [if_neg hsk]
      rw [hKe]
      exact ih rfl y c₂ sk₂ A₂ H₂ heq hst' hy

/-- Offsetting a `record_ends` entry by a buffer prefix. -/
def shiftEnd (P Q : Nat) (p : Nat × Nat) : Nat × Nat := (P + p.1, Q + p.2)

/-- The fill loop (no header scraping, no enforcement) is equivariant under
prefixing the arena's buffers with already-completed records: running on the
embedded arena embeds the run.  This is why carrying only the partial tail
into a fresh arena (`migrate_partial`) is equivalent to continuing on the
full arena. -/
theorem pureFill_shift (c : CoreReader) (sk ens : Bool) (K : Option Nat) (y : List Nat)
    (A : RawRecordArena) (H : Option Headers) :
    sk = false → ens = false →
    ∀ (pf pe : List Nat) (pr : List (Nat × Nat)) (c₂ : CoreReader) (sk₂ : Bool)
      (rem₂ : List Nat) (A₂ : RawRecordArena) (H₂ : Option Headers)
      (res : Except WrongColCount Unit),
    pr.getLast?.getD (0, 0) = (pf.length, pe.length) →
    pureFill c sk ens K y A H = (c₂, sk₂, rem₂, A₂, H₂, res) →
    pureFill c sk ens K y
      ⟨pf ++ A.field_data, pe ++ A.field_ends,
        pr ++ A.record_ends.map (shiftEnd pf.length pe.length)⟩ H =
      (c₂, sk₂, rem₂,
        ⟨pf ++ A₂.field_data, pe ++ A₂.field_ends,
          pr ++ A₂.record_ends.map (shiftEnd pf.length pe.length)⟩, H₂, res) := by
  induction c, sk, ens, K, y, A, H using pureFill.induct with
  | case1 c sk ens K y A H c' rem D E hrr =>
      intro hskF hensF pf pe pr c₂ sk₂ rem₂ A₂ H₂ res hpr heq
      rw [pureFill, hrr] at heq
      simp only [] at heq
      simp only [Prod.mk.injEq] at heq
      obtain ⟨hc, hsk, hrem, hA, hH, hres⟩ := heq
      rw [pureFill, hrr]
      simp only []
      simp [← hA, ← hH, ← hc, ← hsk, ← hrem, ← hres, List.append_assoc]
  | case2 c sk ens K y A H c' rem D E hrr =>
      intro hskF hensF pf pe pr c₂ sk₂ rem₂ A₂ H₂ res hpr heq
      rw [pureFill, hrr] at heq
      simp only [] at heq
      simp only [Prod.mk.injEq] at heq
      obtain ⟨hc, hsk, hrem, hA, hH, hres⟩ := heq
      rw [pureFill, hrr]
      simp only []
      simp [← hA, ← hH, ← hc, ← hsk, ← hrem, ← hres, List.append_assoc]
  | case3 c sk ens K y A H c' rem D E hrr fd' fe' A' e hcheck =>
      intro hskF hensF pf pe pr c₂ sk₂ rem₂ A₂ H₂ res hpr heq
      subst hensF
      simp [checkColCount] at hcheck
  | case4 c ens K y A H c' rem D E hrr fd' fe' A' expected' hcheck popped hdrs re' prev ih =>
      intro hskF hensF pf pe pr c₂ sk₂ rem₂ A₂ H₂ res hpr heq
      simp at hskF
  | case5 c sk ens K y A H c' rem D E hrr fd' fe' A' expected' hcheck hsk ih =>
      intro hskF hensF pf pe pr c₂ sk₂ rem₂ A₂ H₂ res hpr heq
      subst hensF
      have hK2 := hcheck
      simp only [checkColCount] at hK2
      have hKe : K = expected' := by
        simpa using hK2
      rw [pureFill, hrr] at heq
      simp only [] at heq
      rw [hcheck] at heq
      simp only [] at heq
      rw [if_neg hsk] at heq
      rw [pureFill, hrr]
      simp only []
      have hchk2 : ∀ a b, checkColCount false K a b = Except.ok expected' := by
        intro a b
        rw [← hKe]
        simp [checkColCount]
      rw [hchk2]
      simp only []
      rw [if_neg hsk]
      have harena : (⟨(pf ++ A.field_data) ++ D, (pe ++ A.field_ends) ++ E,
          (pr ++ A.record_ends.map (shiftEnd pf.length pe.length)) ++
            [(((pf ++ A.field_data) ++ D).length, ((pe ++ A.field_ends) ++ E).length)]⟩ :
            RawRecordArena) =
          ⟨pf ++ (A.field_data ++ D), pe ++ (A.field_ends ++ E),
            pr ++ (A.record_ends ++ [((A.field_data ++ D).length,
              (A.field_ends ++ E).length)]).map (shiftEnd pf.length pe.length)⟩ := by
        simp [List.append_assoc, List.map_append, shiftEnd, List.length_append]
      rw [harena]
      exact ih hskF rfl pf pe pr c₂ sk₂ rem₂ A₂ H₂ res hpr heq

/-! ## Record widths and record-view algebra -/

/-- The field counts of consecutive records, read off `record_ends`: each
record's width is the difference of consecutive ends offsets. -/
def endsWidths (q : Nat) : List (Nat × Nat) → List Nat
  | [] => []
  | (_, e) :: rest => (e - q) :: endsWidths e rest

theorem getLast?_getD_irrel (l : List (Nat × Nat)) (a b : Nat × Nat) (h : l ≠ []) :
    l.getLast?.getD a = l.getLast?.getD b := by
  rcases hg : l.getLast? with _ | z
  · exact absurd (List.getLast?_eq_none_iff.mp hg) h
  · rfl

theorem endsWidths_append (l₁ : List (Nat × Nat)) :
    ∀ (q : Nat) (l₂ : List (Nat × Nat)),
    endsWidths q (l₁ ++ l₂) =
      endsWidths q l₁ ++ endsWidths (l₁.getLast?.getD (0, q)).2 l₂ := by
  induction l₁ with
  | nil =>
      intro q l₂
      simp [endsWidths]
  | cons x t ih =>
      intro q l₂
      rcases x with ⟨d, e⟩
      rw [List.cons_append, endsWidths, endsWidths, ih e l₂, getLast?_getD_cons]
      rcases t with _ | ⟨y, u⟩
      · simp
      · rw [getLast?_getD_irrel (y :: u) (0, e) (d, e) (List.cons_ne_nil y u)]
        simp

theorem endsWidths_shift (re : List (Nat × Nat)) (P Q : Nat) :
    ∀ q, endsWidths (Q + q) (re.map (shiftEnd P Q)) = endsWidths q re := by
  induction re with
  | nil => intro q; rfl
  | cons x t ih =>
      intro q
      rcases x with ⟨d, e⟩
      rw [List.map_cons, shiftEnd, endsWidths, endsWidths, ih e]
      congr 1
      omega

/-- General split of the record views over a `record_ends` concatenation. -/
theorem recordViews_split (fd fe : List Nat) (l₁ : List (Nat × Nat)) :
    ∀ (pd pe : Nat) (l₂ : List (Nat × Nat)),
    RawRecordArena.recordViews fd fe pd pe (l₁ ++ l₂) =
      RawRecordArena.recordViews fd fe pd pe l₁ ++
        RawRecordArena.recordViews fd fe (l₁.getLast?.getD (pd, pe)).1
          (l₁.getLast?.getD (pd, pe)).2 l₂ := by
  induction l₁ with
  | nil =>
      intro pd pe l₂
      simp [RawRecordArena.recordViews]
  | cons x t ih =>
      intro pd pe l₂
      rcases x with ⟨d, e⟩
      rw [List.cons_append, RawRecordArena.recordViews, RawRecordArena.recordViews,
        ih d e l₂, getLast?_getD_cons, List.cons_append]

/-- Views of entries within the original buffers ignore appended bytes. -/
theorem recordViews_ext (fd fe X Y : List Nat) (re : List (Nat × Nat)) :
    ∀ (pd pe : Nat), (∀ p ∈ re, p.1 ≤ fd.length ∧ p.2 ≤ fe.length) →
    RawRecordArena.recordViews (fd ++ X) (fe ++ Y) pd pe re =
      RawRecordArena.recordViews fd fe pd pe re := by
  induction re with
  | nil => intro pd pe _; rfl
  | cons x t ih =>
      intro pd pe h
      rcases x with ⟨d, e⟩
      have hx := h (d, e) (List.mem_cons_self _ _)
      rw [RawRecordArena.recordViews, RawRecordArena.recordViews,
        List.take_append_of_le_length hx.1, List.take_append_of_le_length hx.2,
        ih d e (fun p hp => h p (List.mem_cons_of_mem _ hp))]

/-- Views of shifted entries read exactly the unshifted views of the suffix
buffers. -/
theorem recordViews_shift (pf pe : List Nat) (fd fe : List Nat) (re : List (Nat × Nat)) :
    ∀ (pd q : Nat),
    RawRecordArena.recordViews (pf ++ fd) (pe ++ fe) (pf.length + pd) (pe.length + q)
      (re.map (shiftEnd pf.length pe.length)) =
      RawRecordArena.recordViews fd fe pd q re := by
  induction re with
  | nil => intro pd q; rfl
  | cons x t ih =>
      intro pd q
      rcases x with ⟨d, e⟩
      rw [List.map_cons, shiftEnd, RawRecordArena.recordViews, RawRecordArena.recordViews]
      rw [List.take_append, List.take_append, List.drop_append, List.drop_append, ih d e]

/-- Records of an arena whose buffers embed a completed prefix split into the
prefix's records followed by the suffix arena's records. -/
theorem records_embed (pf pe : List Nat) (pr : List (Nat × Nat)) (fd fe : List Nat)
    (re : List (Nat × Nat))
    (hdom : ∀ p ∈ pr, p.1 ≤ pf.length ∧ p.2 ≤ pe.length)
    (hlast : pr.getLast?.getD (0, 0) = (pf.length, pe.length)) :
    RawRecordArena.records ⟨pf ++ fd, pe ++ fe, pr ++ re.map (shiftEnd pf.length pe.length)⟩ =
      RawRecordArena.records ⟨pf, pe, pr⟩ ++ RawRecordArena.records ⟨fd, fe, re⟩ := by
  simp only [RawRecordArena.records]
  rw [recordViews_split, recordViews_ext pf pe fd fe pr 0 0 hdom, hlast]
  rw [show (pf.length, pe.length) = (pf.length + 0, pe.length + 0) from by simp,
    recordViews_shift]
  rw [List.map_append]

/-- Truncating the buffers to the last completed boundary preserves the
records (they only read below it). -/
theorem records_truncate (fd fe : List Nat) (re : List (Nat × Nat)) (lD lE : Nat)
    (hdom : ∀ p ∈ re, p.1 ≤ lD ∧ p.2 ≤ lE) :
    RawRecordArena.records ⟨fd.take lD, fe.take lE, re⟩ =
      RawRecordArena.records ⟨fd, fe, re⟩ := by
  simp only [RawRecordArena.records]
  rw [recordViews_take_of_bounded fd fe lD lE re 0 0 hdom]

theorem records_length (a : RawRecordArena) :
    (RawRecordArena.records a).length = a.record_ends.length := by
  simp only [RawRecordArena.records, List.length_map]
  suffices h : ∀ (pd q : Nat) (re : List (Nat × Nat)),
      (RawRecordArena.recordViews a.field_data a.field_ends pd q re).length = re.length by
    exact h 0 0 a.record_ends
  intro pd q re
  induction re generalizing pd q with
  | nil => rfl
  | cons x t ih =>
      rcases x with ⟨d, e⟩
      rw [RawRecordArena.recordViews]
      simp [ih d e]

/-! ## Run facts and enforcement reconciliation -/

/-- Structural facts of a headerless unchecked fill run: it always succeeds
with all input consumed, only appends to the arena, and preserves the
boundary invariants. -/
theorem pureFill_facts (c : CoreReader) (sk ens : Bool) (K : Option Nat) (x : List Nat)
    (A : RawRecordArena) (H : Option Headers) :
    sk = false → ens = false →
    ∀ c₂ sk₂ rem₂ A₂ H₂ res,
    pureFill c sk ens K x A H = (c₂, sk₂, rem₂, A₂, H₂, res) →
    sk₂ = false ∧ H₂ = H ∧ rem₂ = [] ∧ res = .ok () ∧
    (∃ Dt Et L, A₂.field_data = A.field_data ++ Dt ∧ A₂.field_ends = A.field_ends ++ Et ∧
      A₂.record_ends = A.record_ends ++ L) ∧
    ((∀ p ∈ A.record_ends, p.1 ≤ A.field_data.length ∧ p.2 ≤ A.field_ends.length) →
      (∀ p ∈ A₂.record_ends, p.1 ≤ A₂.field_data.length ∧ p.2 ≤ A₂.field_ends.length) ∧
      ((∀ p ∈ A.record_ends, p.1 ≤ A.lastRecordEnd.1 ∧ p.2 ≤ A.lastRecordEnd.2) →
        ∀ p ∈ A₂.record_ends, p.1 ≤ A₂.lastRecordEnd.1 ∧ p.2 ≤ A₂.lastRecordEnd.2)) := by
  induction c, sk, ens, K, x, A, H using pureFill.induct with
  | case1 c sk ens K x A H c' rem D E hrr =>
      intro hskF hensF c₂ sk₂ rem₂ A₂ H₂ res heq
      obtain ⟨-, hrem⟩ := pureTokRR_inputEmpty_elim x c c' rem D E hrr
      subst hrem
      rw [pureFill, hrr] at heq
      simp only [] at heq
      simp only [Prod.mk.injEq] at heq
      obtain ⟨-, hsk, hrem2, hA, hH, hres⟩ := heq
      subst hskF
      refine ⟨hsk.symm, hH.symm, hrem2.symm, hres.symm, ⟨D, E, [], ?_, ?_, ?_⟩, ?_⟩
      · rw [← hA]
      · rw [← hA]
      · rw [← hA]
        simp
      · intro hB
        rw [← hA]
        constructor
        · intro p hp
          have := hB p hp
          simp only [List.length_append]
          omega
        · intro hL p hp
          have h1 := hL p hp
          simp only [RawRecordArena.lastRecordEnd] at h1 ⊢
          exact h1
  | case2 c sk ens K x A H c' rem D E hrr =>
      intro hskF hensF c₂ sk₂ rem₂ A₂ H₂ res heq
      obtain ⟨hx, hc, hrem, hD, hE, -⟩ := pureTokRR_endOfData_elim x c c' rem D E hrr
      subst hrem
      rw [pureFill, hrr] at heq
      simp only [] at heq
      simp only [Prod.mk.injEq] at heq
      obtain ⟨-, hsk, hrem2, hA, hH, hres⟩ := heq
      subst hskF
      refine ⟨hsk.symm, hH.symm, hrem2.symm, hres.symm, ⟨D, E, [], ?_, ?_, ?_⟩, ?_⟩
      · rw [← hA]
      · rw [← hA]
      · rw [← hA]
        simp
      · intro hB
        rw [← hA]
        constructor
        · intro p hp
          have := hB p hp
          simp only [List.length_append]
          omega
        · intro hL p hp
          have h1 := hL p hp
          simp only [RawRecordArena.lastRecordEnd] at h1 ⊢
          exact h1
  | case3 c sk ens K x A H c' rem D E hrr fd' fe' A' e hcheck =>
      intro hskF hensF c₂ sk₂ rem₂ A₂ H₂ res heq
      subst hensF
      simp [checkColCount] at hcheck
  | case4 c ens K x A H c' rem D E hrr fd' fe' A' expected' hcheck popped hdrs re' prev ih =>
      intro hskF hensF c₂ sk₂ rem₂ A₂ H₂ res heq
      simp at hskF
  | case5 c sk ens K x A H c' rem D E hrr fd' fe' A' expected' hcheck hsk ih =>
      intro hskF hensF c₂ sk₂ rem₂ A₂ H₂ res heq
      subst hensF
      rw [pureFill, hrr] at heq
      simp only [] at heq
      rw [hcheck] at heq
      simp only [] at heq
      rw [if_neg hsk] at heq
      obtain ⟨hsk2, hH2, hrem2, hres, ⟨Dt, Et, L, h1, h2, h3⟩, hinv⟩ :=
        ih hskF rfl c₂ sk₂ rem₂ A₂ H₂ res heq
      have h1' : A₂.field_data = A.field_data ++ (D ++ Dt) := by
        rw [h1]
        show (A.field_data ++ D) ++ Dt = _
        rw [List.append_assoc]
      have h2' : A₂.field_ends = A.field_ends ++ (E ++ Et) := by
        rw [h2]
        show (A.field_ends ++ E) ++ Et = _
        rw [List.append_assoc]
      have h3' : A₂.record_ends = A.record_ends ++
          (((A.field_data ++ D).length, (A.field_ends ++ E).length) :: L) := by
        rw [h3]
        show (A.record_ends ++ [((A.field_data ++ D).length, (A.field_ends ++ E).length)]) ++
          L = _
        rw [List.append_assoc]
        rfl
      refine ⟨hsk2, hH2, hrem2, hres, ⟨D ++ Dt, E ++ Et,
        ((A.field_data ++ D).length, (A.field_ends ++ E).length) :: L, h1', h2', h3'⟩, ?_⟩
      intro hB
      have hlast : RawRecordArena.lastRecordEnd A' =
          ((A.field_data ++ D).length, (A.field_ends ++ E).length) := by
        show (A.record_ends ++
          [((A.field_data ++ D).length, (A.field_ends ++ E).length)]).getLast?.getD (0, 0) = _
        simp
      have hB' : ∀ p ∈ A'.record_ends,
          p.1 ≤ A'.field_data.length ∧ p.2 ≤ A'.field_ends.length := by
        show ∀ p ∈ (A.record_ends ++
            [((A.field_data ++ D).length, (A.field_ends ++ E).length)]),
          p.1 ≤ (A.field_data ++ D).length ∧ p.2 ≤ (A.field_ends ++ E).length
        intro p hp
        rcases List.mem_append.mp hp with hp1 | hp2
        · have := hB p hp1
          simp only [List.length_append]
          omega
        · simp only [List.mem_singleton] at hp2
          subst hp2
          simp
      obtain ⟨hinvB, hinvL⟩ := hinv hB'
      refine ⟨hinvB, fun hL => hinvL ?_⟩
      intro p hp
      have hp' : p ∈ (A.record_ends ++
          [((A.field_data ++ D).length, (A.field_ends ++ E).length)]) := hp
      rw [hlast]
      rcases List.mem_append.mp hp' with hp1 | hp2
      · have hb := hB p hp1
        simp only [List.length_append]
        omega
      · simp only [List.mem_singleton] at hp2
        subst hp2
        simp

/-- An unchecked run never reads the expected column count: the result is
independent of it. -/
theorem pureFill_unchecked_K (c : CoreReader) (sk ens : Bool) (K : Option Nat) (x : List Nat)
    (A : RawRecordArena) (H : Option Headers) :
    ens = false → ∀ K', pureFill c sk ens K x A H = pureFill c sk ens K' x A H := by
  induction c, sk, ens, K, x, A, H using pureFill.induct with
  | case1 c sk ens K x A H c' rem D E hrr =>
      intro hensF K'
      rw [pureFill, hrr]
      simp only []
      rw [pureFill, hrr]
  | case2 c sk ens K x A H c' rem D E hrr =>
      intro hensF K'
      rw [pureFill, hrr]
      simp only []
      rw [pureFill, hrr]
  | case3 c sk ens K x A H c' rem D E hrr fd' fe' A' e hcheck =>
      intro hensF K'
      subst hensF
      simp [checkColCount] at hcheck
  | case4 c ens K x A H c' rem D E hrr fd' fe' A' expected' hcheck popped hdrs re' prev ih =>
      intro hensF K'
      subst hensF
      conv_lhs => rw [pureFill, hrr]
      simp only []
      rw [hcheck]
      simp only []
      simp only [if_true]
      conv_rhs => rw [pureFill, hrr]
      simp only []
      have hchk2 : ∀ a b, checkColCount false K' a b = Except.ok K' := by
        intro a b
        simp [checkColCount]
      rw [hchk2]
      simp only []
      simp only [if_true]
      exact ih rfl K'
  | case5 c sk ens K x A H c' rem D E hrr fd' fe' A' expected' hcheck hsk ih =>
      intro hensF K'
      subst hensF
      conv_lhs => rw [pureFill, hrr]
      simp only []
      rw [hcheck]
      simp only []
      rw [if_neg hsk]
      conv_rhs => rw [pureFill, hrr]
      simp only []
      have hchk2 : ∀ a b, checkColCount false K' a b = Except.ok K' := by
        intro a b
        simp [checkColCount]
      rw [hchk2]
      simp only []
      rw [if_neg hsk]
      exact ih rfl K'

/-- A checked run that succeeds equals the unchecked run (every check
passed, so removing them changes nothing observable). -/
theorem pureFill_checked_to_unchecked (c : CoreReader) (sk ens : Bool) (K : Option Nat)
    (x : List Nat) (A : RawRecordArena) (H : Option Headers) :
    ens = true →
    ∀ c₂ sk₂ rem₂ A₂ H₂,
    pureFill c sk ens K x A H = (c₂, sk₂, rem₂, A₂, H₂, .ok ()) →
    pureFill c sk false K x A H = (c₂, sk₂, rem₂, A₂, H₂, .ok ()) := by
  induction c, sk, ens, K, x, A, H using pureFill.induct with
  | case1 c sk ens K x A H c' rem D E hrr =>
      intro hensT c₂ sk₂ rem₂ A₂ H₂ heq
      rw [pureFill, hrr] at heq
      simp only [] at heq
      rw [pureFill, hrr]
      simp only []
      exact heq
  | case2 c sk ens K x A H c' rem D E hrr =>
      intro hensT c₂ sk₂ rem₂ A₂ H₂ heq
      rw [pureFill, hrr] at heq
      simp only [] at heq
      rw [pureFill, hrr]
      simp only []
      exact heq
  | case3 c sk ens K x A H c' rem D E hrr fd' fe' A' e hcheck =>
      intro hensT c₂ sk₂ rem₂ A₂ H₂ heq
      rw [pureFill, hrr] at heq
      simp only [] at heq
      rw [hcheck] at heq
      simp only [] at heq
      simp at heq
  | case4 c ens K x A H c' rem D E hrr fd' fe' A' expected' hcheck popped hdrs re' prev ih =>
      intro hensT c₂ sk₂ rem₂ A₂ H₂ heq
      rw [pureFill, hrr] at heq
      simp only [] at heq
      rw [hcheck] at heq
      simp only [if_true] at heq
      have hrec := ih hensT c₂ sk₂ rem₂ A₂ H₂ heq
      rw [pureFill, hrr]
      simp only []
      have hchk2 : ∀ a b, checkColCount false K a b = Except.ok K := by
        intro a b
        simp [checkColCount]
      rw [hchk2]
      simp only [if_true]
      rw [pureFill_unchecked_K _ _ _ K _ _ _ rfl expected']
      exact hrec
  | case5 c sk ens K x A H c' rem D E hrr fd' fe' A' expected' hcheck hsk ih =>
      intro hensT c₂ sk₂ rem₂ A₂ H₂ heq
      rw [pureFill, hrr] at heq
      simp only [] at heq
      rw [hcheck] at heq
      simp only [] at heq
      rw [if_neg hsk] at heq
      have hrec := ih hensT c₂ sk₂ rem₂ A₂ H₂ heq
      rw [pureFill, hrr]
      simp only []
      have hchk2 : ∀ a b, checkColCount false K a b = Except.ok K := by
        intro a b
        simp [checkColCount]
      rw [hchk2]
      simp only []
      rw [if_neg hsk]
      rw [pureFill_unchecked_K _ _ _ K _ _ _ rfl expected']
      exact hrec

/-- What a passing column check tells us. -/
theorem checkColCount_ok_elim (K : Option Nat) (col row : Nat) (K' : Option Nat)
    (h : checkColCount true K col row = .ok K') :
    K' = some col ∧ (K = none ∨ K = some col) := by
  rcases K with _ | V
  · simp only [checkColCount, if_true] at h
    simp only [Except.ok.injEq] at h
    exact ⟨h.symm, Or.inl rfl⟩
  · simp only [checkColCount, if_true] at h
    by_cases hc : col = V
    · rw [if_neg (not_not_intro hc)] at h
      simp only [Except.ok.injEq] at h
      subst hc
      exact ⟨h.symm, Or.inr rfl⟩
    · rw [if_pos hc] at h
      simp at h

/-- How a column check evaluates when the observed width matches. -/
theorem checkColCount_ok_intro (K' : Option Nat) (W col row : Nat)
    (hadm : K' = none ∨ K' = some W) (hcol : col = W) :
    checkColCount true K' col row = .ok (some col) := by
  rcases hadm with h | h <;> subst h
  · simp [checkColCount]
  · subst hcol
    simp [checkColCount]

/-- A successful checked run has uniform record widths: every record it
completed matches the expected count (pre-established, or established by the
run's first completed row). -/
theorem pureFill_checked_widths (c : CoreReader) (sk ens : Bool) (K : Option Nat) (x : List Nat)
    (A : RawRecordArena) (H : Option Headers) :
    ens = true →
    ∀ c₂ sk₂ rem₂ A₂ H₂,
    pureFill c sk ens K x A H = (c₂, sk₂, rem₂, A₂, H₂, .ok ()) →
    ∃ W L, (K = none ∨ K = some W) ∧ A₂.record_ends = A.record_ends ++ L ∧
      (∀ w ∈ endsWidths A.lastRecordEnd.2 L, w = W) := by
  induction c, sk, ens, K, x, A, H using pureFill.induct with
  | case1 c sk ens K x A H c' rem D E hrr =>
      intro hensT c₂ sk₂ rem₂ A₂ H₂ heq
      rw [pureFill, hrr] at heq
      simp only [] at heq
      simp only [Prod.mk.injEq] at heq
      refine ⟨K.getD 0, [], ?_, ?_, by simp [endsWidths]⟩
      · rcases K with _ | v
        · exact Or.inl rfl
        · exact Or.inr rfl
      · rw [← heq.2.2.2.1]
        simp
  | case2 c sk ens K x A H c' rem D E hrr =>
      intro hensT c₂ sk₂ rem₂ A₂ H₂ heq
      rw [pureFill, hrr] at heq
      simp only [] at heq
      simp only [Prod.mk.injEq] at heq
      refine ⟨K.getD 0, [], ?_, ?_, by simp [endsWidths]⟩
      · rcases K with _ | v
        · exact Or.inl rfl
        · exact Or.inr rfl
      · rw [← heq.2.2.2.1]
        simp
  | case3 c sk ens K x A H c' rem D E hrr fd' fe' A' e hcheck =>
      intro hensT c₂ sk₂ rem₂ A₂ H₂ heq
      rw [pureFill, hrr] at heq
      simp only [] at heq
      rw [hcheck] at heq
      simp only [] at heq
      simp at heq
  | case4 c ens K x A H c' rem D E hrr fd' fe' A' expected' hcheck popped hdrs re' prev ih =>
      intro hensT c₂ sk₂ rem₂ A₂ H₂ heq
      subst hensT
      rw [pureFill, hrr] at heq
      simp only [] at heq
      rw [hcheck] at heq
      simp only [if_true] at heq
      obtain ⟨W', L', hadm', hre', huni'⟩ := ih rfl c₂ sk₂ rem₂ A₂ H₂ heq
      obtain ⟨hK', hadmK⟩ := checkColCount_ok_elim K _ _ _ hcheck
      have hre : re' = A.record_ends := by
        show (A.record_ends ++ [(fd'.length, fe'.length)]).dropLast = A.record_ends
        simp
      have hprev : prev = A.lastRecordEnd := by
        show re'.getLast?.getD (0, 0) = A.record_ends.getLast?.getD (0, 0)
        rw [hre]
      have hbase : RawRecordArena.lastRecordEnd
          (⟨List.take prev.1 A'.field_data, List.take prev.2 A'.field_ends, re'⟩ :
            RawRecordArena) = A.lastRecordEnd := by
        show re'.getLast?.getD (0, 0) = A.record_ends.getLast?.getD (0, 0)
        rw [hre]
      rcases hadmK with hN | hS
      · refine ⟨W', L', Or.inl hN, ?_, ?_⟩
        · rw [hre', hre]
        · rw [← hbase]
          exact huni'
      · have hWV : W' = fe'.length - A.lastRecordEnd.2 := by
          rcases hadm' with h | h
          · rw [hK'] at h
            simp at h
          · rw [hK'] at h
            simpa using h.symm
        refine ⟨fe'.length - A.lastRecordEnd.2, L', Or.inr hS, ?_, ?_⟩
        · rw [hre', hre]
        · rw [← hWV, ← hbase]
          exact huni'
  | case5 c sk ens K x A H c' rem D E hrr fd' fe' A' expected' hcheck hsk ih =>
      intro hensT c₂ sk₂ rem₂ A₂ H₂ heq
      subst hensT
      rw [pureFill, hrr] at heq
      simp only [] at heq
      rw [hcheck] at heq
      simp only [] at heq
      rw [if_neg hsk] at heq
      obtain ⟨W', L', hadm', hre', huni'⟩ := ih rfl c₂ sk₂ rem₂ A₂ H₂ heq
      obtain ⟨hK', hadmK⟩ := checkColCount_ok_elim K _ _ _ hcheck
      have hlastA' : RawRecordArena.lastRecordEnd A' = (fd'.length, fe'.length) := by
        show (A.record_ends ++ [(fd'.length, fe'.length)]).getLast?.getD (0, 0) = _
        simp
      have hW' : W' = fe'.length - A.lastRecordEnd.2 := by
        rcases hadm' with h | h
        · rw [hK'] at h
          simp at h
        · rw [hK'] at h
          simpa using h.symm
      refine ⟨fe'.length - A.lastRecordEnd.2, (fd'.length, fe'.length) :: L', hadmK, ?_, ?_⟩
      · rw [hre']
        show (A.record_ends ++ [(fd'.length, fe'.length)]) ++ L' = _
        rw [List.append_assoc]
        rfl
      · intro w hw
        rw [endsWidths] at hw
        rcases List.mem_cons.mp hw with h | h
        · rw [h]
        · have := huni' w (by rw [hlastA']; exact h)
          rw [this, hW']

/-- Conversely, enforcement can be switched on over an unchecked headerless
run whose record widths are uniformly `W`, for any admissible expectation:
every check passes and the outputs are unchanged. -/
theorem pureFill_intro_check (c : CoreReader) (sk ens : Bool) (K : Option Nat) (x : List Nat)
    (A : RawRecordArena) (H : Option Headers) :
    sk = false → ens = false →
    ∀ c₂ sk₂ rem₂ A₂ H₂ (W : Nat) (K' : Option Nat) (L : List (Nat × Nat)),
    pureFill c sk ens K x A H = (c₂, sk₂, rem₂, A₂, H₂, .ok ()) →
    (K' = none ∨ K' = some W) →
    A₂.record_ends = A.record_ends ++ L →
    (∀ w ∈ endsWidths A.lastRecordEnd.2 L, w = W) →
    pureFill c sk true K' x A H = (c₂, sk₂, rem₂, A₂, H₂, .ok ()) := by
  induction c, sk, ens, K, x, A, H using pureFill.induct with
  | case1 c sk ens K x A H c' rem D E hrr =>
      intro hskF hensF c₂ sk₂ rem₂ A₂ H₂ W K' L heq hadm hL huni
      rw [pureFill, hrr] at heq
      simp only [] at heq
      rw [pureFill, hrr]
      simp only []
      exact heq
  | case2 c sk ens K x A H c' rem D E hrr =>
      intro hskF hensF c₂ sk₂ rem₂ A₂ H₂ W K' L heq hadm hL huni
      rw [pureFill, hrr] at heq
      simp only [] at heq
      rw [pureFill, hrr]
      simp only []
      exact heq
  | case3 c sk ens K x A H c' rem D E hrr fd' fe' A' e hcheck =>
      intro hskF hensF c₂ sk₂ rem₂ A₂ H₂ W K' L heq hadm hL huni
      subst hensF
      simp [checkColCount] at hcheck
  | case4 c ens K x A H c' rem D E hrr fd' fe' A' expected' hcheck popped hdrs re' prev ih =>
      intro hskF hensF c₂ sk₂ rem₂ A₂ H₂ W K' L heq hadm hL huni
      simp at hskF
  | case5 c sk ens K x A H c' rem D E hrr fd' fe' A' expected' hcheck hsk ih =>
      intro hskF hensF c₂ sk₂ rem₂ A₂ H₂ W K' L heq hadm hL huni
      subst hensF
      rw [pureFill, hrr] at heq
      simp only [] at heq
      rw [hcheck] at heq
      simp only [] at heq
      rw [if_neg hsk] at heq
      obtain ⟨-, -, -, -, ⟨Dt, Et, L'', -, -, h3⟩, -⟩ :=
        pureFill_facts c' sk false expected' rem A' H hskF rfl c₂ sk₂ rem₂ A₂ H₂ _ heq
      have hre' : A₂.record_ends = A.record_ends ++ ((fd'.length, fe'.length) :: L'') := by
        rw [h3]
        show (A.record_ends ++ [(fd'.length, fe'.length)]) ++ L'' = _
        rw [List.append_assoc]
        rfl
      have hLL : L = (fd'.length, fe'.length) :: L'' := by
        have := hL.symm.trans hre'
        exact List.append_cancel_left this
      have hlastA' : RawRecordArena.lastRecordEnd A' = (fd'.length, fe'.length) := by
        show (A.record_ends ++ [(fd'.length, fe'.length)]).getLast?.getD (0, 0) = _
        simp
      have hwhead : fe'.length - A.lastRecordEnd.2 = W := by
        apply huni
        rw [hLL, endsWidths]
        exact List.mem_cons_self _ _
      have hwtail : ∀ w ∈ endsWidths (RawRecordArena.lastRecordEnd A').2 L'', w = W := by
        intro w hw
        apply huni
        rw [hLL, endsWidths]
        refine List.mem_cons_of_mem _ ?_
        rw [hlastA'] at hw
        exact hw
      have hrec := ih hskF rfl c₂ sk₂ rem₂ A₂ H₂ W (some W) L''
        heq (Or.inr rfl) h3 hwtail
      rw [pureFill, hrr]
      simp only []
      rw [checkColCount_ok_intro K' W (fe'.length - A.lastRecordEnd.2) _ hadm hwhead]
      simp only []
      rw [if_neg hsk]
      rw [hwhead]
      exact hrec

/-! ## The chunked streaming session

`chunkedRun` is the spec's streaming pattern: feed each chunk through
`fill_arena`, hand the drained arena's completed records to the consumer,
and carry the partial tail into a fresh destination arena with
`migrate_partial`. -/

def chunkedRun (r : Reader) (ao : ByteRecordArena) :
    List (List Nat) → Reader × ByteRecordArena × List (List (List Nat)) ×
      Except WrongColCount Unit
  | [] => (r, ao, [], .ok ())
  | x :: xs =>
      match r.fill_arena x ao with
      | (r', ao', .error e) => (r', ao', [], .error e)
      | (r', ao', .ok ()) =>
          match ByteRecordArena.migrate_partial ao' ByteRecordArena.new with
          | (drained, carry, _) =>
              match chunkedRun r' carry xs with
              | (r'', ao'', recs, res) =>
                  (r'', ao'', RawRecordArena.records drained.inner ++ recs, res)

theorem lastRecordEnd_le_of_dom (re : List (Nat × Nat)) (n m : Nat)
    (h : ∀ p ∈ re, p.1 ≤ n ∧ p.2 ≤ m) :
    (re.getLast?.getD (0, 0)).1 ≤ n ∧ (re.getLast?.getD (0, 0)).2 ≤ m := by
  rcases hg : re.getLast? with _ | z
  · simp
  · exact h z (List.mem_of_getLast?_eq_some hg)

/-- A nonempty chunk through the real `fill_arena`, on a carry arena (no
records, no headers), is the checked pure fill. -/
theorem fill_arena_chunk (cs : CoreReader) (fdl0 fel0 by0 rc0 : Nat) (x : List Nat)
    (tf te : List Nat) (sp : Option Position) (bi : Nat)
    (cm : CoreReader) (Ac : RawRecordArena)
    (hx : x ≠ [])
    (hrun : pureFill cs false true none x ⟨tf, te, []⟩ none =
      (cm, false, [], Ac, none, .ok ())) :
    ∃ by' rc' sp', Reader.fill_arena ⟨cs, fdl0, fel0, false, true, by0, rc0⟩ x
      ⟨⟨tf, te, []⟩, sp, none, bi⟩ =
      (⟨cm, 0, 0, false, true, by', rc'⟩, ⟨Ac, sp', none, bi⟩, .ok ()) := by
  rw [fill_arena_eq_pure _ _ _ (by simp [RawRecordArena.lastRecordEnd])
    (by simp [RawRecordArena.lastRecordEnd])]
  rw [pureFillArena]
  simp only [if_neg hx, ByteRecordArena.headers, Option.map_none']
  split_ifs <;>
    first
      | (rw [hrun]; exact ⟨_, _, _, rfl⟩)
      | (simp only []; rw [hrun]; exact ⟨_, _, _, rfl⟩)

/-- Migrating a header-less arena into a fresh one, componentwise. -/
theorem migrate_into_fresh (inner : RawRecordArena) (sp' : Option Position) (bi : Nat) :
    ByteRecordArena.migrate_partial ⟨inner, sp', none, bi⟩ ByteRecordArena.new =
      (⟨⟨inner.field_data.take inner.lastRecordEnd.1,
          inner.field_ends.take inner.lastRecordEnd.2, inner.record_ends⟩, sp', none, bi⟩,
        ⟨⟨inner.field_data.drop inner.lastRecordEnd.1,
          inner.field_ends.drop inner.lastRecordEnd.2, []⟩, none, none, 0⟩,
        ((inner.field_data.drop inner.lastRecordEnd.1).length,
          (inner.field_ends.drop inner.lastRecordEnd.2).length)) := rfl

theorem shift_last (pr re : List (Nat × Nat)) (P Q : Nat)
    (hlast : pr.getLast?.getD (0, 0) = (P, Q)) :
    (pr ++ re.map (shiftEnd P Q)).getLast?.getD (0, 0) =
      (P + (re.getLast?.getD (0, 0)).1, Q + (re.getLast?.getD (0, 0)).2) := by
  rcases hre : re.getLast? with _ | z
  · have hnil : re = [] := List.getLast?_eq_none_iff.mp hre
    subst hnil
    rw [List.map_nil, List.append_nil, hlast]
    simp
  · rw [List.getLast?_append, List.getLast?_map, hre]
    simp [shiftEnd]

/-- The streaming simulation: a chunked session (checked fills, partial tails
migrated into fresh arenas) drains, chunk by chunk, exactly the records the
remaining one-shot run would produce past the already-completed prefix. -/
theorem chunkedRun_sim (chunks : List (List Nat)) :
    ∀ (cs : CoreReader) (fdl0 fel0 by0 rc0 : Nat) (tf te pf pe : List Nat)
      (pr : List (Nat × Nat)) (sp : Option Position) (bi : Nat) (W : Nat)
      (c₂ : CoreReader) (A₂ : RawRecordArena),
    pr.getLast?.getD (0, 0) = (pf.length, pe.length) →
    (∀ p ∈ pr, p.1 ≤ pf.length ∧ p.2 ≤ pe.length) →
    (chunks.join ≠ [] →
      pureFill cs false false none chunks.join ⟨pf ++ tf, pe ++ te, pr⟩ none =
        (c₂, false, [], A₂, none, .ok ())) →
    (chunks.join = [] → c₂ = cs ∧ A₂ = ⟨pf ++ tf, pe ++ te, pr⟩) →
    (∀ w ∈ endsWidths 0 A₂.record_ends, w = W) →
    ∃ r'' ao'' recs,
      chunkedRun ⟨cs, fdl0, fel0, false, true, by0, rc0⟩
          ⟨⟨tf, te, []⟩, sp, none, bi⟩ chunks = (r'', ao'', recs, .ok ()) ∧
      RawRecordArena.records ⟨pf, pe, pr⟩ ++ recs = RawRecordArena.records A₂ := by
  induction chunks with
  | nil =>
      intro cs fdl0 fel0 by0 rc0 tf te pf pe pr sp bi W c₂ A₂ hlast hdom hjoin hjoinE huni
      obtain ⟨-, hA2⟩ := hjoinE rfl
      refine ⟨_, _, [], rfl, ?_⟩
      rw [hA2, List.append_nil]
      simp only [RawRecordArena.records]
      rw [recordViews_ext pf pe tf te pr 0 0 hdom]
  | cons x xs ih =>
      intro cs fdl0 fel0 by0 rc0 tf te pf pe pr sp bi W c₂ A₂ hlast hdom hjoin hjoinE huni
      by_cases hx : x = []
      · subst hx
        have hfill : Reader.fill_arena ⟨cs, fdl0, fel0, false, true, by0, rc0⟩ []
            ⟨⟨tf, te, []⟩, sp, none, bi⟩ =
            (⟨cs, fdl0, fel0, false, true, by0, rc0⟩, ⟨⟨tf, te, []⟩, sp, none, bi⟩,
              .ok ()) := by
          rw [Reader.fill_arena]
          simp
        have hjoin' : ([] :: xs).join = xs.join := by simp
        obtain ⟨r'', ao'', recs, hrun, hacc⟩ :=
          ih cs fdl0 fel0 by0 rc0 tf te pf pe pr none 0 W c₂ A₂ hlast hdom
            (fun h => hjoin (hjoin' ▸ h)) (fun h => hjoinE (hjoin' ▸ h)) huni
        refine ⟨r'', ao'', RawRecordArena.records ⟨[], [], []⟩ ++ recs, ?_, ?_⟩
        · rw [chunkedRun, hfill]
          simp only []
          rw [migrate_into_fresh ⟨tf, te, []⟩ sp bi]
          simp only []
          have hl0 : RawRecordArena.lastRecordEnd (⟨tf, te, []⟩ : RawRecordArena) = (0, 0) :=
            rfl
          rw [hl0]
          simp only [List.take_zero, List.drop_zero]
          rw [hrun]
        · show RawRecordArena.records ⟨pf, pe, pr⟩ ++
            (RawRecordArena.records ⟨[], [], []⟩ ++ recs) = _
          rw [show RawRecordArena.records ⟨[], [], []⟩ = [] from rfl, List.nil_append]
          exact hacc
      · -- the chunk's unchecked pure run on the carry arena
        rcases hchunk : pureFill cs false false none x ⟨tf, te, []⟩ none with
          ⟨cm, skm, remm, Ac, Hm, resm⟩
        obtain ⟨hskm, hHm, hremm, hresm, ⟨Dts, Ets, LAc, hfd1, hfe1, hre1⟩, hinvs⟩ :=
          pureFill_facts cs false false none x ⟨tf, te, []⟩ none rfl rfl
            cm skm remm Ac Hm resm hchunk
        subst hskm; subst hHm; subst hremm; subst hresm
        simp only [List.nil_append] at hre1
        obtain ⟨hdomB, hdomL'⟩ := hinvs (by simp)
        have hdomL := hdomL' (by simp)
        have hbnd : Ac.lastRecordEnd.1 ≤ Ac.field_data.length ∧
            Ac.lastRecordEnd.2 ≤ Ac.field_ends.length :=
          lastRecordEnd_le_of_dom Ac.record_ends Ac.field_data.length
            Ac.field_ends.length hdomB
        -- embed the chunk run into the one-shot arena
        have hembed := pureFill_shift cs false false none x ⟨tf, te, []⟩ none rfl rfl
          pf pe pr cm false [] Ac none (.ok ()) hlast hchunk
        simp only [List.map_nil, List.append_nil] at hembed
        -- the advanced prefix
        have hsplitf : pf ++ Ac.field_data =
            (pf ++ Ac.field_data.take Ac.lastRecordEnd.1) ++
              Ac.field_data.drop Ac.lastRecordEnd.1 := by
          rw [List.append_assoc, List.take_append_drop]
        have hsplite : pe ++ Ac.field_ends =
            (pe ++ Ac.field_ends.take Ac.lastRecordEnd.2) ++
              Ac.field_ends.drop Ac.lastRecordEnd.2 := by
          rw [List.append_assoc, List.take_append_drop]
        have hlenf : (pf ++ Ac.field_data.take Ac.lastRecordEnd.1).length =
            pf.length + Ac.lastRecordEnd.1 := by
          simp only [List.length_append, List.length_take]
          omega
        have hlene : (pe ++ Ac.field_ends.take Ac.lastRecordEnd.2).length =
            pe.length + Ac.lastRecordEnd.2 := by
          simp only [List.length_append, List.length_take]
          omega
        have hlast' : (pr ++ Ac.record_ends.map (shiftEnd pf.length pe.length)).getLast?.getD
            (0, 0) =
            ((pf ++ Ac.field_data.take Ac.lastRecordEnd.1).length,
              (pe ++ Ac.field_ends.take Ac.lastRecordEnd.2).length) := by
          rw [shift_last pr Ac.record_ends pf.length pe.length hlast, hlenf, hlene]
          rfl
        have hdom' : ∀ p ∈ pr ++ Ac.record_ends.map (shiftEnd pf.length pe.length),
            p.1 ≤ (pf ++ Ac.field_data.take Ac.lastRecordEnd.1).length ∧
            p.2 ≤ (pe ++ Ac.field_ends.take Ac.lastRecordEnd.2).length := by
          intro p hp
          rw [hlenf, hlene]
          rcases List.mem_append.mp hp with hp1 | hp2
          · have := hdom p hp1
            omega
          · obtain ⟨q, hq, hpq⟩ := List.mem_map.mp hp2
            have := hdomL q hq
            subst hpq
            simp only [shiftEnd]
            omega
        -- connect to the one-shot run
        have hOSfull := hjoin (by simp [hx])
        rw [show (x :: xs).join = x ++ xs.join from rfl] at hOSfull
        -- per-case continuation facts
        have hsh : endsWidths ((pf.length, pe.length) : Nat × Nat).2
            (Ac.record_ends.map (shiftEnd pf.length pe.length)) =
            endsWidths 0 Ac.record_ends := by
          have h0 := endsWidths_shift Ac.record_ends pf.length pe.length 0
          simpa using h0
        by_cases hrest : xs.join = []
        · -- last effective chunk: the one-shot IS the chunk run
          rw [hrest, List.append_nil] at hOSfull
          rw [hembed] at hOSfull
          simp only [Prod.mk.injEq] at hOSfull
          obtain ⟨hc2, -, -, hA2, -, -⟩ := hOSfull
          have hchunk_w : ∀ w ∈ endsWidths 0 Ac.record_ends, w = W := by
            intro w hw
            apply huni
            rw [← hA2]
            show w ∈ endsWidths 0 (pr ++ Ac.record_ends.map (shiftEnd pf.length pe.length))
            rw [endsWidths_append, hlast]
            refine List.mem_append.mpr (Or.inr ?_)
            rw [hsh]
            exact hw
          have hchecked := pureFill_intro_check cs false false none x ⟨tf, te, []⟩ none
            rfl rfl cm false [] Ac none W none Ac.record_ends hchunk (Or.inl rfl)
            (by simp) (by
              show ∀ w ∈ endsWidths
                (RawRecordArena.lastRecordEnd ⟨tf, te, []⟩).2 Ac.record_ends, w = W
              exact hchunk_w)
          obtain ⟨by', rc', sp', hfill⟩ := fill_arena_chunk cs fdl0 fel0 by0 rc0 x tf te
            sp bi cm Ac hx hchecked
          obtain ⟨r'', ao'', recs, hrun, hacc⟩ :=
            ih cm 0 0 by' rc'
              (Ac.field_data.drop Ac.lastRecordEnd.1)
              (Ac.field_ends.drop Ac.lastRecordEnd.2)
              (pf ++ Ac.field_data.take Ac.lastRecordEnd.1)
              (pe ++ Ac.field_ends.take Ac.lastRecordEnd.2)
              (pr ++ Ac.record_ends.map (shiftEnd pf.length pe.length))
              none 0 W c₂ A₂ hlast' hdom'
              (fun h => absurd hrest h)
              (fun _ => ⟨hc2.symm, by rw [← hA2, hsplitf, hsplite]⟩) huni
          refine ⟨r'', ao'',
            RawRecordArena.records ⟨Ac.field_data.take Ac.lastRecordEnd.1,
              Ac.field_ends.take Ac.lastRecordEnd.2, Ac.record_ends⟩ ++ recs, ?_, ?_⟩
          · rw [chunkedRun, hfill]
            simp only []
            rw [migrate_into_fresh Ac sp' bi]
            simp only []
            rw [hrun]
          · rw [← List.append_assoc,
              ← records_embed pf pe pr (Ac.field_data.take Ac.lastRecordEnd.1)
                (Ac.field_ends.take Ac.lastRecordEnd.2) Ac.record_ends hdom hlast]
            exact hacc
        · -- middle chunk: compose, then recurse
          have happ := pureFill_append cs false false none x
            ⟨pf ++ tf, pe ++ te, pr⟩ none rfl xs.join cm false
            ⟨pf ++ Ac.field_data, pe ++ Ac.field_ends,
              pr ++ Ac.record_ends.map (shiftEnd pf.length pe.length)⟩ none
            hembed (fun hxe => absurd hxe hx) hrest
          rw [happ] at hOSfull
          obtain ⟨-, -, -, -, ⟨Dr, Er, Lrest, -, -, hreR⟩, -⟩ :=
            pureFill_facts cm false false none xs.join
              ⟨pf ++ Ac.field_data, pe ++ Ac.field_ends,
                pr ++ Ac.record_ends.map (shiftEnd pf.length pe.length)⟩ none rfl rfl
              c₂ false [] A₂ none (.ok ()) hOSfull
          have hchunk_w : ∀ w ∈ endsWidths 0 Ac.record_ends, w = W := by
            intro w hw
            apply huni
            rw [hreR]
            show w ∈ endsWidths 0
              ((pr ++ Ac.record_ends.map (shiftEnd pf.length pe.length)) ++ Lrest)
            rw [List.append_assoc, endsWidths_append, hlast]
            refine List.mem_append.mpr (Or.inr ?_)
            rw [endsWidths_append]
            refine List.mem_append.mpr (Or.inl ?_)
            rw [hsh]
            exact hw
          have hchecked := pureFill_intro_check cs false false none x ⟨tf, te, []⟩ none
            rfl rfl cm false [] Ac none W none Ac.record_ends hchunk (Or.inl rfl)
            (by simp) (by
              show ∀ w ∈ endsWidths
                (RawRecordArena.lastRecordEnd ⟨tf, te, []⟩).2 Ac.record_ends, w = W
              exact hchunk_w)
          obtain ⟨by', rc', sp', hfill⟩ := fill_arena_chunk cs fdl0 fel0 by0 rc0 x tf te
            sp bi cm Ac hx hchecked
          rw [hsplitf, hsplite] at hOSfull
          obtain ⟨r'', ao'', recs, hrun, hacc⟩ :=
            ih cm 0 0 by' rc'
              (Ac.field_data.drop Ac.lastRecordEnd.1)
              (Ac.field_ends.drop Ac.lastRecordEnd.2)
              (pf ++ Ac.field_data.take Ac.lastRecordEnd.1)
              (pe ++ Ac.field_ends.take Ac.lastRecordEnd.2)
              (pr ++ Ac.record_ends.map (shiftEnd pf.length pe.length))
              none 0 W c₂ A₂ hlast' hdom'
              (fun _ => hOSfull)
              (fun h => absurd h hrest) huni
          refine ⟨r'', ao'',
            RawRecordArena.records ⟨Ac.field_data.take Ac.lastRecordEnd.1,
              Ac.field_ends.take Ac.lastRecordEnd.2, Ac.record_ends⟩ ++ recs, ?_, ?_⟩
          · rw [chunkedRun, hfill]
            simp only []
            rw [migrate_into_fresh Ac sp' bi]
            simp only []
            rw [hrun]
          · rw [← List.append_assoc,
              ← records_embed pf pe pr (Ac.field_data.take Ac.lastRecordEnd.1)
                (Ac.field_ends.take Ac.lastRecordEnd.2) Ac.record_ends hdom hlast]
            exact hacc

/-- **C1** — Chunk-boundary invariance.  For every headerless session and
every way of splitting a byte stream into chunks, feeding the chunks one by
one through `fill_arena` — with `migrate_partial` carrying the partial tail
into a fresh destination arena between chunks — succeeds and yields, across
all drained arenas, exactly the records of feeding the whole stream to
`fill_arena` in one call: the same total record count and the same per-field
byte contents.  The hypothesis that the one-shot fill returns `Ok` is the
claim's "byte stream that serializes a set of records": such a stream has
uniform column counts, and on it every chunked column check passes too
(without it the two runs can genuinely diverge, because a fresh arena resets
the expected-column baseline). -/
theorem chunk_boundary_invariance (chunks : List (List Nat)) (delim : Nat)
    (r₁ : Reader) (ao₁ : ByteRecordArena)
    (hone : (Reader.new false delim).fill_arena chunks.join ByteRecordArena.new =
      (r₁, ao₁, .ok ())) :
    ∃ rc aoc recs,
      chunkedRun (Reader.new false delim) ByteRecordArena.new chunks =
        (rc, aoc, recs, .ok ()) ∧
      recs = RawRecordArena.records ao₁.inner ∧
      recs.length = ao₁.record_count := by
  by_cases hj : chunks.join = []
  · rw [hj, Reader.fill_arena] at hone
    simp only [if_pos rfl, Prod.mk.injEq] at hone
    obtain ⟨-, rfl, -⟩ := hone
    obtain ⟨r'', ao'', recs, hrun, hacc⟩ :=
      chunkedRun_sim chunks (CoreReader.new delim) 0 0 0 0 [] [] [] [] [] none 0 0
        (CoreReader.new delim) ⟨[], [], []⟩ rfl (by simp)
        (fun h => absurd hj h) (fun _ => ⟨rfl, rfl⟩)
        (by intro w hw; simp [endsWidths] at hw)
    have hrecs : recs = [] := by
      have : RawRecordArena.records ⟨[], [], []⟩ ++ recs =
          RawRecordArena.records ⟨[], [], []⟩ := hacc
      simpa [RawRecordArena.records, RawRecordArena.recordViews] using this
    refine ⟨r'', ao'', recs, ?_, ?_, ?_⟩
    · exact hrun
    · rw [hrecs]
      rfl
    · rw [hrecs]
      rfl
  · have hfe := fill_arena_eq_pure (Reader.new false delim) chunks.join ByteRecordArena.new
      (by decide) (by decide)
    rw [hfe, pureFillArena] at hone
    simp only [if_neg hj] at hone
    rcases hp : pureFill (CoreReader.new delim) false true none chunks.join
        ⟨[], [], []⟩ none with ⟨c₂, sk₂, rem₂, A₂, H₂, res₂⟩
    rw [show (pureFill (Reader.new false delim).inner (Reader.new false delim).skip_header
        (Reader.new false delim).ensure_col_count
        (Option.map Headers.len (ByteRecordArena.headers ByteRecordArena.new)) chunks.join
        (if ByteRecordArena.new.start_pos = none then
          { ByteRecordArena.new with start_pos := some ⟨(Reader.new false delim).bytes_read,
              (Reader.new false delim).inner.line, (Reader.new false delim).records_read⟩ }
          else ByteRecordArena.new).inner
        (if ByteRecordArena.new.start_pos = none then
          { ByteRecordArena.new with start_pos := some ⟨(Reader.new false delim).bytes_read,
              (Reader.new false delim).inner.line, (Reader.new false delim).records_read⟩ }
          else ByteRecordArena.new).headers_inner) =
        pureFill (CoreReader.new delim) false true none chunks.join ⟨[], [], []⟩ none
      from rfl, hp] at hone
    simp only [] at hone
    simp only [Prod.mk.injEq] at hone
    obtain ⟨hr1, hao1, hres⟩ := hone
    subst hres
    have hchecked : pureFill (CoreReader.new delim) false true none chunks.join
        ⟨[], [], []⟩ none = (c₂, sk₂, rem₂, A₂, H₂, .ok ()) := hp
    have huncheck := pureFill_checked_to_unchecked (CoreReader.new delim) false true none
      chunks.join ⟨[], [], []⟩ none rfl c₂ sk₂ rem₂ A₂ H₂ hchecked
    obtain ⟨hsk2, hH2, hrem2, -, -, -⟩ :=
      pureFill_facts (CoreReader.new delim) false false none chunks.join ⟨[], [], []⟩ none
        rfl rfl c₂ sk₂ rem₂ A₂ H₂ _ huncheck
    subst hsk2; subst hH2; subst hrem2
    obtain ⟨W, L, -, hLre, hWuni⟩ :=
      pureFill_checked_widths (CoreReader.new delim) false true none chunks.join
        ⟨[], [], []⟩ none rfl c₂ false [] A₂ none hchecked
    have huni : ∀ w ∈ endsWidths 0 A₂.record_ends, w = W := by
      intro w hw
      apply hWuni
      rw [show A₂.record_ends = L from by simpa using hLre] at hw
      exact hw
    obtain ⟨r'', ao'', recs, hrun, hacc⟩ :=
      chunkedRun_sim chunks (CoreReader.new delim) 0 0 0 0 [] [] [] [] [] none 0 W c₂ A₂
        rfl (by simp) (fun _ => huncheck) (fun h => absurd h hj) huni
    have hrecs : recs = RawRecordArena.records A₂ := by
      have := hacc
      simpa [RawRecordArena.records, RawRecordArena.recordViews] using this
    refine ⟨r'', ao'', recs, hrun, ?_, ?_⟩
    · rw [hrecs, ← hao1]
    · rw [hrecs, ← hao1]
      show (RawRecordArena.records A₂).length = A₂.record_ends.length
      exact records_length A₂

/-- Witness for `chunk_boundary_invariance`: the stream `a,b\nc` split as
`a,` / `b\nc` (the cut falls inside the record and right after the delimiter),
drained through the chunked session, yields exactly the one-shot records. -/
theorem chunk_boundary_invariance_witness :
    ∃ rc aoc recs,
      chunkedRun (Reader.new false 44) ByteRecordArena.new [[97, 44], [98, 10, 99]] =
        (rc, aoc, recs, .ok ()) ∧
      recs = RawRecordArena.records
        (ByteRecordArena.mk ⟨[97, 98, 99], [1, 2], [(2, 2)]⟩ (some ⟨0, 1, 0⟩) none 0).inner ∧
      recs.length = ByteRecordArena.record_count
        (ByteRecordArena.mk ⟨[97, 98, 99], [1, 2], [(2, 2)]⟩ (some ⟨0, 1, 0⟩) none 0) :=
  chunk_boundary_invariance [[97, 44], [98, 10, 99]] 44
    ⟨⟨44, .inField, 1, 2⟩, 0, 0, false, true, 5, 1⟩
    (ByteRecordArena.mk ⟨[97, 98, 99], [1, 2], [(2, 2)]⟩ (some ⟨0, 1, 0⟩) none 0)
    (by
      have hb := fill_arena_eq_pure (Reader.new false 44) [[97, 44], [98, 10, 99]].join
        ByteRecordArena.new (by decide) (by decide)
      rw [hb]
      simp [pureFillArena, pureFill, pureTokRR, pureTokGo, coreStep, checkColCount,
        CoreReader.new, Reader.new, ByteRecordArena.new, RawRecordArena.new, quoteByte,
        lfByte, ByteRecordArena.headers, RawRecordArena.lastRecordEnd, Headers.len])

/-! ## Column-count error characterization (`fill_arena`'s failure path) -/

/-- What a failing column check tells us: enforcement was on, an expectation
was established, and the error carries the observed/expected counts (which
differ) and the row number it was checked at. -/
theorem checkColCount_error_elim (ens : Bool) (K : Option Nat) (col row : Nat)
    (e : WrongColCount) (h : checkColCount ens K col row = .error e) :
    ens = true ∧ K = some e.expected_col_count ∧ col = e.col_count ∧
      row = e.row_num ∧ e.col_count ≠ e.expected_col_count := by
  cases ens with
  | false => simp [checkColCount] at h
  | true =>
      rcases K with _ | V
      · simp [checkColCount] at h
      · simp only [checkColCount, if_true] at h
        by_cases hc : col = V
        · rw [if_neg (not_not_intro hc)] at h
          simp at h
        · rw [if_pos hc] at h
          simp only [Except.error.injEq] at h
          subst h
          exact ⟨rfl, rfl, rfl, rfl, hc⟩

theorem endsWidths_length (l : List (Nat × Nat)) :
    ∀ q, (endsWidths q l).length = l.length := by
  induction l with
  | nil => intro q; rfl
  | cons x t ih =>
      intro q
      rcases x with ⟨d, e⟩
      rw [endsWidths]
      simp [ih e]

theorem getElem?_append_cons_eq (l₁ : List Nat) (a : Nat) (t : List Nat) (n : Nat)
    (h : l₁.length = n) : (l₁ ++ a :: t)[n]? = some a := by
  subst h
  induction l₁ with
  | nil => simp
  | cons x u ih => simpa using ih

theorem recordViews_length (fd fe : List Nat) (pd q : Nat) (re : List (Nat × Nat)) :
    (RawRecordArena.recordViews fd fe pd q re).length = re.length := by
  induction re generalizing pd q with
  | nil => rfl
  | cons x t ih =>
      rcases x with ⟨d, e⟩
      rw [RawRecordArena.recordViews]
      simp [ih d e]

/-- Record views only read the buffers below the given bounds, so buffers that
agree up to those bounds give the same views. -/
theorem recordViews_take_congr (fd₁ fe₁ fd₂ fe₂ : List Nat) (KD KE : Nat)
    (re : List (Nat × Nat)) (hdom : ∀ p ∈ re, p.1 ≤ KD ∧ p.2 ≤ KE)
    (hfd : fd₁.take KD = fd₂.take KD) (hfe : fe₁.take KE = fe₂.take KE) :
    ∀ pd q, RawRecordArena.recordViews fd₁ fe₁ pd q re =
      RawRecordArena.recordViews fd₂ fe₂ pd q re := by
  induction re with
  | nil => intro pd q; rfl
  | cons x t ih =>
      intro pd q
      rcases x with ⟨d, e⟩
      have hx := hdom (d, e) (List.mem_cons_self _ _)
      have h1 : fd₁.take d = fd₂.take d := by
        have h := congrArg (fun l => List.take d l) hfd
        simp only [List.take_take, Nat.min_eq_left hx.1] at h
        exact h
      have h2 : fe₁.take e = fe₂.take e := by
        have h := congrArg (fun l => List.take e l) hfe
        simp only [List.take_take, Nat.min_eq_left hx.2] at h
        exact h
      rw [RawRecordArena.recordViews, RawRecordArena.recordViews, h1, h2,
        ih (fun p hp => hdom p (List.mem_cons_of_mem _ hp)) d e]

/-- Everything a failing `pureFill` run guarantees: enforcement was on, at
least one record was appended, the error's row number is the (0-based) index
of the last appended record, its observed count is that record's width, the
expectation came from `K` when `K` was set (else, headerless and unskipped,
from the run's first completed record), and the bytes of the previously
completed records are untouched. -/
theorem pureFill_error_spec (c : CoreReader) (sk ens : Bool) (K : Option Nat) (x : List Nat)
    (A : RawRecordArena) (H : Option Headers) :
    A.lastRecordEnd.1 ≤ A.field_data.length → A.lastRecordEnd.2 ≤ A.field_ends.length →
    ∀ c₂ sk₂ rem₂ A₂ H₂ eo,
    pureFill c sk ens K x A H = (c₂, sk₂, rem₂, A₂, H₂, .error eo) →
    ens = true ∧
    (∃ L, L ≠ [] ∧ A₂.record_ends = A.record_ends ++ L) ∧
    eo.row_num = A₂.record_ends.length - 1 ∧
    (endsWidths 0 A₂.record_ends).getLast? = some eo.col_count ∧
    eo.col_count ≠ eo.expected_col_count ∧
    (∀ V, K = some V → eo.expected_col_count = V) ∧
    (K = none → sk = false →
      (endsWidths 0 A₂.record_ends)[A.record_ends.length]? = some eo.expected_col_count) ∧
    (sk = false → H₂ = H) ∧
    (K = none → sk = true → ∃ h, H₂ = some h ∧
      eo.expected_col_count = Headers.len h - A.lastRecordEnd.2) ∧
    A₂.field_data.take A.lastRecordEnd.1 = A.field_data.take A.lastRecordEnd.1 ∧
    A₂.field_ends.take A.lastRecordEnd.2 = A.field_ends.take A.lastRecordEnd.2 ∧
    A.lastRecordEnd.1 ≤ A₂.field_data.length ∧
    A.lastRecordEnd.2 ≤ A₂.field_ends.length := by
  induction c, sk, ens, K, x, A, H using pureFill.induct with
  | case1 c sk ens K x A H c' rem D E hrr =>
      intro hbD hbE c₂ sk₂ rem₂ A₂ H₂ eo heq
      rw [pureFill, hrr] at heq
      simp only [] at heq
      simp at heq
  | case2 c sk ens K x A H c' rem D E hrr =>
      intro hbD hbE c₂ sk₂ rem₂ A₂ H₂ eo heq
      rw [pureFill, hrr] at heq
      simp only [] at heq
      simp at heq
  | case3 c sk ens K x A H c' rem D E hrr fd' fe' A' e hcheck =>
      intro hbD hbE c₂ sk₂ rem₂ A₂ H₂ eo heq
      rw [pureFill, hrr] at heq
      simp only [] at heq
      rw [hcheck] at heq
      simp only [] at heq
      simp only [Prod.mk.injEq, Except.error.injEq] at heq
      obtain ⟨h1, h2, h3, h4, h5, h6⟩ := heq
      subst h6
      subst h4
      obtain ⟨hens, hKsome, hcol, hrow, hne⟩ := checkColCount_error_elim ens K _ _ e hcheck
      refine ⟨hens, ⟨[((A.field_data ++ D).length, (A.field_ends ++ E).length)],
        List.cons_ne_nil _ _, ?_⟩, hrow.symm, ?_, hne, ?_, ?_, fun _ => h5.symm, ?_,
        ?_, ?_, ?_, ?_⟩
      · rfl
      · show (endsWidths 0 (A.record_ends ++
          [((A.field_data ++ D).length, (A.field_ends ++ E).length)])).getLast? =
          some e.col_count
        rw [endsWidths_append]
        simp only [endsWidths]
        rw [List.getLast?_concat]
        rw [← hcol]
        rfl
      · intro V hKV
        rw [hKV] at hKsome
        simp only [Option.some.injEq] at hKsome
        exact hKsome.symm
      · intro hK0 hsk0
        rw [hK0] at hKsome
        simp at hKsome
      · intro hK0 hsk1
        rw [hK0] at hKsome
        simp at hKsome
      · show (A.field_data ++ D).take A.lastRecordEnd.1 = _
        exact List.take_append_of_le_length hbD
      · show (A.field_ends ++ E).take A.lastRecordEnd.2 = _
        exact List.take_append_of_le_length hbE
      · show A.lastRecordEnd.1 ≤ (A.field_data ++ D).length
        simp only [List.length_append]
        omega
      · show A.lastRecordEnd.2 ≤ (A.field_ends ++ E).length
        simp only [List.length_append]
        omega
  | case4 c ens K x A H c' rem D E hrr fd' fe' A' expected' hcheck popped hdrs re' prev ih =>
      intro hbD hbE c₂ sk₂ rem₂ A₂ H₂ eo heq
      rw [pureFill, hrr] at heq
      simp only [] at heq
      rw [hcheck] at heq
      simp only [if_true] at heq
      have hre' : re' = A.record_ends := by
        show (A.record_ends ++
          [((A.field_data ++ D).length, (A.field_ends ++ E).length)]).dropLast =
          A.record_ends
        simp
      have hprev : prev = A.lastRecordEnd := by
        show re'.getLast?.getD (0, 0) = A.lastRecordEnd
        rw [hre']
        rfl
      have hsc1 : (⟨A'.field_data.take prev.1, A'.field_ends.take prev.2, re'⟩ :
          RawRecordArena).lastRecordEnd.1 ≤
          (⟨A'.field_data.take prev.1, A'.field_ends.take prev.2, re'⟩ :
          RawRecordArena).field_data.length := by
        show (re'.getLast?.getD (0, 0)).1 ≤ (A'.field_data.take prev.1).length
        rw [hre', hprev]
        show A.lastRecordEnd.1 ≤ ((A.field_data ++ D).take A.lastRecordEnd.1).length
        simp only [List.length_take, List.length_append]
        omega
      have hsc2 : (⟨A'.field_data.take prev.1, A'.field_ends.take prev.2, re'⟩ :
          RawRecordArena).lastRecordEnd.2 ≤
          (⟨A'.field_data.take prev.1, A'.field_ends.take prev.2, re'⟩ :
          RawRecordArena).field_ends.length := by
        show (re'.getLast?.getD (0, 0)).2 ≤ (A'.field_ends.take prev.2).length
        rw [hre', hprev]
        show A.lastRecordEnd.2 ≤ ((A.field_ends ++ E).take A.lastRecordEnd.2).length
        simp only [List.length_take, List.length_append]
        omega
      obtain ⟨i1, i2, i3, i4, i5, i6, i7, iH, iS, i8, i9, i10, i11⟩ :=
        ih hsc1 hsc2 c₂ sk₂ rem₂ A₂ H₂ eo heq
      subst i1
      obtain ⟨hE1, hE2⟩ := checkColCount_ok_elim K _ _ expected' hcheck
      obtain ⟨L', hL'ne, hL're⟩ := i2
      have hre2 : A₂.record_ends = re' ++ L' := hL're
      rw [hre'] at hre2
      refine ⟨rfl, ⟨L', hL'ne, hre2⟩, i3, i4, i5, ?_, ?_, ?_, ?_, ?_, ?_, ?_, ?_⟩
      · intro V hKV
        rcases hE2 with hn | hs
        · rw [hKV] at hn
          simp at hn
        · rw [hKV] at hs
          simp only [Option.some.injEq] at hs
          rw [hs]
          exact i6 _ hE1
      · intro hK0 hsk0
        simp at hsk0
      · intro hskF
        simp at hskF
      · intro hK0 hsk1
        refine ⟨hdrs, iH rfl, ?_⟩
        have hpop : popped = ((A.field_data ++ D).length, (A.field_ends ++ E).length) := by
          show (A.record_ends ++
            [((A.field_data ++ D).length,
              (A.field_ends ++ E).length)]).getLast?.getD (0, 0) = _
          simp
        have hlen : Headers.len hdrs = (A.field_ends ++ E).length := by
          show (A'.field_ends.take popped.2).length = _
          rw [hpop]
          show ((A.field_ends ++ E).take (A.field_ends ++ E).length).length = _
          simp
        have hexp : eo.expected_col_count =
            (A.field_ends ++ E).length - A.lastRecordEnd.2 := i6 _ hE1
        rw [hlen]
        exact hexp
      · have i8' : A₂.field_data.take prev.1 =
            (A'.field_data.take prev.1).take prev.1 := i8
        rw [hprev] at i8'
        rw [i8', List.take_take, Nat.min_self]
        show (A.field_data ++ D).take A.lastRecordEnd.1 = _
        exact List.take_append_of_le_length hbD
      · have i9' : A₂.field_ends.take prev.2 =
            (A'.field_ends.take prev.2).take prev.2 := i9
        rw [hprev] at i9'
        rw [i9', List.take_take, Nat.min_self]
        show (A.field_ends ++ E).take A.lastRecordEnd.2 = _
        exact List.take_append_of_le_length hbE
      · have i10' : prev.1 ≤ A₂.field_data.length := i10
        rw [hprev] at i10'
        exact i10'
      · have i11' : prev.2 ≤ A₂.field_ends.length := i11
        rw [hprev] at i11'
        exact i11'
  | case5 c sk ens K x A H c' rem D E hrr fd' fe' A' expected' hcheck hsk ih =>
      intro hbD hbE c₂ sk₂ rem₂ A₂ H₂ eo heq
      rw [pureFill, hrr] at heq
      simp only [] at heq
      rw [hcheck] at heq
      simp only [] at heq
      rw [if_neg hsk] at heq
      have hlast : RawRecordArena.lastRecordEnd A' =
          ((A.field_data ++ D).length, (A.field_ends ++ E).length) := by
        show (A.record_ends ++
          [((A.field_data ++ D).length, (A.field_ends ++ E).length)]).getLast?.getD (0, 0) = _
        simp
      have hl1 : (RawRecordArena.lastRecordEnd A').1 = (A.field_data ++ D).length := by
        rw [hlast]
      have hl2 : (RawRecordArena.lastRecordEnd A').2 = (A.field_ends ++ E).length := by
        rw [hlast]
      obtain ⟨i1, i2, i3, i4, i5, i6, i7, iH, iS, i8, i9, i10, i11⟩ :=
        ih (by rw [hl1]) (by rw [hl2]) c₂ sk₂ rem₂ A₂ H₂ eo heq
      subst i1
      obtain ⟨hE1, hE2⟩ := checkColCount_ok_elim K _ _ expected' hcheck
      obtain ⟨L', hL'ne, hL're⟩ := i2
      have hre2' : A₂.record_ends = A.record_ends ++
          (((A.field_data ++ D).length, (A.field_ends ++ E).length) :: L') := by
        rw [hL're]
        show (A.record_ends ++
          [((A.field_data ++ D).length, (A.field_ends ++ E).length)]) ++ L' = _
        rw [List.append_assoc]
        rfl
      refine ⟨rfl, ⟨((A.field_data ++ D).length, (A.field_ends ++ E).length) :: L',
        List.cons_ne_nil _ _, hre2'⟩, i3, i4, i5, ?_, ?_, ?_, ?_, ?_, ?_, ?_, ?_⟩
      · intro V hKV
        rcases hE2 with hn | hs
        · rw [hKV] at hn
          simp at hn
        · rw [hKV] at hs
          simp only [Option.some.injEq] at hs
          rw [hs]
          exact i6 _ hE1
      · intro hK0 hsk0
        have hexp : eo.expected_col_count =
            (A.field_ends ++ E).length - A.lastRecordEnd.2 := i6 _ hE1
        rw [hre2', endsWidths_append]
        simp only [endsWidths]
        rw [getElem?_append_cons_eq _ _ _ _ (endsWidths_length A.record_ends 0), hexp]
        rfl
      · intro hskF
        exact iH hskF
      · intro hK0 hsk1
        exact absurd hsk1 hsk
      · have i8' : A₂.field_data.take (A.field_data ++ D).length =
            A'.field_data.take (A.field_data ++ D).length := by
          rw [← hl1]
          exact i8
        have i8'' : A₂.field_data.take (A.field_data ++ D).length = A.field_data ++ D := by
          rw [i8']
          show (A.field_data ++ D).take (A.field_data ++ D).length = _
          exact List.take_length _
        have hmin : A.lastRecordEnd.1 ≤ (A.field_data ++ D).length := by
          simp only [List.length_append]
          omega
        calc A₂.field_data.take A.lastRecordEnd.1
            = (A₂.field_data.take (A.field_data ++ D).length).take A.lastRecordEnd.1 := by
              rw [List.take_take, Nat.min_eq_left hmin]
          _ = A.field_data.take A.lastRecordEnd.1 := by
              rw [i8'', List.take_append_of_le_length hbD]
      · have i9' : A₂.field_ends.take (A.field_ends ++ E).length =
            A'.field_ends.take (A.field_ends ++ E).length := by
          rw [← hl2]
          exact i9
        have i9'' : A₂.field_ends.take (A.field_ends ++ E).length = A.field_ends ++ E := by
          rw [i9']
          show (A.field_ends ++ E).take (A.field_ends ++ E).length = _
          exact List.take_length _
        have hmin : A.lastRecordEnd.2 ≤ (A.field_ends ++ E).length := by
          simp only [List.length_append]
          omega
        calc A₂.field_ends.take A.lastRecordEnd.2
            = (A₂.field_ends.take (A.field_ends ++ E).length).take A.lastRecordEnd.2 := by
              rw [List.take_take, Nat.min_eq_left hmin]
          _ = A.field_ends.take A.lastRecordEnd.2 := by
              rw [i9'', List.take_append_of_le_length hbE]
      · have i10' : (A.field_data ++ D).length ≤ A₂.field_data.length := by
          rw [← hl1]
          exact i10
        simp only [List.length_append] at i10'
        omega
      · have i11' : (A.field_ends ++ E).length ≤ A₂.field_ends.length := by
          rw [← hl2]
          exact i11
        simp only [List.length_append] at i11'
        omega

/-- A fill that returns `Ok` consumed all its input. -/
theorem pureFill_rem_nil (c : CoreReader) (sk ens : Bool) (K : Option Nat) (x : List Nat)
    (A : RawRecordArena) (H : Option Headers) :
    ∀ c₂ sk₂ rem₂ A₂ H₂,
    pureFill c sk ens K x A H = (c₂, sk₂, rem₂, A₂, H₂, .ok ()) → rem₂ = [] := by
  induction c, sk, ens, K, x, A, H using pureFill.induct with
  | case1 c sk ens K x A H c' rem D E hrr =>
      intro c₂ sk₂ rem₂ A₂ H₂ heq
      obtain ⟨-, hrem⟩ := pureTokRR_inputEmpty_elim x c c' rem D E hrr
      subst hrem
      rw [pureFill, hrr] at heq
      simp only [] at heq
      simp only [Prod.mk.injEq] at heq
      exact heq.2.2.1.symm
  | case2 c sk ens K x A H c' rem D E hrr =>
      intro c₂ sk₂ rem₂ A₂ H₂ heq
      obtain ⟨-, -, hrem, -, -, -⟩ := pureTokRR_endOfData_elim x c c' rem D E hrr
      subst hrem
      rw [pureFill, hrr] at heq
      simp only [] at heq
      simp only [Prod.mk.injEq] at heq
      exact heq.2.2.1.symm
  | case3 c sk ens K x A H c' rem D E hrr fd' fe' A' e hcheck =>
      intro c₂ sk₂ rem₂ A₂ H₂ heq
      rw [pureFill, hrr] at heq
      simp only [] at heq
      rw [hcheck] at heq
      simp only [] at heq
      simp at heq
  | case4 c ens K x A H c' rem D E hrr fd' fe' A' expected' hcheck popped hdrs re' prev ih =>
      intro c₂ sk₂ rem₂ A₂ H₂ heq
      rw [pureFill, hrr] at heq
      simp only [] at heq
      rw [hcheck] at heq
      simp only [if_true] at heq
      exact ih c₂ sk₂ rem₂ A₂ H₂ heq
  | case5 c sk ens K x A H c' rem D E hrr fd' fe' A' expected' hcheck hsk ih =>
      intro c₂ sk₂ rem₂ A₂ H₂ heq
      rw [pureFill, hrr] at heq
      simp only [] at heq
      rw [hcheck] at heq
      simp only [] at heq
      rw [if_neg hsk] at heq
      exact ih c₂ sk₂ rem₂ A₂ H₂ heq

/-- The last-boundary-within-buffers invariant survives any fill. -/
theorem pureFill_bounds (c : CoreReader) (sk ens : Bool) (K : Option Nat) (x : List Nat)
    (A : RawRecordArena) (H : Option Headers) :
    A.lastRecordEnd.1 ≤ A.field_data.length → A.lastRecordEnd.2 ≤ A.field_ends.length →
    ∀ c₂ sk₂ rem₂ A₂ H₂ res,
    pureFill c sk ens K x A H = (c₂, sk₂, rem₂, A₂, H₂, res) →
    A₂.lastRecordEnd.1 ≤ A₂.field_data.length ∧
      A₂.lastRecordEnd.2 ≤ A₂.field_ends.length := by
  induction c, sk, ens, K, x, A, H using pureFill.induct with
  | case1 c sk ens K x A H c' rem D E hrr =>
      intro hbD hbE c₂ sk₂ rem₂ A₂ H₂ res heq
      rw [pureFill, hrr] at heq
      simp only [] at heq
      simp only [Prod.mk.injEq] at heq
      rw [← heq.2.2.2.1]
      constructor
      · show A.lastRecordEnd.1 ≤ (A.field_data ++ D).length
        simp only [List.length_append]
        omega
      · show A.lastRecordEnd.2 ≤ (A.field_ends ++ E).length
        simp only [List.length_append]
        omega
  | case2 c sk ens K x A H c' rem D E hrr =>
      intro hbD hbE c₂ sk₂ rem₂ A₂ H₂ res heq
      rw [pureFill, hrr] at heq
      simp only [] at heq
      simp only [Prod.mk.injEq] at heq
      rw [← heq.2.2.2.1]
      constructor
      · show A.lastRecordEnd.1 ≤ (A.field_data ++ D).length
        simp only [List.length_append]
        omega
      · show A.lastRecordEnd.2 ≤ (A.field_ends ++ E).length
        simp only [List.length_append]
        omega
  | case3 c sk ens K x A H c' rem D E hrr fd' fe' A' e hcheck =>
      intro hbD hbE c₂ sk₂ rem₂ A₂ H₂ res heq
      rw [pureFill, hrr] at heq
      simp only [] at heq
      rw [hcheck] at heq
      simp only [] at heq
      simp only [Prod.mk.injEq] at heq
      have hlast : RawRecordArena.lastRecordEnd A' =
          ((A.field_data ++ D).length, (A.field_ends ++ E).length) := by
        show (A.record_ends ++
          [((A.field_data ++ D).length, (A.field_ends ++ E).length)]).getLast?.getD (0, 0) = _
        simp
      rw [← heq.2.2.2.1, hlast]
      constructor
      · show (A.field_data ++ D).length ≤ (A.field_data ++ D).length
        exact Nat.le_refl _
      · show (A.field_ends ++ E).length ≤ (A.field_ends ++ E).length
        exact Nat.le_refl _
  | case4 c ens K x A H c' rem D E hrr fd' fe' A' expected' hcheck popped hdrs re' prev ih =>
      intro hbD hbE c₂ sk₂ rem₂ A₂ H₂ res heq
      rw [pureFill, hrr] at heq
      simp only [] at heq
      rw [hcheck] at heq
      simp only [if_true] at heq
      have hre' : re' = A.record_ends := by
        show (A.record_ends ++
          [((A.field_data ++ D).length, (A.field_ends ++ E).length)]).dropLast =
          A.record_ends
        simp
      have hprev : prev = A.lastRecordEnd := by
        show re'.getLast?.getD (0, 0) = A.lastRecordEnd
        rw [hre']
        rfl
      have hsc1 : (⟨A'.field_data.take prev.1, A'.field_ends.take prev.2, re'⟩ :
          RawRecordArena).lastRecordEnd.1 ≤
          (⟨A'.field_data.take prev.1, A'.field_ends.take prev.2, re'⟩ :
          RawRecordArena).field_data.length := by
        show (re'.getLast?.getD (0, 0)).1 ≤ (A'.field_data.take prev.1).length
        rw [hre', hprev]
        show A.lastRecordEnd.1 ≤ ((A.field_data ++ D).take A.lastRecordEnd.1).length
        simp only [List.length_take, List.length_append]
        omega
      have hsc2 : (⟨A'.field_data.take prev.1, A'.field_ends.take prev.2, re'⟩ :
          RawRecordArena).lastRecordEnd.2 ≤
          (⟨A'.field_data.take prev.1, A'.field_ends.take prev.2, re'⟩ :
          RawRecordArena).field_ends.length := by
        show (re'.getLast?.getD (0, 0)).2 ≤ (A'.field_ends.take prev.2).length
        rw [hre', hprev]
        show A.lastRecordEnd.2 ≤ ((A.field_ends ++ E).take A.lastRecordEnd.2).length
        simp only [List.length_take, List.length_append]
        omega
      exact ih hsc1 hsc2 c₂ sk₂ rem₂ A₂ H₂ res heq
  | case5 c sk ens K x A H c' rem D E hrr fd' fe' A' expected' hcheck hsk ih =>
      intro hbD hbE c₂ sk₂ rem₂ A₂ H₂ res heq
      rw [pureFill, hrr] at heq
      simp only [] at heq
      rw [hcheck] at heq
      simp only [] at heq
      rw [if_neg hsk] at heq
      have hlast : RawRecordArena.lastRecordEnd A' =
          ((A.field_data ++ D).length, (A.field_ends ++ E).length) := by
        show (A.record_ends ++
          [((A.field_data ++ D).length, (A.field_ends ++ E).length)]).getLast?.getD (0, 0) = _
        simp
      have hl1 : (RawRecordArena.lastRecordEnd A').1 = (A.field_data ++ D).length := by
        rw [hlast]
      have hl2 : (RawRecordArena.lastRecordEnd A').2 = (A.field_ends ++ E).length := by
        rw [hlast]
      exact ih (by rw [hl1]) (by rw [hl2]) c₂ sk₂ rem₂ A₂ H₂ res heq

/-- A header-mode (`skip_header = true`) checked fill with no established
expectation, when it succeeds: either no record ever completed (nothing
changed but appended bytes), or it scraped a header and every record it
appended has exactly the scraped header's width. -/
theorem pureFill_skip_ok_header (c : CoreReader) (x : List Nat) (A : RawRecordArena)
    (H : Option Headers) (c₂ : CoreReader) (sk₂ : Bool) (rem₂ : List Nat)
    (A₂ : RawRecordArena) (H₂ : Option Headers)
    (heq : pureFill c true true none x A H = (c₂, sk₂, rem₂, A₂, H₂, .ok ())) :
    (sk₂ = true ∧ H₂ = H ∧ A₂.record_ends = A.record_ends) ∨
    (sk₂ = false ∧ ∃ h L, H₂ = some h ∧ A₂.record_ends = A.record_ends ++ L ∧
      ∀ w ∈ endsWidths A.lastRecordEnd.2 L,
        w = Headers.len h - A.lastRecordEnd.2) := by
  rcases hrr : pureTokRR c x with ⟨stop, c', rem, D, E⟩
  cases stop with
  | inputEmpty =>
      rw [pureFill, hrr] at heq
      simp only [] at heq
      simp only [Prod.mk.injEq] at heq
      obtain ⟨-, h2, -, h4, h5, -⟩ := heq
      left
      refine ⟨h2.symm, h5.symm, ?_⟩
      rw [← h4]
  | endOfData =>
      rw [pureFill, hrr] at heq
      simp only [] at heq
      simp only [Prod.mk.injEq] at heq
      obtain ⟨-, h2, -, h4, h5, -⟩ := heq
      left
      refine ⟨h2.symm, h5.symm, ?_⟩
      rw [← h4]
  | record =>
      rw [pureFill, hrr] at heq
      simp only [] at heq
      have hchk : ∀ a b, checkColCount true none a b = Except.ok (some a) :=
        fun a b => rfl
      rw [hchk] at heq
      simp only [] at heq
      simp only [if_true] at heq
      simp only [List.dropLast_concat, List.getLast?_concat, Option.getD_some,
        List.take_length] at heq
      have huch := pureFill_checked_to_unchecked c' false true
        (some ((A.field_ends ++ E).length - A.lastRecordEnd.2)) rem
        ⟨(A.field_data ++ D).take (A.record_ends.getLast?.getD (0, 0)).1,
          (A.field_ends ++ E).take (A.record_ends.getLast?.getD (0, 0)).2, A.record_ends⟩
        (some ⟨A.field_data ++ D, A.field_ends ++ E⟩) rfl c₂ sk₂ rem₂ A₂ H₂ heq
      obtain ⟨hsk2, hH2, -, -, -, -⟩ :=
        pureFill_facts c' false false
          (some ((A.field_ends ++ E).length - A.lastRecordEnd.2)) rem
          ⟨(A.field_data ++ D).take (A.record_ends.getLast?.getD (0, 0)).1,
            (A.field_ends ++ E).take (A.record_ends.getLast?.getD (0, 0)).2, A.record_ends⟩
          (some ⟨A.field_data ++ D, A.field_ends ++ E⟩) rfl rfl
          c₂ sk₂ rem₂ A₂ H₂ _ huch
      obtain ⟨W, L, hor, hre, hwid⟩ :=
        pureFill_checked_widths c' false true
          (some ((A.field_ends ++ E).length - A.lastRecordEnd.2)) rem
          ⟨(A.field_data ++ D).take (A.record_ends.getLast?.getD (0, 0)).1,
            (A.field_ends ++ E).take (A.record_ends.getLast?.getD (0, 0)).2, A.record_ends⟩
          (some ⟨A.field_data ++ D, A.field_ends ++ E⟩) rfl c₂ sk₂ rem₂ A₂ H₂ heq
      have hW : W = (A.field_ends ++ E).length - A.lastRecordEnd.2 := by
        rcases hor with h0 | h0
        · simp at h0
        · simp only [Option.some.injEq] at h0
          exact h0.symm
      right
      refine ⟨hsk2, ⟨A.field_data ++ D, A.field_ends ++ E⟩, L, hH2, hre, ?_⟩
      intro w hw
      have h1 := hwid w hw
      rw [h1, hW]
      rfl

/-- A non-empty `fill_arena` call is, on the contents view, exactly a
`pureFill` run from the arena's contents. -/
theorem fill_arena_run_pure (r : Reader) (input : List Nat) (ao : ByteRecordArena)
    (r' : Reader) (ao' : ByteRecordArena) (res : Except WrongColCount Unit)
    (hbD : ao.inner.lastRecordEnd.1 ≤ ao.inner.field_data.length)
    (hbE : ao.inner.lastRecordEnd.2 ≤ ao.inner.field_ends.length)
    (hin : input ≠ [])
    (hres : r.fill_arena input ao = (r', ao', res)) :
    ∃ c₂ sk₂ rem₂ A₂ H₂,
      pureFill r.inner r.skip_header r.ensure_col_count
        (Option.map Headers.len (ByteRecordArena.headers ao)) input ao.inner
        ao.headers_inner = (c₂, sk₂, rem₂, A₂, H₂, res) ∧
      ao'.inner = A₂ ∧ ao'.headers_inner = H₂ ∧
      r'.inner = c₂ ∧ r'.skip_header = sk₂ ∧
      r'.ensure_col_count = r.ensure_col_count := by
  rw [fill_arena_eq_pure r input ao hbD hbE, pureFillArena] at hres
  rw [if_neg hin] at hres
  rcases hpf : pureFill r.inner r.skip_header r.ensure_col_count
      (Option.map Headers.len (ByteRecordArena.headers ao)) input ao.inner
      ao.headers_inner with ⟨c₂, sk₂, rem₂, A₂, H₂, res₂⟩
  by_cases hsp : ao.start_pos = none
  · rw [if_pos hsp] at hres
    simp only [] at hres
    rw [hpf] at hres
    simp only [Prod.mk.injEq] at hres
    obtain ⟨hr, hao, hres2⟩ := hres
    subst hres2
    refine ⟨c₂, sk₂, rem₂, A₂, H₂, rfl, ?_, ?_, ?_, ?_, ?_⟩
    · exact congrArg ByteRecordArena.inner hao.symm
    · exact congrArg ByteRecordArena.headers_inner hao.symm
    · exact congrArg Reader.inner hr.symm
    · exact congrArg Reader.skip_header hr.symm
    · rw [← hr]
  · rw [if_neg hsp] at hres
    simp only [] at hres
    rw [hpf] at hres
    simp only [Prod.mk.injEq] at hres
    obtain ⟨hr, hao, hres2⟩ := hres
    subst hres2
    refine ⟨c₂, sk₂, rem₂, A₂, H₂, rfl, ?_, ?_, ?_, ?_, ?_⟩
    · exact congrArg ByteRecordArena.inner hao.symm
    · exact congrArg ByteRecordArena.headers_inner hao.symm
    · exact congrArg Reader.inner hr.symm
    · exact congrArg Reader.skip_header hr.symm
    · rw [← hr]

/-- **C2** (column-count enforcement): if a `fill_arena` call ends in a
`WrongColCount` error, then enforcement was on, the error's 0-based row
number indexes the offending record (the arena's last, so the header —
never stored among the records — is excluded from the count), the observed
field count is that record's actual width and differs from the expected
count, the expected count is the header's width when headers are
established — whether they pre-existed the call or the call scraped them
itself (the header-mode call then holds them in its output arena; from an
empty arena the expected count is exactly that header's width) — else, in
plain headerless mode, the width of the first record this call completed;
and every record accepted before the mismatch remains retained in the
arena with its contents intact.  Conversely, a call that returns `Ok` with
enforcement on appended only records of one uniform width, equal to the
header's width when headers are established (again whether pre-existing or
scraped by this very call) — so a later record with a deviating width
cannot be accepted silently. -/
theorem fill_arena_wrong_col_count (r : Reader) (input : List Nat) (ao : ByteRecordArena)
    (r' : Reader) (ao' : ByteRecordArena) (res : Except WrongColCount Unit)
    (hdom : ∀ p ∈ ao.inner.record_ends,
      p.1 ≤ ao.inner.lastRecordEnd.1 ∧ p.2 ≤ ao.inner.lastRecordEnd.2)
    (hbD : ao.inner.lastRecordEnd.1 ≤ ao.inner.field_data.length)
    (hbE : ao.inner.lastRecordEnd.2 ≤ ao.inner.field_ends.length)
    (hres : r.fill_arena input ao = (r', ao', res)) :
    (∀ e, res = .error e →
      r.ensure_col_count = true ∧
      ao'.record_count = e.row_num + 1 ∧
      (endsWidths 0 ao'.inner.record_ends).getLast? = some e.col_count ∧
      e.col_count ≠ e.expected_col_count ∧
      (∀ h, ByteRecordArena.headers ao = some h → e.expected_col_count = h.len) ∧
      (ByteRecordArena.headers ao = none → r.skip_header = false →
        (endsWidths 0 ao'.inner.record_ends)[ao.record_count]? =
          some e.expected_col_count) ∧
      (ByteRecordArena.headers ao = none → r.skip_header = true →
        ∃ h, ByteRecordArena.headers ao' = some h ∧
          e.expected_col_count = Headers.len h - ao.inner.lastRecordEnd.2) ∧
      (RawRecordArena.records ao'.inner).take ao.record_count =
        RawRecordArena.records ao.inner) ∧
    (res = .ok () → r.ensure_col_count = true →
      ∃ W L, ao'.inner.record_ends = ao.inner.record_ends ++ L ∧
        (∀ h, ByteRecordArena.headers ao = some h → W = h.len) ∧
        (ByteRecordArena.headers ao = none → r.skip_header = true →
          ∀ h, ByteRecordArena.headers ao' = some h →
            W = Headers.len h - ao.inner.lastRecordEnd.2) ∧
        (∀ w ∈ endsWidths ao.inner.lastRecordEnd.2 L, w = W)) := by
  by_cases hin : input = []
  · rw [hin, Reader.fill_arena] at hres
    simp only [if_pos rfl, Prod.mk.injEq] at hres
    obtain ⟨rfl, rfl, rfl⟩ := hres
    constructor
    · intro e hE
      simp at hE
    · intro hok hens
      refine ⟨(Option.map Headers.len (ByteRecordArena.headers ao)).getD 0, [], by simp,
        ?_, ?_, ?_⟩
      · intro h hh
        rw [hh]
        rfl
      · intro hh0 hsk1 h hh2
        rw [hh0] at hh2
        simp at hh2
      · intro w hw
        simp [endsWidths] at hw
  · obtain ⟨c₂, sk₂, rem₂, A₂, H₂, hpf, hao, hhd, -, -, -⟩ :=
      fill_arena_run_pure r input ao r' ao' res hbD hbE hin hres
    constructor
    · intro e hE
      subst hE
      obtain ⟨hens, ⟨L, hLne, hLre⟩, hrow, hwidth, hne, hKsome, hKnone, hHpres, hKskip,
          htD, htE, hbD2, hbE2⟩ :=
        pureFill_error_spec r.inner r.skip_header r.ensure_col_count
          (Option.map Headers.len (ByteRecordArena.headers ao)) input ao.inner
          ao.headers_inner hbD hbE c₂ sk₂ rem₂ A₂ H₂ e hpf
      have hL1 : 0 < L.length := List.length_pos.mpr hLne
      refine ⟨hens, ?_, ?_, hne, ?_, ?_, ?_, ?_⟩
      · show ao'.inner.record_ends.length = e.row_num + 1
        rw [hao, hrow, hLre]
        simp only [List.length_append]
        omega
      · rw [hao]
        exact hwidth
      · intro h hh
        apply hKsome
        rw [hh]
        rfl
      · intro hh hskF
        have hK0 : Option.map Headers.len (ByteRecordArena.headers ao) = none := by
          rw [hh]
          rfl
        have hidx := hKnone hK0 hskF
        show (endsWidths 0 ao'.inner.record_ends)[ao.inner.record_ends.length]? =
          some e.expected_col_count
        rw [hao]
        exact hidx
      · intro hh hsk1
        have hK0 : Option.map Headers.len (ByteRecordArena.headers ao) = none := by
          rw [hh]
          rfl
        obtain ⟨h, hH2, hexp⟩ := hKskip hK0 hsk1
        refine ⟨h, ?_, hexp⟩
        show ao'.headers_inner = some h
        rw [hhd]
        exact hH2
      · have hcongr : RawRecordArena.recordViews A₂.field_data A₂.field_ends 0 0
            ao.inner.record_ends =
            RawRecordArena.recordViews ao.inner.field_data ao.inner.field_ends 0 0
              ao.inner.record_ends :=
          recordViews_take_congr A₂.field_data A₂.field_ends ao.inner.field_data
            ao.inner.field_ends ao.inner.lastRecordEnd.1 ao.inner.lastRecordEnd.2
            ao.inner.record_ends hdom htD htE 0 0
        show (RawRecordArena.records ao'.inner).take ao.inner.record_ends.length =
          RawRecordArena.records ao.inner
        rw [hao]
        simp only [RawRecordArena.records]
        rw [hLre, recordViews_split, List.map_append]
        have hlen : ((RawRecordArena.recordViews A₂.field_data A₂.field_ends 0 0
            ao.inner.record_ends).map (fun v => RawRecordArena.recordFields v.1 0 v.2)).length =
            ao.inner.record_ends.length := by
          rw [List.length_map, recordViews_length]
        rw [← hlen, List.take_left, hcongr]
    · intro hok hens
      subst hok
      by_cases hcase : ByteRecordArena.headers ao = none ∧ r.skip_header = true
      · have hK0 : Option.map Headers.len (ByteRecordArena.headers ao) = none := by
          rw [hcase.1]
          rfl
        rw [hcase.2, hens, hK0] at hpf
        rcases pureFill_skip_ok_header r.inner input ao.inner ao.headers_inner
            c₂ sk₂ rem₂ A₂ H₂ hpf with ⟨hs1, hH, hre⟩ | ⟨hs1, h, L, hH, hre, hwid⟩
        · refine ⟨0, [], ?_, ?_, ?_, ?_⟩
          · rw [hao, hre]
            simp
          · intro h hh
            rw [hcase.1] at hh
            simp at hh
          · intro hh0 hsk1 h hh2
            have hx : H₂ = some h := by
              rw [← hhd]
              exact hh2
            rw [hH] at hx
            have hx2 : ByteRecordArena.headers ao = some h := hx
            rw [hcase.1] at hx2
            simp at hx2
          · intro w hw
            simp [endsWidths] at hw
        · refine ⟨Headers.len h - ao.inner.lastRecordEnd.2, L, ?_, ?_, ?_, ?_⟩
          · rw [hao]
            exact hre
          · intro h' hh
            rw [hcase.1] at hh
            simp at hh
          · intro hh0 hsk1 h' hh2
            have hx : H₂ = some h' := by
              rw [← hhd]
              exact hh2
            rw [hH] at hx
            simp only [Option.some.injEq] at hx
            rw [hx]
          · exact hwid
      · obtain ⟨W, L, hor, hre, huni⟩ :=
          pureFill_checked_widths r.inner r.skip_header r.ensure_col_count
            (Option.map Headers.len (ByteRecordArena.headers ao)) input ao.inner
            ao.headers_inner hens c₂ sk₂ rem₂ A₂ H₂ hpf
        refine ⟨W, L, ?_, ?_, ?_, huni⟩
        · rw [hao]
          exact hre
        · intro h hh
          rcases hor with h0 | h0
          · rw [hh] at h0
            simp at h0
          · rw [hh] at h0
            simp only [Option.map_some', Option.some.injEq] at h0
            exact h0.symm
        · intro hh0 hsk1 h hh2
          exact absurd ⟨hh0, hsk1⟩ hcase

/-- Witness for `fill_arena_wrong_col_count`: the header-mode stream
`h,i\nc\n` — a 2-column header scraped by this very call, then a 1-column
record — fails at row 0 (the header excluded from the count), observed 1,
expected 2 = the scraped header's width, held in the output arena. -/
theorem fill_arena_wrong_col_count_witness :
    (Reader.new true 44).ensure_col_count = true ∧
    ByteRecordArena.record_count
      (ByteRecordArena.mk ⟨[99], [1], [(1, 1)]⟩ (some ⟨0, 1, 0⟩)
        (some ⟨[104, 105], [1, 2]⟩) 0) = 1 ∧
    (endsWidths 0 [(1, 1)]).getLast? = some 1 ∧
    (1 : Nat) ≠ 2 ∧
    (∀ h, ByteRecordArena.headers ByteRecordArena.new = some h → 2 = h.len) ∧
    (ByteRecordArena.headers ByteRecordArena.new = none →
      (Reader.new true 44).skip_header = false →
      (endsWidths 0 [(1, 1)])[ByteRecordArena.record_count ByteRecordArena.new]? =
        some 2) ∧
    (ByteRecordArena.headers ByteRecordArena.new = none →
      (Reader.new true 44).skip_header = true →
      ∃ h, ByteRecordArena.headers
          (ByteRecordArena.mk ⟨[99], [1], [(1, 1)]⟩ (some ⟨0, 1, 0⟩)
            (some ⟨[104, 105], [1, 2]⟩) 0) = some h ∧
        2 = Headers.len h - ByteRecordArena.new.inner.lastRecordEnd.2) ∧
    (RawRecordArena.records ⟨[99], [1], [(1, 1)]⟩).take
      (ByteRecordArena.record_count ByteRecordArena.new) =
      RawRecordArena.records ByteRecordArena.new.inner :=
  (fill_arena_wrong_col_count (Reader.new true 44) [104, 44, 105, 10, 99, 10]
    ByteRecordArena.new ⟨⟨44, .startRecord, 0, 3⟩, 0, 0, false, true, 6, 1⟩
    (ByteRecordArena.mk ⟨[99], [1], [(1, 1)]⟩ (some ⟨0, 1, 0⟩)
      (some ⟨[104, 105], [1, 2]⟩) 0)
    (Except.error ⟨0, 1, 2⟩)
    (by intro p hp; simp [ByteRecordArena.new, RawRecordArena.new] at hp)
    (by decide) (by decide)
    (by
      have hb := fill_arena_eq_pure (Reader.new true 44) [104, 44, 105, 10, 99, 10]
        ByteRecordArena.new (by decide) (by decide)
      rw [hb]
      simp [pureFillArena, pureFill, pureTokRR, pureTokGo, coreStep, checkColCount,
        CoreReader.new, Reader.new, ByteRecordArena.new, RawRecordArena.new, quoteByte,
        lfByte, ByteRecordArena.headers, RawRecordArena.lastRecordEnd, Headers.len])).1
    ⟨0, 1, 2⟩ rfl

/-! ## Header exclusion (`scrape_headers` inside the fill loop) -/

/-- A skipless fill never touches the headers slot, so its result does not
depend on what that slot holds. -/
theorem pureFill_headers_indep (c : CoreReader) (sk ens : Bool) (K : Option Nat)
    (x : List Nat) (A : RawRecordArena) (H : Option Headers) :
    sk = false → ∀ (H' : Option Headers) (c₂ : CoreReader) (sk₂ : Bool) (rem₂ : List Nat)
      (A₂ : RawRecordArena) (H₂ : Option Headers) (res : Except WrongColCount Unit),
    pureFill c sk ens K x A H = (c₂, sk₂, rem₂, A₂, H₂, res) →
    pureFill c sk ens K x A H' = (c₂, sk₂, rem₂, A₂, H', res) := by
  induction c, sk, ens, K, x, A, H using pureFill.induct with
  | case1 c sk ens K x A H c' rem D E hrr =>
      intro hskF H' c₂ sk₂ rem₂ A₂ H₂ res heq
      rw [pureFill, hrr] at heq ⊢
      simp only [] at heq ⊢
      simp only [Prod.mk.injEq] at heq ⊢
      exact ⟨heq.1, heq.2.1, heq.2.2.1, heq.2.2.2.1, trivial, heq.2.2.2.2.2⟩
  | case2 c sk ens K x A H c' rem D E hrr =>
      intro hskF H' c₂ sk₂ rem₂ A₂ H₂ res heq
      rw [pureFill, hrr] at heq ⊢
      simp only [] at heq ⊢
      simp only [Prod.mk.injEq] at heq ⊢
      exact ⟨heq.1, heq.2.1, heq.2.2.1, heq.2.2.2.1, trivial, heq.2.2.2.2.2⟩
  | case3 c sk ens K x A H c' rem D E hrr fd' fe' A' e hcheck =>
      intro hskF H' c₂ sk₂ rem₂ A₂ H₂ res heq
      rw [pureFill, hrr] at heq ⊢
      simp only [] at heq ⊢
      rw [hcheck] at heq ⊢
      simp only [] at heq ⊢
      simp only [Prod.mk.injEq] at heq ⊢
      exact ⟨heq.1, heq.2.1, heq.2.2.1, heq.2.2.2.1, trivial, heq.2.2.2.2.2⟩
  | case4 c ens K x A H c' rem D E hrr fd' fe' A' expected' hcheck popped hdrs re' prev ih =>
      intro hskF H' c₂ sk₂ rem₂ A₂ H₂ res heq
      simp at hskF
  | case5 c sk ens K x A H c' rem D E hrr fd' fe' A' expected' hcheck hsk ih =>
      intro hskF H' c₂ sk₂ rem₂ A₂ H₂ res heq
      rw [pureFill, hrr] at heq ⊢
      simp only [] at heq ⊢
      rw [hcheck] at heq ⊢
      simp only [] at heq ⊢
      rw [if_neg hsk] at heq ⊢
      exact ih hskF H' c₂ sk₂ rem₂ A₂ H₂ res heq

/-- A header-mode pure fill from a fresh arena, against the headerless fill
of the same input: either no record ever completed (the header is still
pending and both runs agree, with no completed records), or the scraped
header is exactly the first completed row and the headerless arena is that
row followed by the header-mode arena's records, shifted past it. -/
theorem pureFill_header_split (c : CoreReader) (x : List Nat)
    (c₂ : CoreReader) (sk₂ : Bool) (rem₂ : List Nat) (A₂ : RawRecordArena)
    (H₂ : Option Headers)
    (hh : pureFill c true false none x ⟨[], [], []⟩ none =
      (c₂, sk₂, rem₂, A₂, H₂, .ok ()))
    (cn₂ : CoreReader) (skn₂ : Bool) (remn₂ : List Nat) (An₂ : RawRecordArena)
    (Hn₂ : Option Headers)
    (hn : pureFill c false false none x ⟨[], [], []⟩ none =
      (cn₂, skn₂, remn₂, An₂, Hn₂, .ok ())) :
    (sk₂ = true ∧ H₂ = none ∧ An₂ = A₂ ∧ A₂.record_ends = []) ∨
    (sk₂ = false ∧ ∃ hd, H₂ = some hd ∧
      An₂.field_data = hd.name_data ++ A₂.field_data ∧
      An₂.field_ends = hd.name_ends ++ A₂.field_ends ∧
      An₂.record_ends = (hd.name_data.length, hd.name_ends.length) ::
        A₂.record_ends.map (shiftEnd hd.name_data.length hd.name_ends.length)) := by
  rcases hrr : pureTokRR c x with ⟨stop, c', rem, D, E⟩
  cases stop with
  | inputEmpty =>
      rw [pureFill, hrr] at hh hn
      simp only [] at hh hn
      simp only [Prod.mk.injEq] at hh hn
      obtain ⟨rfl, rfl, rfl, rfl, rfl, -⟩ := hh
      obtain ⟨rfl, rfl, rfl, rfl, rfl, -⟩ := hn
      left
      exact ⟨rfl, rfl, rfl, rfl⟩
  | endOfData =>
      rw [pureFill, hrr] at hh hn
      simp only [] at hh hn
      simp only [Prod.mk.injEq] at hh hn
      obtain ⟨rfl, rfl, rfl, rfl, rfl, -⟩ := hh
      obtain ⟨rfl, rfl, rfl, rfl, rfl, -⟩ := hn
      left
      exact ⟨rfl, rfl, rfl, rfl⟩
  | record =>
      rw [pureFill, hrr] at hh hn
      simp only [] at hh hn
      have hchk : ∀ a b, checkColCount false none a b = Except.ok none := fun a b => rfl
      rw [hchk] at hh hn
      simp only [] at hh hn
      simp only [if_true] at hh
      rw [if_neg Bool.false_ne_true] at hn
      simp only [List.nil_append, List.dropLast_single, List.getLast?_nil,
        List.getLast?_singleton, Option.getD_none, Option.getD_some, List.take_zero,
        List.take_length] at hh hn
      rcases hbase : pureFill c' false false none rem ⟨[], [], []⟩ none with
        ⟨cb, skb, remb, Ab, Hb, resb⟩
      obtain ⟨hskb, hHb, hremb, hresb, -, -⟩ :=
        pureFill_facts c' false false none rem ⟨[], [], []⟩ none rfl rfl
          cb skb remb Ab Hb resb hbase
      subst hskb
      subst hHb
      subst hremb
      subst hresb
      have hhI := pureFill_headers_indep c' false false none rem ⟨[], [], []⟩ none rfl
        (some ⟨D, E⟩) cb false [] Ab none (.ok ()) hbase
      have hsh := pureFill_shift c' false false none rem ⟨[], [], []⟩ none rfl rfl
        D E [(D.length, E.length)] cb false [] Ab none (.ok ()) (by simp) hbase
      simp only [List.append_nil, List.map_nil] at hsh
      have hcombH := hh.symm.trans hhI
      simp only [Prod.mk.injEq] at hcombH
      obtain ⟨rfl, rfl, rfl, rfl, rfl, -⟩ := hcombH
      have hcombN := hn.symm.trans hsh
      simp only [Prod.mk.injEq] at hcombN
      obtain ⟨rfl, rfl, rfl, rfl, rfl, -⟩ := hcombN
      right
      exact ⟨rfl, ⟨D, E⟩, rfl, rfl, rfl, rfl⟩

/-- A chunked session in the API's incremental mode: successive `fill_arena`
calls on the same arena (partial bytes and tokenizer state carry over in
place), stopping at the first error. -/
def fillChunks (r : Reader) (ao : ByteRecordArena) :
    List (List Nat) → Reader × ByteRecordArena × Except WrongColCount Unit
  | [] => (r, ao, .ok ())
  | x :: xs =>
      match r.fill_arena x ao with
      | (r', ao', .error e) => (r', ao', .error e)
      | (r', ao', .ok ()) => fillChunks r' ao' xs

/-- A successful chunked session equals, on the pure layer, one unchecked
fill of the concatenated input: chunk boundaries are invisible to the
tokenizer state, the arena contents and the headers slot — in any
skip-header state, so in particular when the header row itself is split
across chunks. -/
theorem fillChunks_pure (chunks : List (List Nat)) :
    ∀ (c : CoreReader) (sk : Bool) (fdl fel by0 rc0 : Nat) (ao : ByteRecordArena)
      (r' : Reader) (ao' : ByteRecordArena),
    ao.inner.lastRecordEnd.1 ≤ ao.inner.field_data.length →
    ao.inner.lastRecordEnd.2 ≤ ao.inner.field_ends.length →
    fillChunks ⟨c, fdl, fel, sk, true, by0, rc0⟩ ao chunks = (r', ao', .ok ()) →
    ∃ c₂ sk₂ A₂ H₂,
      (chunks.join ≠ [] →
        pureFill c sk false none chunks.join ao.inner ao.headers_inner =
          (c₂, sk₂, [], A₂, H₂, .ok ())) ∧
      (chunks.join = [] →
        c₂ = c ∧ sk₂ = sk ∧ A₂ = ao.inner ∧ H₂ = ao.headers_inner) ∧
      ao'.inner = A₂ ∧ ao'.headers_inner = H₂ := by
  induction chunks with
  | nil =>
      intro c sk fdl fel by0 rc0 ao r' ao' hbD hbE heq
      rw [fillChunks] at heq
      simp only [Prod.mk.injEq] at heq
      obtain ⟨-, rfl, -⟩ := heq
      exact ⟨c, sk, ao.inner, ao.headers_inner, fun h => absurd rfl h,
        fun _ => ⟨rfl, rfl, rfl, rfl⟩, rfl, rfl⟩
  | cons x xs ih =>
      intro c sk fdl fel by0 rc0 ao r' ao' hbD hbE heq
      rw [show (x :: xs).join = x ++ xs.join from rfl]
      rw [fillChunks] at heq
      rcases hfill : Reader.fill_arena ⟨c, fdl, fel, sk, true, by0, rc0⟩ x ao with
        ⟨r₁, ao₁, res₁⟩
      rcases res₁ with e | u
      · rw [hfill] at heq
        simp only [] at heq
        simp at heq
      · cases u
        rw [hfill] at heq
        simp only [] at heq
        by_cases hx : x = []
        · subst hx
          have hid : Reader.fill_arena ⟨c, fdl, fel, sk, true, by0, rc0⟩ [] ao =
              (⟨c, fdl, fel, sk, true, by0, rc0⟩, ao, .ok ()) := by
            rw [Reader.fill_arena]
            simp
          rw [hid] at hfill
          simp only [Prod.mk.injEq] at hfill
          obtain ⟨h1, h2, -⟩ := hfill
          rw [← h1, ← h2] at heq
          obtain ⟨c₂, sk₂, A₂, H₂, hne2, hnil2, hin2, hhd2⟩ :=
            ih c sk fdl fel by0 rc0 ao r' ao' hbD hbE heq
          rw [List.nil_append]
          exact ⟨c₂, sk₂, A₂, H₂, hne2, hnil2, hin2, hhd2⟩
        · obtain ⟨c₁, sk₁, rem₁, A₁, H₁, hpf1, hao1, hhd1, rfl, rfl, hre⟩ :=
            fill_arena_run_pure ⟨c, fdl, fel, sk, true, by0, rc0⟩ x ao r₁ ao₁ (.ok ())
              hbD hbE hx hfill
          rcases r₁ with ⟨ci, f1, f2, ski, ensi, b1, b2⟩
          obtain rfl : ensi = true := hre
          have hpf1' : pureFill c sk true
              (Option.map Headers.len (ByteRecordArena.headers ao)) x ao.inner
              ao.headers_inner = (ci, ski, rem₁, A₁, H₁, .ok ()) := hpf1
          have hrem : rem₁ = [] :=
            pureFill_rem_nil c sk true
              (Option.map Headers.len (ByteRecordArena.headers ao)) x ao.inner
              ao.headers_inner ci ski rem₁ A₁ H₁ hpf1'
          subst hrem
          have hb1 := pureFill_bounds c sk true
            (Option.map Headers.len (ByteRecordArena.headers ao)) x ao.inner
            ao.headers_inner hbD hbE ci ski [] A₁ H₁ (.ok ()) hpf1'
          have hu1 := pureFill_checked_to_unchecked c sk true
            (Option.map Headers.len (ByteRecordArena.headers ao)) x ao.inner
            ao.headers_inner rfl ci ski [] A₁ H₁ hpf1'
          rw [pureFill_unchecked_K c sk false
            (Option.map Headers.len (ByteRecordArena.headers ao)) x ao.inner
            ao.headers_inner rfl none] at hu1
          have hb1D : ao₁.inner.lastRecordEnd.1 ≤ ao₁.inner.field_data.length := by
            rw [hao1]
            exact hb1.1
          have hb1E : ao₁.inner.lastRecordEnd.2 ≤ ao₁.inner.field_ends.length := by
            rw [hao1]
            exact hb1.2
          obtain ⟨c₂, sk₂, A₂, H₂, hne2, hnil2, hin2, hhd2⟩ :=
            ih ci ski f1 f2 b1 b2 ao₁ r' ao' hb1D hb1E heq
          refine ⟨c₂, sk₂, A₂, H₂, ?_, ?_, hin2, hhd2⟩
          · intro hj
            by_cases hxs : xs.join = []
            · obtain ⟨hc2, hs2, hA2, hH2⟩ := hnil2 hxs
              rw [hxs, List.append_nil]
              rw [hc2, hs2, hA2, hH2, hao1, hhd1]
              exact hu1
            · have happ := pureFill_append c sk false none x ao.inner
                ao.headers_inner rfl xs.join ci ski A₁ H₁ hu1
                (fun h0 => absurd h0 hx) hxs
              rw [happ]
              rw [← hao1, ← hhd1]
              exact hne2 hxs
          · intro hj
            exact absurd (List.append_eq_nil.mp hj).1 hx

/-- **C3** (header exclusion): running a header-mode session over any input
split into any chunks (fed through successive `fill_arena` calls — the
header row may span several chunks), against the headerless parse of the
same concatenated bytes: if the session holds scraped headers then the
headerless parse is exactly those headers' fields (the first parsed row)
followed by the session arena's records — the header row is never among
them, and the session's `record_count` is one less (the header excluded);
if no headers were scraped, the header row never completed and the arena
holds no records at all (and neither does the headerless parse). -/
theorem header_exclusion (delim : Nat) (chunks : List (List Nat))
    (rh rn : Reader) (aoh aon : ByteRecordArena)
    (hh : fillChunks (Reader.new true delim) ByteRecordArena.new chunks =
      (rh, aoh, .ok ()))
    (hn : (Reader.new false delim).fill_arena chunks.join ByteRecordArena.new =
      (rn, aon, .ok ())) :
    (∀ hd, ByteRecordArena.headers aoh = some hd →
      RawRecordArena.records aon.inner =
        Headers.fields hd :: RawRecordArena.records aoh.inner ∧
      aon.record_count = aoh.record_count + 1) ∧
    (ByteRecordArena.headers aoh = none →
      RawRecordArena.records aoh.inner = [] ∧ aoh.record_count = 0 ∧
      RawRecordArena.records aon.inner = []) := by
  have hh' : fillChunks ⟨CoreReader.new delim, 0, 0, true, true, 0, 0⟩
      ByteRecordArena.new chunks = (rh, aoh, .ok ()) := hh
  obtain ⟨ch₂, skh₂, Ah₂, Hh₂, hne, hnil, haoh, hhdh⟩ :=
    fillChunks_pure chunks (CoreReader.new delim) true 0 0 0 0 ByteRecordArena.new
      rh aoh (by decide) (by decide) hh'
  by_cases hj : chunks.join = []
  · obtain ⟨rfl, rfl, hA, hHn⟩ := hnil hj
    rw [hj, Reader.fill_arena] at hn
    simp only [if_pos rfl, Prod.mk.injEq] at hn
    obtain ⟨-, rfl, -⟩ := hn
    constructor
    · intro hd hhd
      have hx : Hh₂ = some hd := hhdh.symm.trans hhd
      rw [hHn] at hx
      simp [ByteRecordArena.new] at hx
    · intro h0
      refine ⟨?_, ?_, rfl⟩
      · rw [haoh, hA]
        rfl
      · show aoh.inner.record_ends.length = 0
        rw [haoh, hA]
        rfl
  · have hpfh := hne hj
    have hpfh' : pureFill (CoreReader.new delim) true false none chunks.join
        ⟨[], [], []⟩ none = (ch₂, skh₂, [], Ah₂, Hh₂, .ok ()) := hpfh
    obtain ⟨cn₂, skn₂, remn₂, An₂, Hn₂, hpfn, haon, hhdn, -, -, -⟩ :=
      fill_arena_run_pure (Reader.new false delim) chunks.join ByteRecordArena.new
        rn aon (.ok ()) (by decide) (by decide) hj hn
    have hpfn' : pureFill (CoreReader.new delim) false true none chunks.join
        ⟨[], [], []⟩ none = (cn₂, skn₂, remn₂, An₂, Hn₂, .ok ()) := hpfn
    have hun := pureFill_checked_to_unchecked (CoreReader.new delim) false true none
      chunks.join ⟨[], [], []⟩ none rfl cn₂ skn₂ remn₂ An₂ Hn₂ hpfn'
    rcases pureFill_header_split (CoreReader.new delim) chunks.join ch₂ skh₂ [] Ah₂ Hh₂
        hpfh' cn₂ skn₂ remn₂ An₂ Hn₂ hun with
      ⟨hsk, hH, hAA, hre⟩ | ⟨hsk, hd, hHd, hfd, hfe, hre⟩
    · have h1 : RawRecordArena.records Ah₂ = [] := by
        simp only [RawRecordArena.records, hre, RawRecordArena.recordViews, List.map_nil]
      constructor
      · intro hd hhd
        have hx : Hh₂ = some hd := hhdh.symm.trans hhd
        rw [hH] at hx
        simp at hx
      · intro h0
        refine ⟨?_, ?_, ?_⟩
        · rw [haoh]
          exact h1
        · show aoh.inner.record_ends.length = 0
          rw [haoh, hre]
          rfl
        · rw [haon, hAA]
          exact h1
    · have hAn : An₂ = ⟨hd.name_data ++ Ah₂.field_data, hd.name_ends ++ Ah₂.field_ends,
          [(hd.name_data.length, hd.name_ends.length)] ++
            Ah₂.record_ends.map (shiftEnd hd.name_data.length hd.name_ends.length)⟩ := by
        rcases An₂ with ⟨f1, f2, f3⟩
        simp only [RawRecordArena.mk.injEq]
        exact ⟨hfd, hfe, hre⟩
      have hemb := records_embed hd.name_data hd.name_ends
        [(hd.name_data.length, hd.name_ends.length)] Ah₂.field_data Ah₂.field_ends
        Ah₂.record_ends
        (by
          intro p hp
          simp only [List.mem_singleton] at hp
          subst hp
          exact ⟨le_refl _, le_refl _⟩)
        (by simp)
      have hone : RawRecordArena.records ⟨hd.name_data, hd.name_ends,
          [(hd.name_data.length, hd.name_ends.length)]⟩ = [Headers.fields hd] := by
        simp only [RawRecordArena.records, RawRecordArena.recordViews, List.map_cons,
          List.map_nil, List.take_length, List.drop_zero]
        rfl
      constructor
      · intro hd' hhd'
        have hx : Hh₂ = some hd' := hhdh.symm.trans hhd'
        rw [hHd] at hx
        simp only [Option.some.injEq] at hx
        subst hx
        refine ⟨?_, ?_⟩
        · rw [haon, hAn, hemb, hone, haoh]
          rfl
        · show aon.inner.record_ends.length = aoh.inner.record_ends.length + 1
          rw [haon, haoh, hre]
          simp
      · intro h0
        have hx : Hh₂ = none := hhdh.symm.trans h0
        rw [hHd] at hx
        simp at hx

/-- Witness for `header_exclusion`: the stream `h\nx\n` split into the
chunks `h` / `\nx\n` — the header row itself is cut across the chunk
boundary — scrapes `h` as the header and keeps only the record `x`; the
headerless parse of the same bytes is `[h]` followed by that record. -/
theorem header_exclusion_witness :
    (∀ hd, (some (⟨[104], [1]⟩ : Headers) : Option Headers) = some hd →
      RawRecordArena.records ⟨[104, 120], [1, 1], [(1, 1), (2, 2)]⟩ =
        Headers.fields hd :: RawRecordArena.records ⟨[120], [1], [(1, 1)]⟩ ∧
      ByteRecordArena.record_count
        (ByteRecordArena.mk ⟨[104, 120], [1, 1], [(1, 1), (2, 2)]⟩
          (some ⟨0, 1, 0⟩) none 0) =
      ByteRecordArena.record_count
        (ByteRecordArena.mk ⟨[120], [1], [(1, 1)]⟩ (some ⟨0, 1, 0⟩)
          (some ⟨[104], [1]⟩) 0) + 1) ∧
    ((some (⟨[104], [1]⟩ : Headers) : Option Headers) = none →
      RawRecordArena.records ⟨[120], [1], [(1, 1)]⟩ = [] ∧
      ByteRecordArena.record_count
        (ByteRecordArena.mk ⟨[120], [1], [(1, 1)]⟩ (some ⟨0, 1, 0⟩)
          (some ⟨[104], [1]⟩) 0) = 0 ∧
      RawRecordArena.records ⟨[104, 120], [1, 1], [(1, 1), (2, 2)]⟩ = []) :=
  header_exclusion 44 [[104], [10, 120, 10]]
    ⟨⟨44, .startRecord, 0, 3⟩, 0, 0, false, true, 4, 1⟩
    ⟨⟨44, .startRecord, 0, 3⟩, 0, 0, false, true, 4, 2⟩
    (ByteRecordArena.mk ⟨[120], [1], [(1, 1)]⟩ (some ⟨0, 1, 0⟩) (some ⟨[104], [1]⟩) 0)
    (ByteRecordArena.mk ⟨[104, 120], [1, 1], [(1, 1), (2, 2)]⟩ (some ⟨0, 1, 0⟩) none 0)
    (by
      have h1 : (Reader.new true 44).fill_arena [104] ByteRecordArena.new =
          (⟨⟨44, .inField, 1, 1⟩, 0, 0, true, true, 1, 0⟩,
            ByteRecordArena.mk ⟨[104], [], []⟩ (some ⟨0, 1, 0⟩) none 0, .ok ()) := by
        rw [fill_arena_eq_pure _ _ _ (by decide) (by decide)]
        simp [pureFillArena, pureFill, pureTokRR, pureTokGo, coreStep, checkColCount,
          CoreReader.new, Reader.new, ByteRecordArena.new, RawRecordArena.new, quoteByte,
          lfByte, ByteRecordArena.headers, RawRecordArena.lastRecordEnd, Headers.len]
      have h2 : (⟨⟨44, .inField, 1, 1⟩, 0, 0, true, true, 1, 0⟩ : Reader).fill_arena
          [10, 120, 10]
          (ByteRecordArena.mk ⟨[104], [], []⟩ (some ⟨0, 1, 0⟩) none 0) =
          (⟨⟨44, .startRecord, 0, 3⟩, 0, 0, false, true, 4, 1⟩,
            ByteRecordArena.mk ⟨[120], [1], [(1, 1)]⟩ (some ⟨0, 1, 0⟩)
              (some ⟨[104], [1]⟩) 0, .ok ()) := by
        rw [fill_arena_eq_pure _ _ _ (by decide) (by decide)]
        simp [pureFillArena, pureFill, pureTokRR, pureTokGo, coreStep, checkColCount,
          CoreReader.new, Reader.new, ByteRecordArena.new, RawRecordArena.new, quoteByte,
          lfByte, ByteRecordArena.headers, RawRecordArena.lastRecordEnd, Headers.len]
      rw [fillChunks, h1]
      simp only []
      rw [fillChunks, h2]
      simp only []
      rw [fillChunks])
    (by
      have hb := fill_arena_eq_pure (Reader.new false 44) [[104], [10, 120, 10]].join
        ByteRecordArena.new (by decide) (by decide)
      rw [hb]
      simp [pureFillArena, pureFill, pureTokRR, pureTokGo, coreStep, checkColCount,
        CoreReader.new, Reader.new, ByteRecordArena.new, RawRecordArena.new, quoteByte,
        lfByte, ByteRecordArena.headers, RawRecordArena.lastRecordEnd, Headers.len])

end SleekCsv
